import Mathlib

/-!
# Expression pipeline of `day3/main.c` (tokenizer, parser, arena, compiler, VM)

A shallow embedding of the C program.  Conventions of the embedding:

* a C string is the list of its character codes; the terminating NUL is the
  one extra byte of the object, so reading at offset `length` yields `0` and
  reading further is a fault (`fault.bad_read`);
* `const char *` values into the text are offsets (`Nat`);
* the globals `token` and `stream` are threaded explicitly (`lexer_t`);
* a `node_t *` is either `node_t.null` or a node with its two child pointers;
* `s32`/`int` values are integers kept in range by `wrap32`;
* `fatal(..)`, a failing `assert(..)` and undefined behaviour are results
  `Except.error _` with distinct tags;
* loops carry a fuel argument, set by the callers to a bound the loop cannot
  exceed, since every iteration consumes at least one byte of a finite object;
  `parse_expr_str_fuel` proves that the bound is never reached.
-/

namespace Day3

/-! ## Ways a run can stop without a value -/

/-- Reasons for which the C program stops without producing a value. -/
inductive fault where
  /-- The call `fatal("expected integer\n")` of `parse_expr3`. -/
  | expected_integer
  /-- The call `fatal("vm_exec: illegal opcode")` of `vm_exec`. -/
  | illegal_opcode
  /-- A failing `assert(..)`. -/
  | assert_failed
  /-- A read outside the object pointed into (undefined behaviour). -/
  | bad_read
  /-- A write outside the object pointed into (undefined behaviour). -/
  | bad_write
  /-- A member access through a null `node_t *` (undefined behaviour). -/
  | null_deref
  /-- The division `left / right` with `right == 0` or `INT_MIN / -1`. -/
  | bad_divide
  /-- An access to a VM stack slot outside `0..MAX_STACK-1`. -/
  | bad_slot
  /-- The fuel of a loop of the embedding ran out. -/
  | out_of_fuel
  deriving DecidableEq, Repr

/-- The faults that the program itself reports: `fatal(..)` and `assert(..)`. -/
def fault.is_fatal : fault → Bool
  | .expected_integer => true
  | .illegal_opcode => true
  | .assert_failed => true
  | _ => false

/-! ## Machine integers -/

/-- Two's complement reduction of an integer to the range of `s32`. -/
def wrap32 (x : Int) : Int := (x + 2147483648) % 4294967296 - 2147483648

/-- Range of `s32`. -/
def in_s32 (x : Int) : Prop := -2147483648 ≤ x ∧ x ≤ 2147483647

instance (x : Int) : Decidable (in_s32 x) := by unfold in_s32; infer_instance

/-- Reduction modulo `2^64`, the arithmetic of `size_t`. -/
def wrap_size (x : Nat) : Nat := x % 18446744073709551616

/-! ## Tokenizer -/

/-- The only enumerator of `token_kind_t`; its value is `0`. -/
def TOKEN_INT : Nat := 0

/-- The struct `token_t`: `start` and `end` are offsets into the text. -/
structure token_t where
  kind : Nat
  start : Nat
  end_ : Nat
  val : Int
  deriving DecidableEq, Repr

/-- The globals `token` and `stream`. -/
structure lexer_t where
  token : token_t
  stream : Nat
  deriving DecidableEq, Repr

/-- Character codes of a string literal. -/
def cstr (s : String) : List Nat := s.toList.map Char.toNat

/-- The read `*p` of a `const char *` at offset `p` of the C string `text`. -/
def deref (text : List Nat) (p : Nat) : Except fault Nat :=
  match (text ++ [0])[p]? with
  | some c => .ok c
  | none => .error .bad_read

/-- The test `isdigit(c)`, also the case range `'0' ... '9'`. -/
def isdigit (c : Nat) : Bool := decide (48 ≤ c) && decide (c ≤ 57)

/-- The loop `while (isdigit(*stream)) { val *= 10; val += *stream++ - '0'; }`. -/
def scan_int (text : List Nat) : Nat → Nat → Int → Except fault (Nat × Int)
  | 0, _, _ => .error .out_of_fuel
  | fuel + 1, stream, val => do
    let c ← deref text stream
    if isdigit c then
      scan_int text fuel (stream + 1) (wrap32 (wrap32 (val * 10) + ((c : Int) - 48)))
    else
      pure (stream, val)

/-- The body of `next_token`, recursing on a space. -/
def next_token_go (text : List Nat) : Nat → lexer_t → Except fault lexer_t
  | 0, _ => .error .out_of_fuel
  | fuel + 1, s => do
    let t := { s.token with start := s.stream }
    let c ← deref text s.stream
    if isdigit c then
      let (stream, val) ← scan_int text (text.length + 2) s.stream 0
      let t := { t with kind := TOKEN_INT, val := val }
      pure { token := { t with end_ := stream }, stream := stream }
    else if c = 32 then
      let t := { t with kind := c }
      let s1 ← next_token_go text fuel { token := t, stream := s.stream + 1 }
      pure { token := { s1.token with end_ := s1.stream }, stream := s1.stream }
    else
      let t := { t with kind := c }
      pure { token := { t with end_ := s.stream + 1 }, stream := s.stream + 1 }

/-- The function `next_token`. -/
def next_token (text : List Nat) (s : lexer_t) : Except fault lexer_t :=
  next_token_go text (text.length + 2) s

/-- The function `is_token`. -/
def is_token (s : lexer_t) (kind : Nat) : Bool := s.token.kind == kind

/-- The function `init_stream`; `tok` is the value the global `token` has at the call. -/
def init_stream (text : List Nat) (tok : token_t) : Except fault lexer_t :=
  next_token text { token := tok, stream := 0 }

/-- The zero-initialised global `token` of a fresh process. -/
def token_zero : token_t := { kind := 0, start := 0, end_ := 0, val := 0 }

/-! ## Parser -/

/-- A value of type `node_t *`: null, or a node with its token and children. -/
inductive node_t where
  | null
  | node (token : token_t) (left right : node_t)
  deriving DecidableEq, Repr

/-- The function `create_node`. -/
def create_node (t : token_t) (a b : node_t) : node_t := .node t a b

/-- The assignment `r->left = x`. -/
def node_t.set_left : node_t → node_t → Except fault node_t
  | .null, _ => .error .null_deref
  | .node t _ r, x => .ok (.node t x r)

/-- The assignment `r->right = x`. -/
def node_t.set_right : node_t → node_t → Except fault node_t
  | .null, _ => .error .null_deref
  | .node t l _, x => .ok (.node t l x)

/-- The function `parse_expr3`. -/
def parse_expr3 (text : List Nat) (s : lexer_t) : Except fault (node_t × lexer_t) :=
  if is_token s TOKEN_INT then do
    let node := create_node s.token .null .null
    let s1 ← next_token text s
    pure (node, s1)
  else
    .error .expected_integer

/-- The function `parse_expr2`, recursing on `~`. -/
def parse_expr2_go (text : List Nat) : Nat → lexer_t → Except fault (node_t × lexer_t)
  | 0, _ => .error .out_of_fuel
  | fuel + 1, s =>
    if is_token s 126 then do
      let r := create_node s.token .null .null
      let s1 ← next_token text s
      let (x, s2) ← parse_expr2_go text fuel s1
      let r ← r.set_left x
      pure (r, s2)
    else
      parse_expr3 text s

/-- The function `parse_expr2`. -/
def parse_expr2 (text : List Nat) (s : lexer_t) : Except fault (node_t × lexer_t) :=
  parse_expr2_go text (text.length + 2) s

/-- The loop `while (is_token('*') || is_token('/')) ..` of `parse_expr1`. -/
def parse_expr1_loop (text : List Nat) :
    Nat → node_t → lexer_t → Except fault (node_t × lexer_t)
  | 0, _, _ => .error .out_of_fuel
  | fuel + 1, r, s =>
    if is_token s 42 || is_token s 47 then do
      let r := create_node s.token r .null
      let s1 ← next_token text s
      let (x, s2) ← parse_expr2 text s1
      let r ← r.set_right x
      parse_expr1_loop text fuel r s2
    else
      pure (r, s)

/-- The function `parse_expr1`. -/
def parse_expr1 (text : List Nat) (s : lexer_t) : Except fault (node_t × lexer_t) := do
  let (r, s1) ← parse_expr2 text s
  parse_expr1_loop text (text.length + 2) r s1

/-- The loop `while (is_token('+') || is_token('-')) ..` of `parse_expr0`. -/
def parse_expr0_loop (text : List Nat) :
    Nat → node_t → lexer_t → Except fault (node_t × lexer_t)
  | 0, _, _ => .error .out_of_fuel
  | fuel + 1, r, s =>
    if is_token s 43 || is_token s 45 then do
      let r := create_node s.token r .null
      let s1 ← next_token text s
      let (x, s2) ← parse_expr1 text s1
      let r ← r.set_right x
      parse_expr0_loop text fuel r s2
    else
      pure (r, s)

/-- The function `parse_expr0`. -/
def parse_expr0 (text : List Nat) (s : lexer_t) : Except fault (node_t × lexer_t) := do
  let (r, s1) ← parse_expr1 text s
  parse_expr0_loop text (text.length + 2) r s1

/-- The function `parse_expr`. -/
def parse_expr (text : List Nat) (s : lexer_t) : Except fault (node_t × lexer_t) :=
  parse_expr0 text s

/-- The function `print_tree`, returning the characters it prints. -/
def print_tree : node_t → Except fault String
  | .null => .error .null_deref
  | .node t l r =>
    if t.kind = TOKEN_INT then
      .ok (toString t.val)
    else do
      let a ← (match l with
        | .null => pure ""
        | .node _ _ _ => do let x ← print_tree l; pure (" " ++ x))
      let b ← (match r with
        | .null => pure ""
        | .node _ _ _ => do let x ← print_tree r; pure (" " ++ x))
      pure ("(" ++ String.singleton (Char.ofNat t.kind) ++ a ++ b ++ ")")

/-- The calls `init_stream(in); tree = parse_expr(); print_tree(tree)` of `parse_and_print`. -/
def parse_and_print (text : List Nat) (tok : token_t) : Except fault String := do
  let s ← init_stream text tok
  let (tree, _) ← parse_expr text s
  print_tree tree

/-! ## Arena allocator -/

/-- The struct `memory_arena_t`; `base` is the content of the buffer `base` points to. -/
structure memory_arena_t where
  size : Nat
  alignment : Nat
  base : List Nat
  used : Nat
  deriving DecidableEq, Repr

/-- The function `init_arena`. -/
def init_arena (arena : memory_arena_t) (size : Nat) (base : List Nat) : memory_arena_t :=
  { arena with size := size, base := base, used := 0 }

/-- The function `push_size`: the offset of the result in the buffer, and the arena. -/
def push_size (arena : memory_arena_t) (size : Nat) : Except fault (Nat × memory_arena_t) :=
  if wrap_size (arena.used + size) ≤ arena.size then
    .ok (arena.used, { arena with used := wrap_size (arena.used + size) })
  else
    .error .assert_failed

/-- The function `reset_arena`. -/
def reset_arena (arena : memory_arena_t) : memory_arena_t :=
  { arena with used := 0 }

/-- The store `*p = v` of one byte at offset `p` of a buffer. -/
def store8 (mem : List Nat) (p : Nat) (v : Nat) : Except fault (List Nat) :=
  if p < mem.length then .ok (mem.set p v) else .error .bad_write

/-- The bytes of an `s32` in memory, least significant first. -/
def bytes_of_s32 (v : Int) : List Nat :=
  let u := (v % 4294967296).toNat
  [u % 256, u / 256 % 256, u / 65536 % 256, u / 16777216 % 256]

/-- The store `*(s32 *)p = v` at offset `p` of a buffer. -/
def store32 (mem : List Nat) (p : Nat) (v : Int) : Except fault (List Nat) :=
  if p + 4 ≤ mem.length then
    match bytes_of_s32 v with
    | [b0, b1, b2, b3] =>
      .ok ((((mem.set p b0).set (p + 1) b1).set (p + 2) b2).set (p + 3) b3)
    | _ => .error .bad_write
  else .error .bad_write

/-- The read `*(s32 *)p` at offset `p` of a buffer. -/
def load32 (mem : List Nat) (p : Nat) : Except fault Int :=
  match mem[p]?, mem[p + 1]?, mem[p + 2]?, mem[p + 3]? with
  | some b0, some b1, some b2, some b3 =>
    .ok (wrap32 ((b0 : Int) + 256 * b1 + 65536 * b2 + 16777216 * b3))
  | _, _, _, _ => .error .bad_read

/-! ## Bytecode -/

/-- Opcode `HALT`. -/
def HALT : Nat := 1

/-- Opcode `LIT`. -/
def LIT : Nat := 2

/-- Opcode `SUB`, the character `'-'`. -/
def SUB : Nat := 45

/-- Opcode `ADD`, the character `'+'`. -/
def ADD : Nat := 43

/-- Opcode `MUL`, the character `'*'`. -/
def MUL : Nat := 42

/-- Opcode `DIV`, the character `'/'`. -/
def DIV : Nat := 47

/-- The enumerator `MAX_STACK` of `vm_exec`. -/
def MAX_STACK : Nat := 1024

/-- The function `push_op`; the argument is converted to `u8`. -/
def push_op (arena : memory_arena_t) (op : Nat) : Except fault memory_arena_t := do
  let (p, arena) ← push_size arena 1
  let mem ← store8 arena.base p (op % 256)
  pure { arena with base := mem }

/-- The function `push_lit`. -/
def push_lit (arena : memory_arena_t) (value : Int) : Except fault memory_arena_t := do
  let arena ← push_op arena LIT
  let (p, arena) ← push_size arena 4
  let mem ← store32 arena.base p value
  pure { arena with base := mem }

/-- The function `compile`. -/
def compile (arena : memory_arena_t) : node_t → Except fault memory_arena_t
  | .null => .error .null_deref
  | .node t l r =>
    if t.kind = TOKEN_INT then
      push_lit arena t.val
    else do
      let arena ← compile arena l
      let arena ← compile arena r
      push_op arena t.kind

/-! ## Virtual machine

The operand stack is the list of the live slots `stack[0] .. top[-1]`, the
most recently pushed first; its length is `top - stack`. -/

/-- The macro `POPS(n)`. -/
def POPS (stack : List Int) (n : Nat) : Except fault Unit :=
  if n ≤ stack.length then .ok () else .error .assert_failed

/-- The macro `PUSHES(n)`. -/
def PUSHES (stack : List Int) (n : Nat) : Except fault Unit :=
  if stack.length + n ≤ MAX_STACK then .ok () else .error .assert_failed

/-- The macro `POP()`: reads slot `top - 1 - stack`. -/
def POP : List Int → Except fault (Int × List Int)
  | [] => .error .bad_slot
  | x :: stack => .ok (x, stack)

/-- The macro `PUSH(x)`: writes slot `top - stack`. -/
def PUSH (stack : List Int) (x : Int) : Except fault (List Int) :=
  if stack.length < MAX_STACK then .ok (x :: stack) else .error .bad_slot

/-- The division `left / right` of two `s32`. -/
def div_s32 (left right : Int) : Except fault Int :=
  if right = 0 ∨ (left = -2147483648 ∧ right = -1) then .error .bad_divide
  else .ok (Int.tdiv left right)

/-- What one pass through the body of the loop of `vm_exec` does. -/
inductive vm_next where
  /-- The `break` of a case: the loop goes on with this `code` and stack. -/
  | next (code : Nat) (stack : List Int)
  /-- The `return` of case `HALT`. -/
  | ret (value : Int)
  deriving DecidableEq, Repr

/-- The shared shape of the cases `SUB`, `ADD`, `MUL` and `DIV`. -/
def vm_binary (code : Nat) (stack : List Int) (f : Int → Int → Except fault Int) :
    Except fault vm_next := do
  POPS stack 2
  let (right, stack) ← POP stack
  let (left, stack) ← POP stack
  PUSHES stack 1
  let x ← f left right
  let stack ← PUSH stack x
  pure (.next code stack)

/-- The body of the loop of `vm_exec`: `mem` is the buffer `code` points into. -/
def vm_step (mem : List Nat) (code : Nat) (stack : List Int) : Except fault vm_next :=
  match mem[code]? with
  | none => .error .bad_read
  | some op =>
    let code := code + 1
    if op = SUB then vm_binary code stack (fun left right => .ok (wrap32 (left - right)))
    else if op = ADD then vm_binary code stack (fun left right => .ok (wrap32 (left + right)))
    else if op = MUL then vm_binary code stack (fun left right => .ok (wrap32 (left * right)))
    else if op = DIV then vm_binary code stack div_s32
    else if op = LIT then do
      PUSHES stack 1
      let x ← load32 mem code
      let stack ← PUSH stack x
      pure (.next (code + 4) stack)
    else if op = HALT then do
      POPS stack 1
      let (x, _) ← POP stack
      pure (.ret x)
    else .error .illegal_opcode

/-- The loop `for (;;)` of `vm_exec`. -/
def vm_loop (mem : List Nat) : Nat → Nat → List Int → Except fault Int
  | 0, _, _ => .error .out_of_fuel
  | fuel + 1, code, stack => do
    match ← vm_step mem code stack with
    | .next code stack => vm_loop mem fuel code stack
    | .ret value => pure value

/-- The function `vm_exec`, started at offset `0` of the buffer `mem`. -/
def vm_exec (mem : List Nat) : Except fault Int :=
  vm_loop mem (mem.length + 1) 0 []

/-- The function `test_vm_op`. -/
def test_vm_op (arena : memory_arena_t) (a b : Int) (op : Nat) (result : Int) :
    Except fault memory_arena_t := do
  let arena ← push_lit arena a
  let arena ← push_lit arena b
  let arena ← push_op arena op
  let arena ← push_op arena HALT
  let r ← vm_exec arena.base
  if r = result then pure (reset_arena arena) else .error .assert_failed

/-- The function `parse_expr_str`: the returned `int`, then the arena and the
globals as the call leaves them; `tok` is the global `token` at the call. -/
def parse_expr_str (arena : memory_arena_t) (tok : token_t) (str : List Nat) :
    Except fault (Int × memory_arena_t × lexer_t) := do
  let s ← init_stream str tok
  let (tree, s) ← parse_expr str s
  let arena ← compile arena tree
  let arena ← push_op arena HALT
  let r ← vm_exec arena.base
  pure (r, reset_arena arena, s)

/-- The value of `r` in `test_vm_op`: what `vm_exec` returns on the bytecode
`push_lit(a), push_lit(b), op, HALT` pushed into `arena`. -/
def vm_op_result (arena : memory_arena_t) (a b : Int) (op : Nat) : Except fault Int := do
  let arena ← push_lit arena a
  let arena ← push_lit arena b
  let arena ← push_op arena op
  let arena ← push_op arena HALT
  vm_exec arena.base

/-! ## Reference notions used to state the properties -/

/-- The value the digit loop of `next_token` leaves in `val` when it starts from `v` and
reads the digits `ds`. -/
def atoi_from (v : Int) (ds : List Nat) : Int :=
  ds.foldl (fun (v : Int) (c : Nat) => wrap32 (wrap32 (v * 10) + ((c : Int) - 48))) v

/-- The literal value `next_token` gives to the run of digits `ds`. -/
def atoi (ds : List Nat) : Int := atoi_from 0 ds

/-- A run of `n` space characters. -/
def spaces (n : Nat) : List Nat := List.replicate n 32

/-- The shape of a tree, without the source spans of its tokens: a `TOKEN_INT` node
without children is a leaf with its value, every other node is shown with its kind and
its two children, a null pointer as `null`. -/
inductive ast where
  | null
  | int (val : Int)
  | op (kind : Nat) (left right : ast)
  deriving DecidableEq, Repr

/-- The shape of the tree behind a `node_t *`. -/
def node_t.ast : node_t → ast
  | .null => .null
  | .node t l r =>
    if t.kind = TOKEN_INT ∧ l = .null ∧ r = .null then .int t.val
    else .op t.kind l.ast r.ast

/-- The state of the globals right after a call of `next_token` made with `stream` at
offset `p`: the token that starts at or after `p` is the current one. -/
def lookahead (text : List Nat) (p : Nat) (s : lexer_t) : Prop :=
  ∃ t : token_t, next_token text ⟨t, p⟩ = .ok s

/-- Text of a factor: prefix `~` operators and a decimal literal, each token preceded by
any number of spaces. -/
structure factor_text where
  /-- For each `~`, the number of spaces before it. -/
  tildes : List Nat
  /-- The number of spaces before the literal. -/
  sp : Nat
  /-- The digits of the literal. -/
  digits : List Nat
  deriving DecidableEq, Repr

/-- The characters of a factor. -/
def factor_text.render (f : factor_text) : List Nat :=
  (f.tildes.map fun n => spaces n ++ [126]).flatten ++ (spaces f.sp ++ f.digits)

/-- The literal is a non-empty run of decimal digits. -/
def factor_text.wf (f : factor_text) : Prop :=
  f.digits ≠ [] ∧ ∀ c ∈ f.digits, isdigit c = true

instance (f : factor_text) : Decidable f.wf := by unfold factor_text.wf; infer_instance

/-- The tree of a factor: the `~` nodes nested to the right around the literal, each with
a left child only. -/
def factor_text.tree (f : factor_text) : ast :=
  f.tildes.foldr (fun _ t => ast.op 126 t .null) (.int (atoi f.digits))

/-- An operator `* /` and the factor to its right. -/
structure op_factor where
  sp : Nat
  op : Nat
  arg : factor_text
  deriving DecidableEq, Repr

/-- The characters of an operator and its right operand. -/
def op_factor.render (x : op_factor) : List Nat := spaces x.sp ++ [x.op] ++ x.arg.render

/-- Text of a term: factors separated by `*` and `/`. -/
structure term_text where
  first : factor_text
  rest : List op_factor
  deriving DecidableEq, Repr

/-- The characters of a term. -/
def term_text.render (t : term_text) : List Nat :=
  t.first.render ++ (t.rest.map op_factor.render).flatten

/-- The factors are well formed and the operators are `*` or `/`. -/
def term_text.wf (t : term_text) : Prop :=
  t.first.wf ∧ ∀ x ∈ t.rest, (x.op = 42 ∨ x.op = 47) ∧ x.arg.wf

instance (t : term_text) : Decidable t.wf := by unfold term_text.wf; infer_instance

/-- The tree of a term: nested to the left. -/
def term_text.tree (t : term_text) : ast :=
  t.rest.foldl (fun acc x => ast.op x.op acc x.arg.tree) t.first.tree

/-- An operator `+ -` and the term to its right. -/
structure op_term where
  sp : Nat
  op : Nat
  arg : term_text
  deriving DecidableEq, Repr

/-- The characters of an operator and its right operand. -/
def op_term.render (x : op_term) : List Nat := spaces x.sp ++ [x.op] ++ x.arg.render

/-- Text of an expression: terms separated by `+` and `-`. -/
structure sum_text where
  first : term_text
  rest : List op_term
  deriving DecidableEq, Repr

/-- The characters of an expression. -/
def sum_text.render (e : sum_text) : List Nat :=
  e.first.render ++ (e.rest.map op_term.render).flatten

/-- The terms are well formed and the operators are `+` or `-`. -/
def sum_text.wf (e : sum_text) : Prop :=
  e.first.wf ∧ ∀ x ∈ e.rest, (x.op = 43 ∨ x.op = 45) ∧ x.arg.wf

instance (e : sum_text) : Decidable e.wf := by unfold sum_text.wf; infer_instance

/-- The tree of an expression: nested to the left. -/
def sum_text.tree (e : sum_text) : ast :=
  e.rest.foldl (fun acc x => ast.op x.op acc x.arg.tree) e.first.tree

/-- A decimal literal: a non-empty run of the characters `0 .. 9`. -/
def is_literal (ds : List Nat) : Prop := ds ≠ [] ∧ ∀ c ∈ ds, isdigit c = true

instance (ds : List Nat) : Decidable (is_literal ds) := by unfold is_literal; infer_instance

/-- The characters of a chain `x0 o1 x1 .. on xn`, given as `x0` and the pairs `(oi, xi)`. -/
def chain_text (x0 : List Nat) (items : List (Nat × List Nat)) : List Nat :=
  x0 ++ (items.map fun x => x.1 :: x.2).flatten

/-- The fully left-nested tree `(on .. (o2 (o1 x0 x1) x2) .. xn)` of a chain. -/
def chain_tree (x0 : List Nat) (items : List (Nat × List Nat)) : ast :=
  items.foldl (fun acc x => ast.op x.1 acc (.int (atoi x.2))) (.int (atoi x0))

/-- The nest of `k` nodes `~`, each with a left child only, around `t`. -/
def tilde_nest : Nat → ast → ast
  | 0, t => t
  | k + 1, t => .op 126 (tilde_nest k t) .null

/-- An arena over a fresh buffer of `n` zero bytes, as `init_arena` leaves it. -/
def fresh_arena (n : Nat) : memory_arena_t :=
  init_arena { size := 0, alignment := 0, base := [], used := 0 } n (List.replicate n 0)

/-- The buffer `mem` with the bytes `bs` written from offset `p` on. -/
def blit (mem : List Nat) (p : Nat) (bs : List Nat) : List Nat :=
  mem.take p ++ bs ++ mem.drop (p + bs.length)

/-- The arena after the bytes `bs` were pushed one after the other. -/
def emit (arena : memory_arena_t) (bs : List Nat) : memory_arena_t :=
  { arena with base := blit arena.base arena.used bs, used := arena.used + bs.length }

/-- An arena whose bookkeeping fits its buffer and the type `size_t`. -/
def arena_ok (arena : memory_arena_t) : Prop :=
  arena.used ≤ arena.size ∧ arena.size ≤ arena.base.length ∧ arena.size < 18446744073709551616

instance (arena : memory_arena_t) : Decidable (arena_ok arena) := by
  unfold arena_ok; infer_instance

/-- The four bytes of `v` as a little-endian two's complement 32-bit integer. -/
def le32 (v : Int) : List Nat :=
  [(v % 256).toNat, (v / 256 % 256).toNat, (v / 65536 % 256).toNat, (v / 16777216 % 256).toNat]

/-- The reference encoding: post-order, a leaf as `LIT` and its four bytes, a binary node
as the code of its children followed by the character of its operator. -/
def ast.bytes : ast → List Nat
  | .null => []
  | .int v => 2 :: le32 v
  | .op k l r => l.bytes ++ r.bytes ++ [k]

/-- A tree of integer leaves and binary nodes `+ - * /`. -/
def ast.is_arith : ast → Prop
  | .null => False
  | .int _ => True
  | .op k l r => (k = 43 ∨ k = 45 ∨ k = 42 ∨ k = 47) ∧ l.is_arith ∧ r.is_arith

instance ast.decidable_is_arith : (t : ast) → Decidable t.is_arith
  | .null => isFalse (fun h => h)
  | .int _ => isTrue trivial
  | .op k l r =>
    have := ast.decidable_is_arith l
    have := ast.decidable_is_arith r
    by unfold ast.is_arith; infer_instance

/-- The number of nodes of a tree. -/
def ast.nodes : ast → Nat
  | .null => 0
  | .int _ => 1
  | .op _ l r => l.nodes + r.nodes + 1

/-- The value `x` if it is in the range of `s32`. -/
def checked (x : Int) : Option Int := if in_s32 x then some x else none

/-- Exact integer arithmetic: `+ - *`, and `/` truncating toward zero, undefined on a zero
divisor. -/
def arith (k : Nat) (a b : Int) : Option Int :=
  if k = 43 then some (a + b)
  else if k = 45 then some (a - b)
  else if k = 42 then some (a * b)
  else if k = 47 then (if b = 0 then none else some (Int.tdiv a b))
  else none

/-- The exact value of a tree of integer leaves and binary operators, defined when no
divisor is zero and every leaf and intermediate result is in the range of `s32`. -/
def ast.value : ast → Option Int
  | .null => none
  | .int v => checked v
  | .op k l r => do
    let a ← l.value
    let b ← r.value
    let x ← arith k a b
    checked x

/-- The largest number of stack slots that running the code of a tree holds on top of
what was there before. -/
def ast.need : ast → Nat
  | .null => 0
  | .int _ => 1
  | .op _ l r => max l.need (r.need + 1)

/-- The number a run of decimal digits denotes. -/
def decimal (ds : List Nat) : Int :=
  ds.foldl (fun (v : Int) (c : Nat) => 10 * v + ((c : Int) - 48)) 0

/-- The value of a factor under standard arithmetic: the number its literal denotes.
Undefined when the factor has a prefix `~` or the number is outside the range of `s32`. -/
def factor_text.value (f : factor_text) : Option Int :=
  if f.tildes = [] then checked (decimal f.digits) else none

/-- One step of a left-to-right evaluation: the value so far, combined by the operator `k`
with the value of the next operand; undefined on a zero divisor and outside `s32`. -/
def eval_step (acc : Option Int) (k : Nat) (operand : Option Int) : Option Int := do
  let a ← acc
  let b ← operand
  let x ← arith k a b
  checked x

/-- The value of a term under standard arithmetic: its factors combined from left to
right. -/
def term_text.value (t : term_text) : Option Int :=
  t.rest.foldl (fun acc x => eval_step acc x.op x.arg.value) t.first.value

/-- The value of an expression under standard arithmetic: its terms, evaluated first,
combined from left to right. -/
def sum_text.value (e : sum_text) : Option Int :=
  e.rest.foldl (fun acc x => eval_step acc x.op x.arg.value) e.first.value

/-- What a defined value says about the tree: it has that value, is made of integer
leaves and binary operators, and needs at most `m` stack slots. -/
def sound (m : Nat) (o : Option Int) (t : ast) : Prop :=
  ∀ v, o = some v → t.value = some v ∧ t.is_arith ∧ t.need ≤ m

/-- The character `next_token` looks at once the spaces are skipped: the first character
of `rest`, or the terminator when `rest` is empty. -/
def first_char (rest : List Nat) : Nat := rest.headD 0

/-- The maximal run of decimal digits at the head of `rest`. -/
def digit_run (rest : List Nat) : List Nat := rest.takeWhile isdigit

/-- The shape invariant of a tree: a `TOKEN_INT` node has no children, a `~` node has a
left child, itself a valid tree, and no right child, a `+ - * /` node has two children,
both valid trees, and no other kind of node occurs. -/
def shape_ok : node_t → Prop
  | .null => False
  | .node t l r =>
    if t.kind = TOKEN_INT then l = .null ∧ r = .null
    else if t.kind = 126 then shape_ok l ∧ r = .null
    else if t.kind = 43 ∨ t.kind = 45 ∨ t.kind = 42 ∨ t.kind = 47 then shape_ok l ∧ shape_ok r
    else False

/-- The nesting depth of a tree: the number of nodes on its longest path from the root to
a leaf. -/
def ast.depth : ast → Nat
  | .null => 0
  | .int _ => 1
  | .op _ l r => max l.depth r.depth + 1

/-- What one arithmetic opcode of `vm_exec` computes from `left` and `right`. -/
def binop_s32 (k : Nat) (left right : Int) : Except fault Int :=
  if k = 45 then .ok (wrap32 (left - right))
  else if k = 43 then .ok (wrap32 (left + right))
  else if k = 42 then .ok (wrap32 (left * right))
  else if k = 47 then div_s32 left right
  else .error .illegal_opcode

/-- The value of a tree in the arithmetic of the machine: `s32` operations, a fault on the
division by zero and on `INT_MIN / -1`. -/
def ast.exec : ast → Except fault Int
  | .null => .error .null_deref
  | .int v => .ok (wrap32 v)
  | .op k l r => do
    let a ← l.exec
    let b ← r.exec
    binop_s32 k a b

/-- The passes through the loop head of `vm_exec`: for each of them the offset `code` of
the opcode about to be read and the number of values on the stack.  Between two passes
the stack never holds more values than at the later or the earlier one. -/
def vm_trace (mem : List Nat) : Nat → Nat → List Int → List (Nat × Nat)
  | 0, _, _ => []
  | fuel + 1, code, stack =>
    (code, stack.length) ::
      match vm_step mem code stack with
      | .ok (.next code1 stack1) => vm_trace mem fuel code1 stack1
      | _ => []

/-- The passes through the loop head in a run of `vm_exec`. -/
def vm_exec_trace (mem : List Nat) : List (Nat × Nat) :=
  vm_trace mem (mem.length + 1) 0 []

/-! ## The exact tree of an expression text -/

/-- The state of the globals right after a call of `next_token` made with `stream` at
offset `p` and the field `val` of `token` holding `val`. -/
def lookahead_val (text : List Nat) (p : Nat) (val : Int) (s : lexer_t) : Prop :=
  ∃ t : token_t, t.val = val ∧ next_token text ⟨t, p⟩ = .ok s

/-- The first character of a text that is not a space, `0` when there is none. -/
def first_nonspace (rest : List Nat) : Nat := first_char (rest.dropWhile (· = 32))

/-- The nodes of a factor whose text starts at offset `off`, with their spans: `val` is the
value the field `val` of `token` holds when the factor is entered, which the `~` tokens
keep. -/
def factor_text.node_go (sp : Nat) (digits : List Nat) (val : Int) : List Nat → Nat → node_t
  | [], off => .node ⟨TOKEN_INT, off + sp, off + sp + digits.length, atoi digits⟩ .null .null
  | n :: ts, off =>
    .node ⟨126, off + n, off + n + 1, val⟩ (factor_text.node_go sp digits val ts (off + n + 1))
      .null

/-- The nodes of a factor whose text starts at offset `off`. -/
def factor_text.node (f : factor_text) (off : Nat) (val : Int) : node_t :=
  factor_text.node_go f.sp f.digits val f.tildes off

/-- The nodes of a sequence of operators `* /` and factors starting at offset `off`, folded
to the left onto `r`. -/
def op_factors_node : List op_factor → Nat → Int → node_t → node_t
  | [], _, _, r => r
  | x :: xs, off, val, r =>
    op_factors_node xs (off + x.render.length) (atoi x.arg.digits)
      (.node ⟨x.op, off + x.sp, off + x.sp + 1, val⟩ r (x.arg.node (off + x.sp + 1) val))

/-- The value of the last literal of a sequence of operators and factors. -/
def op_factors_val : List op_factor → Int → Int
  | [], val => val
  | x :: xs, _ => op_factors_val xs (atoi x.arg.digits)

/-- The nodes of a term whose text starts at offset `off`. -/
def term_text.node (t : term_text) (off : Nat) (val : Int) : node_t :=
  op_factors_node t.rest (off + t.first.render.length) (atoi t.first.digits)
    (t.first.node off val)

/-- The value of the last literal of a term. -/
def term_text.last (t : term_text) : Int := op_factors_val t.rest (atoi t.first.digits)

/-- The nodes of a sequence of operators `+ -` and terms starting at offset `off`, folded
to the left onto `r`. -/
def op_terms_node : List op_term → Nat → Int → node_t → node_t
  | [], _, _, r => r
  | x :: xs, off, val, r =>
    op_terms_node xs (off + x.render.length) x.arg.last
      (.node ⟨x.op, off + x.sp, off + x.sp + 1, val⟩ r (x.arg.node (off + x.sp + 1) val))

/-- The value of the last literal of a sequence of operators and terms. -/
def op_terms_val : List op_term → Int → Int
  | [], val => val
  | x :: xs, _ => op_terms_val xs x.arg.last

/-- The nodes of an expression whose text starts at offset `off`. -/
def sum_text.node (e : sum_text) (off : Nat) (val : Int) : node_t :=
  op_terms_node e.rest (off + e.first.render.length) e.first.last (e.first.node off val)

/-! ## The loop body of `vm_exec` -/

@[simp] theorem bind_ok_eq {α β : Type} (a : α) (f : α → Except fault β) :
    (Except.ok a >>= f) = f a := rfl

@[simp] theorem bind_error_eq {α β : Type} (e : fault) (f : α → Except fault β) :
    (Except.error e >>= f) = Except.error e := rfl

@[simp] theorem pure_eq_ok {α : Type} (a : α) : (pure a : Except fault α) = Except.ok a := rfl

theorem vm_step_halt (mem : List Nat) (code : Nat) (stack : List Int)
    (h : mem[code]? = some HALT) :
    vm_step mem code stack =
      match stack with
      | [] => .error .assert_failed
      | x :: _ => .ok (.ret x) := by
  cases stack <;> simp [vm_step, h, HALT, SUB, ADD, MUL, DIV, LIT, POPS, POP]

theorem vm_binary_cases (code : Nat) (stack : List Int) (f : Int → Int → Except fault Int)
    (hd : stack.length ≤ MAX_STACK) :
    (stack.length < 2 ∧ vm_binary code stack f = .error .assert_failed) ∨
    (∃ right left rest, stack = right :: left :: rest ∧
      ((∃ e, f left right = .error e ∧ vm_binary code stack f = .error e) ∨
       (∃ x, f left right = .ok x ∧ vm_binary code stack f = .ok (.next code (x :: rest))))) := by
  match stack, hd with
  | [], _ => left; simp [vm_binary, POPS]
  | [_], _ => left; simp [vm_binary, POPS]
  | right :: left :: rest, hd =>
    right
    refine ⟨right, left, rest, rfl, ?_⟩
    simp only [List.length_cons, MAX_STACK] at hd
    have h1 : rest.length + 1 ≤ MAX_STACK := by simp only [MAX_STACK]; omega
    have h2 : rest.length < MAX_STACK := by simp only [MAX_STACK]; omega
    cases hf : f left right with
    | error e => left; exact ⟨e, rfl, by simp [vm_binary, POPS, POP, PUSHES, h1, hf]⟩
    | ok x => right; exact ⟨x, rfl, by simp [vm_binary, POPS, POP, PUSHES, PUSH, h1, h2, hf]⟩

theorem vm_binary_facts (code : Nat) (stack : List Int) (f : Int → Int → Except fault Int)
    (hd : stack.length ≤ MAX_STACK) (hf : ∀ l r e, f l r = .error e → e = .bad_divide) :
    (vm_binary code stack f = .error .assert_failed ↔ stack.length < 2) ∧
    (∀ e, vm_binary code stack f = .error e → e = .assert_failed ∨ e = .bad_divide) := by
  rcases vm_binary_cases code stack f hd with ⟨h1, h2⟩ | ⟨right, left, rest, rfl, h | h⟩
  · simp [h1, h2]
  · obtain ⟨e, he, h⟩ := h
    have := hf _ _ _ he
    subst this
    simp [h]
  · obtain ⟨x, _, h⟩ := h
    simp [h]

/-- C10: a pass through the loop body of `vm_exec` at an opcode other than `HALT`, on a
stack of at most `MAX_STACK` values, stops with a fatal error (`fatal(..)` or a failing
`assert`) exactly when the opcode is none of `HALT`, `LIT`, `+`, `-`, `*`, `/` (illegal
opcode, which `~` is), or it is a binary opcode and fewer than 2 values are on the stack
(underflow), or it is `LIT` and `MAX_STACK` values are on the stack (overflow); and in no
case does it touch a stack slot outside `0..MAX_STACK-1`.  A division by zero and a read
of operand bytes outside the buffer are undefined behaviour of the C code, kept apart as
`bad_divide` and `bad_read`: they are not errors the program reports. -/
theorem vm_step_fatal_iff (mem : List Nat) (code : Nat) (stack : List Int) (op : Nat)
    (hop : mem[code]? = some op) (hne : op ≠ HALT) (hd : stack.length ≤ MAX_STACK) :
    ((∃ e, vm_step mem code stack = .error e ∧ e.is_fatal = true) ↔
      ((op ≠ HALT ∧ op ≠ LIT ∧ op ≠ ADD ∧ op ≠ SUB ∧ op ≠ MUL ∧ op ≠ DIV) ∨
       ((op = ADD ∨ op = SUB ∨ op = MUL ∨ op = DIV) ∧ stack.length < 2) ∨
       (op = LIT ∧ stack.length = MAX_STACK))) ∧
    (vm_step mem code stack = .error .illegal_opcode ↔
      (op ≠ HALT ∧ op ≠ LIT ∧ op ≠ ADD ∧ op ≠ SUB ∧ op ≠ MUL ∧ op ≠ DIV)) ∧
    (vm_step mem code stack = .error .assert_failed ↔
      (((op = ADD ∨ op = SUB ∨ op = MUL ∨ op = DIV) ∧ stack.length < 2) ∨
       (op = LIT ∧ stack.length = MAX_STACK))) ∧
    vm_step mem code stack ≠ .error .bad_slot := by
  have key : ∀ f : Int → Int → Except fault Int, (∀ l r e, f l r = .error e → e = .bad_divide) →
      vm_step mem code stack = vm_binary (code + 1) stack f →
      ((∃ e, vm_step mem code stack = .error e ∧ e.is_fatal = true) ↔ stack.length < 2) ∧
      (vm_step mem code stack ≠ .error .illegal_opcode) ∧
      (vm_step mem code stack = .error .assert_failed ↔ stack.length < 2) ∧
      vm_step mem code stack ≠ .error .bad_slot := by
    intro f hf hstep
    obtain ⟨h1, h2⟩ := vm_binary_facts (code + 1) stack f hd hf
    rw [hstep]
    refine ⟨⟨?_, ?_⟩, ?_, h1, ?_⟩
    · rintro ⟨e, he, hfat⟩
      rcases h2 e he with rfl | rfl
      · exact h1.mp he
      · simp [fault.is_fatal] at hfat
    · intro h; exact ⟨_, h1.mpr h, rfl⟩
    · intro h; rcases h2 _ h with h | h <;> cases h
    · intro h; rcases h2 _ h with h | h <;> cases h
  have hw : ∀ g : Int → Int → Int, ∀ l r e,
      (fun left right => (Except.ok (wrap32 (g left right)) : Except fault Int)) l r = .error e →
        e = .bad_divide := by
    intro g l r e h; cases h
  have hdiv : ∀ l r e, div_s32 l r = .error e → e = .bad_divide := by
    intro l r e h
    unfold div_s32 at h
    split at h
    · cases h; rfl
    · cases h
  by_cases h1 : op = SUB
  · subst h1
    obtain ⟨a, b, c, d⟩ := key _ (hw (fun l r => l - r)) (by simp [vm_step, hop])
    simp [SUB, HALT, LIT, ADD, MUL, DIV, MAX_STACK] at *
    exact ⟨a, b, c, d⟩
  by_cases h2 : op = ADD
  · subst h2
    obtain ⟨a, b, c, d⟩ := key _ (hw (fun l r => l + r)) (by simp [vm_step, hop, SUB, ADD])
    simp [SUB, HALT, LIT, ADD, MUL, DIV, MAX_STACK] at *
    exact ⟨a, b, c, d⟩
  by_cases h3 : op = MUL
  · subst h3
    obtain ⟨a, b, c, d⟩ := key _ (hw (fun l r => l * r)) (by simp [vm_step, hop, SUB, ADD, MUL])
    simp [SUB, HALT, LIT, ADD, MUL, DIV, MAX_STACK] at *
    exact ⟨a, b, c, d⟩
  by_cases h4 : op = DIV
  · subst h4
    obtain ⟨a, b, c, d⟩ := key _ hdiv (by simp [vm_step, hop, SUB, ADD, MUL, DIV])
    simp [SUB, HALT, LIT, ADD, MUL, DIV, MAX_STACK] at *
    exact ⟨a, b, c, d⟩
  by_cases h5 : op = LIT
  · subst h5
    have hstep : vm_step mem code stack = (do
        PUSHES stack 1
        let x ← load32 mem (code + 1)
        let stack ← PUSH stack x
        pure (.next (code + 1 + 4) stack)) := by
      simp [vm_step, hop, SUB, ADD, MUL, DIV, LIT]
    by_cases hfull : stack.length = MAX_STACK
    · have : vm_step mem code stack = .error .assert_failed := by
        rw [hstep]; simp [PUSHES, hfull]
      simp [this, hfull, fault.is_fatal, SUB, HALT, LIT, ADD, MUL, DIV]
    · have hlt : stack.length < MAX_STACK := lt_of_le_of_ne hd hfull
      have h1 : stack.length + 1 ≤ MAX_STACK := hlt
      cases hl : load32 mem (code + 1) with
      | error e =>
        have he : e = .bad_read := by
          unfold load32 at hl
          split at hl
          · cases hl
          · cases hl; rfl
        subst he
        have : vm_step mem code stack = .error .bad_read := by
          rw [hstep]; simp [PUSHES, h1, hl]
        simp [this, hfull, fault.is_fatal, SUB, HALT, LIT, ADD, MUL, DIV]
      | ok x =>
        have : vm_step mem code stack = .ok (.next (code + 1 + 4) (x :: stack)) := by
          rw [hstep]; simp [PUSHES, PUSH, h1, hlt, hl]
        simp [this, hfull, SUB, HALT, LIT, ADD, MUL, DIV]
  · have : vm_step mem code stack = .error .illegal_opcode := by
      simp [vm_step, hop, h1, h2, h3, h4, h5, hne]
    simp [this, h1, h2, h3, h4, h5, hne, fault.is_fatal]

theorem vm_step_fatal_iff_witness :
    ([126] : List Nat)[0]? = some 126 ∧ 126 ≠ HALT ∧ ([] : List Int).length ≤ MAX_STACK ∧
    vm_step [126] 0 [] = .error .illegal_opcode ∧ vm_step [126] 0 [] ≠ .error .bad_slot :=
  ⟨rfl, by decide, by decide,
   (vm_step_fatal_iff [126] 0 [] 126 rfl (by decide) (by decide)).2.1.mpr (by decide),
   (vm_step_fatal_iff [126] 0 [] 126 rfl (by decide) (by decide)).2.2.2⟩

/-- C9 (as the code has it): at a `HALT` opcode `vm_exec` returns the top of the stack
whenever at least one value is on the stack, whatever lies below it, and stops on the
failing `assert` of `POPS(1)` when the stack is empty. -/
theorem vm_step_halt_at_least_one (mem : List Nat) (code : Nat) (stack : List Int)
    (h : mem[code]? = some HALT) :
    (∀ v, vm_step mem code stack = .ok (.ret v) ↔ stack.head? = some v) ∧
    (vm_step mem code stack = .error .assert_failed ↔ stack.length = 0) ∧
    (1 ≤ stack.length → ∃ v, vm_step mem code stack = .ok (.ret v)) := by
  rw [vm_step_halt mem code stack h]
  cases stack <;> simp

theorem vm_step_halt_at_least_one_witness :
    ([1] : List Nat)[0]? = some HALT ∧
    (vm_step [1] 0 [7, 8, 9] = .ok (.ret 7) ↔ ([7, 8, 9] : List Int).head? = some 7) :=
  ⟨rfl, (vm_step_halt_at_least_one [1] 0 [7, 8, 9] rfl).1 7⟩

/-- C9 fails as stated: the program `LIT 1, LIT 2, HALT` reaches `HALT` with two values on
the stack and returns the top one, `2`, instead of stopping with a fatal error. -/
theorem vm_halt_depth_two_returns :
    vm_step [2, 1, 0, 0, 0, 2, 2, 0, 0, 0, 1] 10 [2, 1] = .ok (.ret 2) ∧
    vm_exec [2, 1, 0, 0, 0, 2, 2, 0, 0, 0, 1] = .ok 2 := by
  constructor <;> rfl

/-! ## Tokenizer facts -/

theorem deref_at (pre : List Nat) (c : Nat) (rest : List Nat) :
    deref (pre ++ c :: rest) pre.length = .ok c := by
  have h : (pre ++ c :: rest ++ [0])[pre.length]? = some c := by
    rw [List.append_assoc, List.getElem?_append_right (le_refl _)]
    simp
  simp only [deref, h]

theorem deref_end (text : List Nat) : deref text text.length = .ok 0 := by
  simp [deref]

theorem deref_head (pre rest : List Nat) :
    deref (pre ++ rest) pre.length = .ok (rest.headD 0) := by
  cases rest with
  | nil => simpa using deref_end pre
  | cons c rest => simpa using deref_at pre c rest

theorem scan_int_run (text : List Nat) (ds rest : List Nat)
    (hds : ∀ c ∈ ds, isdigit c = true) (hrest : isdigit (rest.headD 0) = false) :
    ∀ (pre : List Nat) (fuel : Nat) (v : Int), text = pre ++ ds ++ rest → ds.length < fuel →
      scan_int text fuel pre.length v = .ok (pre.length + ds.length, atoi_from v ds) := by
  induction ds with
  | nil =>
    intro pre fuel v htext hfuel
    obtain ⟨fuel, rfl⟩ : ∃ k, fuel = k + 1 := ⟨fuel - 1, by simp at hfuel; omega⟩
    subst htext
    have h1 := deref_head pre rest
    simp only [List.append_nil] at *
    simp only [scan_int, h1, bind_ok_eq, hrest]
    simp [atoi_from]
  | cons c ds ih =>
    intro pre fuel v htext hfuel
    obtain ⟨fuel, rfl⟩ : ∃ k, fuel = k + 1 := ⟨fuel - 1, by simp at hfuel; omega⟩
    have hc : isdigit c = true := hds c (by simp)
    have h1 : deref text pre.length = .ok c := by
      subst htext; simpa using deref_at pre c (ds ++ rest)
    have h2 := ih (fun x hx => hds x (by simp [hx])) (pre ++ [c]) fuel
      (wrap32 (wrap32 (v * 10) + ((c : Int) - 48))) (by simp [htext])
      (by simp at hfuel; omega)
    simp only [List.length_append, List.length_singleton] at h2
    simp [scan_int, h1, hc, h2, atoi_from]
    omega

/-- The result of `next_token` depends on the incoming `token` through `val` only. -/
theorem next_token_go_congr (text : List Nat) :
    ∀ (fuel : Nat) (t1 t2 : token_t) (p : Nat), t1.val = t2.val →
      next_token_go text fuel ⟨t1, p⟩ = next_token_go text fuel ⟨t2, p⟩ := by
  intro fuel
  induction fuel with
  | zero => intro t1 t2 p _; rfl
  | succ fuel ih =>
    intro t1 t2 p hv
    simp only [next_token_go]
    cases deref text p with
    | error e => rfl
    | ok c =>
      simp only [bind_ok_eq]
      split
      · rfl
      · split
        · rw [ih _ { kind := c, start := p, end_ := t2.end_, val := t2.val } (p + 1) (by simp [hv])]
        · simp [hv]

/-- On return from `next_token` the token ends at `stream`. -/
theorem next_token_go_end (text : List Nat) :
    ∀ (fuel : Nat) (s s1 : lexer_t), next_token_go text fuel s = .ok s1 →
      s1.token.end_ = s1.stream := by
  intro fuel
  induction fuel with
  | zero => intro s s1 h; cases h
  | succ fuel ih =>
    intro s s1 h
    simp only [next_token_go] at h
    cases hd : deref text s.stream with
    | error e => simp [hd] at h
    | ok c =>
      simp only [hd, bind_ok_eq] at h
      split at h
      · cases hs : scan_int text (text.length + 2) s.stream 0 with
        | error e => simp [hs] at h
        | ok r =>
          simp only [hs, bind_ok_eq, pure_eq_ok] at h
          cases h; rfl
      · split at h
        · cases hr : next_token_go text fuel
            { token := { kind := c, start := s.stream, end_ := s.token.end_, val := s.token.val },
              stream := s.stream + 1 } with
          | error e => simp [hr] at h
          | ok r =>
            simp only [hr, bind_ok_eq, pure_eq_ok] at h
            cases h; rfl
        · simp only [pure_eq_ok] at h
          cases h; rfl

/-- One space: `next_token` goes on behind it. -/
theorem next_token_go_space (text : List Nat) (fuel : Nat) (t : token_t) (p : Nat)
    (h : deref text p = .ok 32) :
    next_token_go text (fuel + 1) ⟨t, p⟩ = next_token_go text fuel ⟨t, p + 1⟩ := by
  have hnd : isdigit 32 = false := by decide
  have hc := next_token_go_congr text fuel
    { kind := 32, start := p, end_ := t.end_, val := t.val } t (p + 1) rfl
  simp only [next_token_go, h, bind_ok_eq, hnd, hc]
  cases hr : next_token_go text fuel ⟨t, p + 1⟩ with
  | error e => simp
  | ok r =>
    have := next_token_go_end text fuel _ _ hr
    obtain ⟨⟨k, st, en, v⟩, q⟩ := r
    simp only at this
    subst this
    simp

/-- A run of spaces: `next_token` goes on behind it. -/
theorem next_token_go_spaces (pre rest : List Nat) (t : token_t) :
    ∀ (n fuel : Nat),
      next_token_go (pre ++ List.replicate n 32 ++ rest) (fuel + n) ⟨t, pre.length⟩ =
        next_token_go (pre ++ List.replicate n 32 ++ rest) fuel ⟨t, pre.length + n⟩ := by
  intro n
  induction n generalizing pre with
  | zero => intro fuel; rfl
  | succ n ih =>
    intro fuel
    have htext : pre ++ List.replicate (n + 1) 32 ++ rest =
        (pre ++ [32]) ++ List.replicate n 32 ++ rest := by
      simp [List.replicate_succ]
    have h1 : deref (pre ++ List.replicate (n + 1) 32 ++ rest) pre.length = .ok 32 := by
      have := deref_at pre 32 (List.replicate n 32 ++ rest)
      simpa [List.replicate_succ] using this
    rw [← Nat.add_assoc, next_token_go_space _ _ _ _ h1, htext]
    have := ih (pre ++ [32]) fuel
    simp only [List.length_append, List.length_singleton] at this
    rw [this]
    congr 2
    omega

/-- At a digit `next_token` takes the whole run of digits as one `TOKEN_INT` token. -/
theorem next_token_go_int (pre ds rest : List Nat) (t : token_t) (fuel : Nat)
    (hne : ds ≠ []) (hds : ∀ c ∈ ds, isdigit c = true) (hrest : isdigit (rest.headD 0) = false) :
    next_token_go (pre ++ ds ++ rest) (fuel + 1) ⟨t, pre.length⟩ =
      .ok ⟨⟨TOKEN_INT, pre.length, pre.length + ds.length, atoi ds⟩, pre.length + ds.length⟩ := by
  obtain ⟨c, ds', rfl⟩ := List.exists_cons_of_ne_nil hne
  have hc : isdigit c = true := hds c (by simp)
  have h1 : deref (pre ++ c :: ds' ++ rest) pre.length = .ok c := by
    simpa using deref_at pre c (ds' ++ rest)
  have h2 := scan_int_run (pre ++ c :: ds' ++ rest) (c :: ds') rest hds hrest pre
    ((pre ++ c :: ds' ++ rest).length + 2) 0 rfl (by simp; omega)
  simp only [next_token_go, h1, bind_ok_eq, hc, h2, if_true, pure_eq_ok, atoi]

/-- At a character that is neither a digit nor a space (the terminator included)
`next_token` makes a one-character token of that kind and keeps the old `val`. -/
theorem next_token_go_char (text : List Nat) (t : token_t) (fuel p c : Nat)
    (h : deref text p = .ok c) (hd : isdigit c = false) (hs : c ≠ 32) :
    next_token_go text (fuel + 1) ⟨t, p⟩ = .ok ⟨⟨c, p, p + 1, t.val⟩, p + 1⟩ := by
  simp [next_token_go, h, hd, hs]

/-- The token `next_token` makes of a literal behind `n` spaces. -/
theorem next_token_int (pre ds rest : List Nat) (n : Nat) (t : token_t)
    (hne : ds ≠ []) (hds : ∀ c ∈ ds, isdigit c = true) (hrest : isdigit (rest.headD 0) = false) :
    next_token (pre ++ spaces n ++ ds ++ rest) ⟨t, pre.length⟩ =
      .ok ⟨⟨TOKEN_INT, pre.length + n, pre.length + n + ds.length, atoi ds⟩,
        pre.length + n + ds.length⟩ := by
  have hlen : (pre ++ spaces n ++ ds ++ rest).length + 2 =
      ((pre ++ spaces n ++ ds ++ rest).length + 1 - n + 1) + n := by
    simp [spaces]; omega
  have h1 := next_token_go_spaces pre (ds ++ rest) t n
    ((pre ++ spaces n ++ ds ++ rest).length + 1 - n + 1)
  have h2 := next_token_go_int (pre ++ spaces n) ds rest t
    ((pre ++ spaces n ++ ds ++ rest).length + 1 - n) hne hds hrest
  unfold next_token
  simp only [spaces, ← List.append_assoc, List.length_append, List.length_replicate] at h1 h2 hlen ⊢
  rw [hlen, h1, h2]

/-- The token `next_token` makes of a character that is neither digit nor space (the
terminator included) behind `n` spaces. -/
theorem next_token_char (pre rest : List Nat) (n : Nat) (t : token_t)
    (hd : isdigit (rest.headD 0) = false) (hs : rest.headD 0 ≠ 32) :
    next_token (pre ++ spaces n ++ rest) ⟨t, pre.length⟩ =
      .ok ⟨⟨rest.headD 0, pre.length + n, pre.length + n + 1, t.val⟩, pre.length + n + 1⟩ := by
  have hlen : (pre ++ spaces n ++ rest).length + 2 =
      ((pre ++ spaces n ++ rest).length + 1 - n + 1) + n := by
    simp [spaces]; omega
  have h1 := next_token_go_spaces pre rest t n ((pre ++ spaces n ++ rest).length + 1 - n + 1)
  have h0 := deref_head (pre ++ spaces n) rest
  have h2 := next_token_go_char (pre ++ spaces n ++ rest) t
    ((pre ++ spaces n ++ rest).length + 1 - n) (pre.length + n) (rest.headD 0)
    (by simpa [spaces] using h0) hd hs
  unfold next_token
  simp only [spaces, List.length_append, List.length_replicate] at h1 h2 hlen ⊢
  rw [hlen, h1, h2]

/-- Inside the object a read succeeds; only the terminator can be read at the last offset. -/
theorem deref_total (text : List Nat) (p : Nat) (hp : p ≤ text.length) :
    ∃ c, deref text p = .ok c ∧ (c ≠ 0 → p < text.length) := by
  by_cases h : p < text.length
  · refine ⟨text[p], ?_, fun _ => h⟩
    simp [deref, List.getElem?_append_left h, List.getElem?_eq_getElem h]
  · have : p = text.length := by omega
    subst this
    exact ⟨0, deref_end text, fun h => absurd rfl h⟩

/-- The digit loop of `next_token` ends inside the text. -/
theorem scan_int_total (text : List Nat) :
    ∀ (fuel p : Nat) (v : Int), text.length + 1 ≤ fuel + p → p ≤ text.length →
      ∃ p1 v1, scan_int text fuel p v = .ok (p1, v1) ∧ p ≤ p1 ∧ p1 ≤ text.length := by
  intro fuel
  induction fuel with
  | zero => intro p v h1 h2; omega
  | succ fuel ih =>
    intro p v h1 h2
    obtain ⟨c, hc, hlt⟩ := deref_total text p h2
    simp only [scan_int, hc, bind_ok_eq]
    by_cases hd : isdigit c = true
    · have hc0 : c ≠ 0 := by rintro rfl; simp [isdigit] at hd
      obtain ⟨p1, v1, h, ha, hb⟩ := ih (p + 1) (wrap32 (wrap32 (v * 10) + ((c : Int) - 48)))
        (by omega) (hlt hc0)
      exact ⟨p1, v1, by simp [hd, h], by omega, hb⟩
    · exact ⟨p, v, by simp [hd], le_refl _, h2⟩

/-- Called with `stream` inside the text, `next_token` returns, having consumed at least
one character and at most the terminator. -/
theorem next_token_go_total (text : List Nat) :
    ∀ (fuel : Nat) (t : token_t) (p : Nat), text.length + 1 ≤ fuel + p → p ≤ text.length →
      ∃ s, next_token_go text fuel ⟨t, p⟩ = .ok s ∧ p < s.stream ∧ s.stream ≤ text.length + 1 := by
  intro fuel
  induction fuel with
  | zero => intro t p h1 h2; omega
  | succ fuel ih =>
    intro t p h1 h2
    obtain ⟨c, hc, hlt⟩ := deref_total text p h2
    simp only [next_token_go, hc, bind_ok_eq]
    by_cases hd : isdigit c = true
    · have hc0 : c ≠ 0 := by rintro rfl; simp [isdigit] at hd
      obtain ⟨p1, v1, h, ha, hb⟩ := scan_int_total text (text.length + 1) (p + 1)
        (wrap32 (wrap32 (0 * 10) + ((c : Int) - 48))) (by omega) (hlt hc0)
      have hs : scan_int text (text.length + 1 + 1) p 0 = .ok (p1, v1) := by
        rw [scan_int]
        simp only [hc, bind_ok_eq, hd, if_true]
        exact h
      refine ⟨⟨⟨TOKEN_INT, p, p1, v1⟩, p1⟩, ?_, ?_, ?_⟩
      · simp only [hd, hs, if_true, bind_ok_eq, pure_eq_ok]
      · show p < p1
        omega
      · show p1 ≤ text.length + 1
        omega
    · by_cases hs : c = 32
      · have hc0 : c ≠ 0 := by omega
        obtain ⟨s, h, ha, hb⟩ := ih
          { kind := c, start := p, end_ := t.end_, val := t.val } (p + 1) (by omega) (hlt hc0)
        refine ⟨⟨{ s.token with end_ := s.stream }, s.stream⟩, ?_, ?_, ?_⟩
        · subst hs
          have hd32 : isdigit 32 = false := by decide
          simp only [hd32, if_true, bind_ok_eq, pure_eq_ok, h]
          simp
        · show p < s.stream
          omega
        · exact hb
      · refine ⟨⟨⟨c, p, p + 1, t.val⟩, p + 1⟩, ?_, ?_, ?_⟩
        · simp [hd, hs]
        · show p < p + 1
          omega
        · show p + 1 ≤ text.length + 1
          omega

/-- Totality of `next_token` for `stream` inside the text. -/
theorem next_token_total (text : List Nat) (t : token_t) (p : Nat) (hp : p ≤ text.length) :
    ∃ s, next_token text ⟨t, p⟩ = .ok s ∧ p < s.stream ∧ s.stream ≤ text.length + 1 :=
  next_token_go_total text (text.length + 2) t p (by omega) hp

/-! ## Parser facts -/

theorem lookahead_of_next (text : List Nat) (s s1 : lexer_t) (h : next_token text s = .ok s1) :
    lookahead text s.stream s1 :=
  ⟨s.token, h⟩

/-- `parse_expr2` on the text of a factor: it returns the nested `~` nodes around the
literal and leaves the token behind the factor as the current one. -/
theorem parse_expr2_go_factor (sp : Nat) (digits rest : List Nat)
    (hne : digits ≠ []) (hds : ∀ c ∈ digits, isdigit c = true)
    (hrest : isdigit (rest.headD 0) = false) :
    ∀ (tildes : List Nat) (text pre : List Nat) (fuel : Nat) (t : token_t),
      text = pre ++ (factor_text.mk tildes sp digits).render ++ rest → tildes.length < fuel →
      ∃ s tree s1, next_token text ⟨t, pre.length⟩ = .ok s ∧
        parse_expr2_go text fuel s = .ok (tree, s1) ∧
        tree.ast = (factor_text.mk tildes sp digits).tree ∧
        lookahead text (pre.length + (factor_text.mk tildes sp digits).render.length) s1 := by
  intro tildes
  induction tildes with
  | nil =>
    intro text pre fuel t htext hfuel
    obtain ⟨fuel, rfl⟩ : ∃ k, fuel = k + 1 := ⟨fuel - 1, by simp at hfuel; omega⟩
    have htext1 : text = pre ++ spaces sp ++ digits ++ rest := by
      simp [htext, factor_text.render]
    have hs := next_token_int pre digits rest sp t hne hds hrest
    rw [← htext1] at hs
    obtain ⟨s1, h1, _, _⟩ := next_token_total text
      ⟨TOKEN_INT, pre.length + sp, pre.length + sp + digits.length, atoi digits⟩
      (pre.length + sp + digits.length) (by simp [htext1, spaces]; omega)
    refine ⟨_, .node ⟨TOKEN_INT, pre.length + sp, pre.length + sp + digits.length, atoi digits⟩
      .null .null, s1, hs, ?_, ?_, ?_⟩
    · simp only [TOKEN_INT] at h1 ⊢
      simp [parse_expr2_go, parse_expr3, is_token, TOKEN_INT, create_node, h1]
    · simp [node_t.ast, factor_text.tree]
    · refine ⟨⟨TOKEN_INT, pre.length + sp, pre.length + sp + digits.length, atoi digits⟩, ?_⟩
      simpa [factor_text.render, spaces, Nat.add_assoc] using h1
  | cons n ts ih =>
    intro text pre fuel t htext hfuel
    obtain ⟨fuel, rfl⟩ : ∃ k, fuel = k + 1 := ⟨fuel - 1, by simp at hfuel; omega⟩
    have htext1 : text = pre ++ spaces n ++
        (126 :: ((factor_text.mk ts sp digits).render ++ rest)) := by
      simp [htext, factor_text.render]
    have hs := next_token_char pre (126 :: ((factor_text.mk ts sp digits).render ++ rest)) n t
      (by simp [isdigit]) (by simp)
    rw [← htext1] at hs
    simp only [List.headD_cons] at hs
    obtain ⟨s2, tree, s3, h2, h3, h4, h5⟩ := ih text (pre ++ spaces n ++ [126]) fuel
      ⟨126, pre.length + n, pre.length + n + 1, t.val⟩ (by simp [htext1])
      (by simp at hfuel; omega)
    simp only [List.length_append, List.length_singleton, spaces, List.length_replicate] at h2 h5
    refine ⟨_, .node ⟨126, pre.length + n, pre.length + n + 1, t.val⟩ tree .null, s3, hs, ?_, ?_, ?_⟩
    · simp only [parse_expr2_go, is_token, create_node]
      simp [h2, h3, node_t.set_left]
    · simp [node_t.ast, factor_text.tree, TOKEN_INT, h4]
    · have : pre.length + (factor_text.mk (n :: ts) sp digits).render.length =
          pre.length + n + 1 + (factor_text.mk ts sp digits).render.length := by
        simp [factor_text.render, spaces]; omega
      rw [this]; exact h5

theorem factor_tildes_le (tildes : List Nat) (sp : Nat) (digits : List Nat) :
    tildes.length ≤ (factor_text.mk tildes sp digits).render.length := by
  induction tildes with
  | nil => simp
  | cons n ts ih =>
    simp only [factor_text.render, List.map_cons, List.flatten_cons, List.length_append,
      List.length_cons, List.length_nil] at ih ⊢
    omega

/-- `parse_expr2` on the text of a factor. -/
theorem parse_expr2_factor (f : factor_text) (hf : f.wf) (text pre rest : List Nat)
    (t : token_t) (htext : text = pre ++ f.render ++ rest)
    (hrest : isdigit (rest.headD 0) = false) :
    ∃ s tree s1, next_token text ⟨t, pre.length⟩ = .ok s ∧
      parse_expr2 text s = .ok (tree, s1) ∧ tree.ast = f.tree ∧
      lookahead text (pre.length + f.render.length) s1 := by
  obtain ⟨tildes, sp, digits⟩ := f
  have hlen := factor_tildes_le tildes sp digits
  exact parse_expr2_go_factor sp digits rest hf.1 hf.2 hrest tildes text pre (text.length + 2) t
    htext (by simp [htext]; omega)

/-- The current token when `next_token` was called in front of an operator character. -/
theorem lookahead_char (text pre rest : List Nat) (n c : Nat) (s : lexer_t)
    (htext : text = pre ++ spaces n ++ c :: rest) (hd : isdigit c = false) (hs : c ≠ 32)
    (h : lookahead text pre.length s) :
    s.token.kind = c ∧ s.stream = pre.length + n + 1 := by
  obtain ⟨t, ht⟩ := h
  have := next_token_char pre (c :: rest) n t (by simpa using hd) (by simpa using hs)
  rw [← htext, ht] at this
  cases this
  simp

/-- A list of operator-factor pairs does not begin with a digit. -/
theorem op_factors_head (items : List op_factor) (rest : List Nat)
    (hops : ∀ x ∈ items, (x.op = 42 ∨ x.op = 47) ∧ x.arg.wf)
    (hrest : isdigit (rest.headD 0) = false) :
    isdigit (((items.map op_factor.render).flatten ++ rest).headD 0) = false := by
  cases items with
  | nil => simpa using hrest
  | cons x xs =>
    have hx := (hops x (by simp)).1
    cases hn : x.sp with
    | zero =>
      rcases hx with h | h <;> simp [op_factor.render, spaces, hn, h, isdigit]
    | succ k => simp [op_factor.render, spaces, hn, List.replicate_succ, isdigit]

/-- The loop of `parse_expr1` on a sequence of operators `* /` and factors: it folds them
into a tree nested to the left. -/
theorem parse_expr1_loop_items :
    ∀ (items : List op_factor), (∀ x ∈ items, (x.op = 42 ∨ x.op = 47) ∧ x.arg.wf) →
    ∀ (text pre rest : List Nat) (fuel : Nat) (r : node_t) (s : lexer_t),
      text = pre ++ (items.map op_factor.render).flatten ++ rest →
      items.length < fuel →
      isdigit (rest.headD 0) = false →
      (∀ s1, lookahead text (pre.length + (items.map op_factor.render).flatten.length) s1 →
        s1.token.kind ≠ 42 ∧ s1.token.kind ≠ 47) →
      lookahead text pre.length s →
      ∃ tree s1, parse_expr1_loop text fuel r s = .ok (tree, s1) ∧
        tree.ast = items.foldl (fun acc x => ast.op x.op acc x.arg.tree) r.ast ∧
        lookahead text (pre.length + (items.map op_factor.render).flatten.length) s1 := by
  intro items
  induction items with
  | nil =>
    intro _ text pre rest fuel r s htext hfuel hrest hstop hs
    obtain ⟨fuel, rfl⟩ : ∃ k, fuel = k + 1 := ⟨fuel - 1, by simp at hfuel; omega⟩
    have hk := hstop s (by simpa using hs)
    refine ⟨r, s, ?_, rfl, by simpa using hs⟩
    simp [parse_expr1_loop, is_token, hk.1, hk.2]
  | cons x xs ih =>
    intro hops text pre rest fuel r s htext hfuel hrest hstop hs
    obtain ⟨fuel, rfl⟩ : ∃ k, fuel = k + 1 := ⟨fuel - 1, by simp at hfuel; omega⟩
    have hx := hops x (by simp)
    have hxs : ∀ y ∈ xs, (y.op = 42 ∨ y.op = 47) ∧ y.arg.wf :=
      fun y hy => hops y (by simp [hy])
    have hopd : isdigit x.op = false := by rcases hx.1 with h | h <;> simp [h, isdigit]
    have hop32 : x.op ≠ 32 := by rcases hx.1 with h | h <;> simp [h]
    have htext1 : text = pre ++ spaces x.sp ++
        x.op :: (x.arg.render ++ ((xs.map op_factor.render).flatten ++ rest)) := by
      simp [htext, op_factor.render]
    obtain ⟨hkind, hstream⟩ := lookahead_char text pre _ x.sp x.op s htext1 hopd hop32 hs
    obtain ⟨s2, sub, s3, h2, h3, h4, h5⟩ := parse_expr2_factor x.arg hx.2 text
      (pre ++ spaces x.sp ++ [x.op]) ((xs.map op_factor.render).flatten ++ rest) s.token
      (by simp [htext1]) (op_factors_head xs rest hxs hrest)
    have hlen1 : (pre ++ spaces x.sp ++ [x.op]).length = s.stream := by
      simp [spaces, hstream]; omega
    rw [hlen1] at h2 h5
    have hs2 : next_token text s = .ok s2 := h2
    have hlen2 : pre.length + ((x :: xs).map op_factor.render).flatten.length =
        (pre ++ op_factor.render x).length + (xs.map op_factor.render).flatten.length := by
      simp; omega
    have hlen3 : s.stream + x.arg.render.length = (pre ++ op_factor.render x).length := by
      simp [op_factor.render, spaces, hstream]; omega
    rw [hlen3] at h5
    obtain ⟨tree, s4, h6, h7, h8⟩ := ih hxs text (pre ++ op_factor.render x) rest fuel
      (.node s.token r sub) s3 (by simp [htext]) (by simp at hfuel; omega) hrest
      (by rw [← hlen2]; exact hstop) h5
    refine ⟨tree, s4, ?_, ?_, by rw [hlen2]; exact h8⟩
    · have hor : (is_token s 42 || is_token s 47) = true := by
        rcases hx.1 with h | h <;> simp [is_token, hkind, h]
      rw [parse_expr1_loop]
      simp only [hor, if_true, create_node, hs2, bind_ok_eq, h3, node_t.set_right]
      exact h6
    · rw [h7]
      have hne : x.op ≠ TOKEN_INT := by
        rcases hx.1 with h | h <;> simp [h, TOKEN_INT]
      simp [node_t.ast, hne, hkind, h4]

theorem op_factors_length (items : List op_factor) :
    items.length ≤ (items.map op_factor.render).flatten.length := by
  induction items with
  | nil => simp
  | cons x xs ih =>
    simp only [List.map_cons, List.flatten_cons, List.length_append, List.length_cons,
      op_factor.render, List.length_nil] at ih ⊢
    omega

/-- `parse_expr1` on the text of a term. -/
theorem parse_expr1_term (tm : term_text) (hwf : tm.wf) (text pre rest : List Nat)
    (t : token_t) (htext : text = pre ++ tm.render ++ rest)
    (hrest : isdigit (rest.headD 0) = false)
    (hstop : ∀ s1, lookahead text (pre.length + tm.render.length) s1 →
      s1.token.kind ≠ 42 ∧ s1.token.kind ≠ 47) :
    ∃ s tree s1, next_token text ⟨t, pre.length⟩ = .ok s ∧
      parse_expr1 text s = .ok (tree, s1) ∧ tree.ast = tm.tree ∧
      lookahead text (pre.length + tm.render.length) s1 := by
  obtain ⟨first, items⟩ := tm
  obtain ⟨hf, hitems⟩ := hwf
  simp only [term_text.render] at htext hstop ⊢
  obtain ⟨s, r, s1, h1, h2, h3, h4⟩ := parse_expr2_factor first hf text pre
    ((items.map op_factor.render).flatten ++ rest) t (by simp [htext])
    (op_factors_head items rest hitems hrest)
  have hlen : pre.length + (first.render ++ (items.map op_factor.render).flatten).length =
      (pre ++ first.render).length + (items.map op_factor.render).flatten.length := by
    simp; omega
  have hl := op_factors_length items
  obtain ⟨tree, s2, h5, h6, h7⟩ := parse_expr1_loop_items items hitems text (pre ++ first.render)
    rest (text.length + 2) r s1 (by simp [htext])
    (by rw [htext]; simp only [List.length_append]; omega) hrest
    (by rw [← hlen]; exact hstop) (by simpa using h4)
  refine ⟨s, tree, s2, h1, ?_, ?_, by rw [hlen]; exact h7⟩
  · simp only [parse_expr1, h2, bind_ok_eq, h5]
  · simp [h6, h3, term_text.tree]

/-- A list of operator-term pairs does not begin with a digit. -/
theorem op_terms_head (items : List op_term) (rest : List Nat)
    (hops : ∀ x ∈ items, (x.op = 43 ∨ x.op = 45) ∧ x.arg.wf)
    (hrest : isdigit (rest.headD 0) = false) :
    isdigit (((items.map op_term.render).flatten ++ rest).headD 0) = false := by
  cases items with
  | nil => simpa using hrest
  | cons x xs =>
    have hx := (hops x (by simp)).1
    cases hn : x.sp with
    | zero =>
      rcases hx with h | h <;> simp [op_term.render, spaces, hn, h, isdigit]
    | succ k => simp [op_term.render, spaces, hn, List.replicate_succ, isdigit]

/-- In front of a list of operator-term pairs the current token is not `*` or `/`,
provided this holds behind the list. -/
theorem op_terms_stop (items : List op_term) (text pre rest : List Nat)
    (hops : ∀ x ∈ items, (x.op = 43 ∨ x.op = 45) ∧ x.arg.wf)
    (htext : text = pre ++ (items.map op_term.render).flatten ++ rest)
    (hstop : ∀ s1, lookahead text (pre.length + (items.map op_term.render).flatten.length) s1 →
      s1.token.kind ≠ 42 ∧ s1.token.kind ≠ 47) :
    ∀ s1, lookahead text pre.length s1 → s1.token.kind ≠ 42 ∧ s1.token.kind ≠ 47 := by
  cases items with
  | nil => simpa using hstop
  | cons x xs =>
    intro s1 h1
    have hx := (hops x (by simp)).1
    have hopd : isdigit x.op = false := by rcases hx with h | h <;> simp [h, isdigit]
    have hop32 : x.op ≠ 32 := by rcases hx with h | h <;> simp [h]
    have htext1 : text = pre ++ spaces x.sp ++
        x.op :: (x.arg.render ++ ((xs.map op_term.render).flatten ++ rest)) := by
      simp [htext, op_term.render]
    obtain ⟨hk, _⟩ := lookahead_char text pre _ x.sp x.op s1 htext1 hopd hop32 h1
    rcases hx with h | h <;> simp [hk, h]

theorem op_terms_length (items : List op_term) :
    items.length ≤ (items.map op_term.render).flatten.length := by
  induction items with
  | nil => simp
  | cons x xs ih =>
    simp only [List.map_cons, List.flatten_cons, List.length_append, List.length_cons,
      op_term.render, List.length_nil] at ih ⊢
    omega

/-- The loop of `parse_expr0` on a sequence of operators `+ -` and terms: it folds them
into a tree nested to the left. -/
theorem parse_expr0_loop_items :
    ∀ (items : List op_term), (∀ x ∈ items, (x.op = 43 ∨ x.op = 45) ∧ x.arg.wf) →
    ∀ (text pre rest : List Nat) (fuel : Nat) (r : node_t) (s : lexer_t),
      text = pre ++ (items.map op_term.render).flatten ++ rest →
      items.length < fuel →
      isdigit (rest.headD 0) = false →
      (∀ s1, lookahead text (pre.length + (items.map op_term.render).flatten.length) s1 →
        (s1.token.kind ≠ 42 ∧ s1.token.kind ≠ 47) ∧ s1.token.kind ≠ 43 ∧ s1.token.kind ≠ 45) →
      lookahead text pre.length s →
      ∃ tree s1, parse_expr0_loop text fuel r s = .ok (tree, s1) ∧
        tree.ast = items.foldl (fun acc x => ast.op x.op acc x.arg.tree) r.ast ∧
        lookahead text (pre.length + (items.map op_term.render).flatten.length) s1 := by
  intro items
  induction items with
  | nil =>
    intro _ text pre rest fuel r s htext hfuel hrest hstop hs
    obtain ⟨fuel, rfl⟩ : ∃ k, fuel = k + 1 := ⟨fuel - 1, by simp at hfuel; omega⟩
    have hk := hstop s (by simpa using hs)
    refine ⟨r, s, ?_, rfl, by simpa using hs⟩
    simp [parse_expr0_loop, is_token, hk.2.1, hk.2.2]
  | cons x xs ih =>
    intro hops text pre rest fuel r s htext hfuel hrest hstop hs
    obtain ⟨fuel, rfl⟩ : ∃ k, fuel = k + 1 := ⟨fuel - 1, by simp at hfuel; omega⟩
    have hx := hops x (by simp)
    have hxs : ∀ y ∈ xs, (y.op = 43 ∨ y.op = 45) ∧ y.arg.wf :=
      fun y hy => hops y (by simp [hy])
    have hopd : isdigit x.op = false := by rcases hx.1 with h | h <;> simp [h, isdigit]
    have hop32 : x.op ≠ 32 := by rcases hx.1 with h | h <;> simp [h]
    have htext1 : text = pre ++ spaces x.sp ++
        x.op :: (x.arg.render ++ ((xs.map op_term.render).flatten ++ rest)) := by
      simp [htext, op_term.render]
    obtain ⟨hkind, hstream⟩ := lookahead_char text pre _ x.sp x.op s htext1 hopd hop32 hs
    have hlen1 : (pre ++ spaces x.sp ++ [x.op]).length = s.stream := by
      simp [spaces, hstream]; omega
    have hlen2 : pre.length + ((x :: xs).map op_term.render).flatten.length =
        (pre ++ op_term.render x).length + (xs.map op_term.render).flatten.length := by
      simp; omega
    have hlen3 : s.stream + x.arg.render.length = (pre ++ op_term.render x).length := by
      simp [op_term.render, spaces, hstream]; omega
    have hstop1 : ∀ s1, lookahead text
        ((pre ++ op_term.render x).length + (xs.map op_term.render).flatten.length) s1 →
        (s1.token.kind ≠ 42 ∧ s1.token.kind ≠ 47) ∧ s1.token.kind ≠ 43 ∧ s1.token.kind ≠ 45 := by
      rw [← hlen2]; exact hstop
    obtain ⟨s2, sub, s3, h2, h3, h4, h5⟩ := parse_expr1_term x.arg hx.2 text
      (pre ++ spaces x.sp ++ [x.op]) ((xs.map op_term.render).flatten ++ rest) s.token
      (by simp [htext1]) (op_terms_head xs rest hxs hrest)
      (by
        rw [hlen1, hlen3]
        exact op_terms_stop xs text (pre ++ op_term.render x) rest hxs (by simp [htext])
          (fun s1 h => (hstop1 s1 h).1))
    rw [hlen1] at h2 h5
    have hs2 : next_token text s = .ok s2 := h2
    rw [hlen3] at h5
    obtain ⟨tree, s4, h6, h7, h8⟩ := ih hxs text (pre ++ op_term.render x) rest fuel
      (.node s.token r sub) s3 (by simp [htext]) (by simp at hfuel; omega) hrest hstop1 h5
    refine ⟨tree, s4, ?_, ?_, by rw [hlen2]; exact h8⟩
    · have hor : (is_token s 43 || is_token s 45) = true := by
        rcases hx.1 with h | h <;> simp [is_token, hkind, h]
      rw [parse_expr0_loop]
      simp only [hor, if_true, create_node, hs2, bind_ok_eq, h3, node_t.set_right]
      exact h6
    · rw [h7]
      have hne : x.op ≠ TOKEN_INT := by
        rcases hx.1 with h | h <;> simp [h, TOKEN_INT]
      simp [node_t.ast, hne, hkind, h4]

/-- `parse_expr` on the text of an expression, whatever follows it, as long as the token
behind it is not a binary operator. -/
theorem parse_expr_sum (e : sum_text) (hwf : e.wf) (text pre rest : List Nat)
    (t : token_t) (htext : text = pre ++ e.render ++ rest)
    (hrest : isdigit (rest.headD 0) = false)
    (hstop : ∀ s1, lookahead text (pre.length + e.render.length) s1 →
      (s1.token.kind ≠ 42 ∧ s1.token.kind ≠ 47) ∧ s1.token.kind ≠ 43 ∧ s1.token.kind ≠ 45) :
    ∃ s tree s1, next_token text ⟨t, pre.length⟩ = .ok s ∧
      parse_expr text s = .ok (tree, s1) ∧ tree.ast = e.tree ∧
      lookahead text (pre.length + e.render.length) s1 := by
  obtain ⟨first, items⟩ := e
  obtain ⟨hf, hitems⟩ := hwf
  simp only [sum_text.render] at htext hstop ⊢
  have hlen : pre.length + (first.render ++ (items.map op_term.render).flatten).length =
      (pre ++ first.render).length + (items.map op_term.render).flatten.length := by
    simp; omega
  have hstop1 : ∀ s1, lookahead text
      ((pre ++ first.render).length + (items.map op_term.render).flatten.length) s1 →
      (s1.token.kind ≠ 42 ∧ s1.token.kind ≠ 47) ∧ s1.token.kind ≠ 43 ∧ s1.token.kind ≠ 45 := by
    rw [← hlen]; exact hstop
  obtain ⟨s, r, s1, h1, h2, h3, h4⟩ := parse_expr1_term first hf text pre
    ((items.map op_term.render).flatten ++ rest) t (by simp [htext])
    (op_terms_head items rest hitems hrest)
    (by
      have := op_terms_stop items text (pre ++ first.render) rest hitems (by simp [htext])
        (fun s1 h => (hstop1 s1 h).1)
      simpa using this)
  have hl := op_terms_length items
  obtain ⟨tree, s2, h5, h6, h7⟩ := parse_expr0_loop_items items hitems text (pre ++ first.render)
    rest (text.length + 2) r s1 (by simp [htext])
    (by rw [htext]; simp only [List.length_append]; omega) hrest
    hstop1 (by simpa using h4)
  refine ⟨s, tree, s2, h1, ?_, ?_, by rw [hlen]; exact h7⟩
  · simp only [parse_expr, parse_expr0, h2, bind_ok_eq, h5]
  · simp [h6, h3, sum_text.tree]

/-- `init_stream` and `parse_expr` on the text of an expression, followed by spaces only:
the parse succeeds with the tree of the expression and stops at the terminator. -/
theorem parse_expr_text (e : sum_text) (hwf : e.wf) (k : Nat) (tok : token_t) :
    ∃ s tree s1, init_stream (e.render ++ spaces k) tok = .ok s ∧
      parse_expr (e.render ++ spaces k) s = .ok (tree, s1) ∧ tree.ast = e.tree ∧
      s1.token.kind = 0 ∧ s1.stream = (e.render ++ spaces k).length + 1 := by
  have hstop : ∀ s1, lookahead (e.render ++ spaces k) e.render.length s1 →
      s1.token.kind = 0 ∧ s1.stream = (e.render ++ spaces k).length + 1 := by
    intro s1 ⟨t, ht⟩
    have := next_token_char e.render [] k t (by decide) (by decide)
    simp only [List.append_nil] at this
    rw [ht] at this
    cases this
    simp [spaces]
  obtain ⟨s, tree, s1, h1, h2, h3, h4⟩ := parse_expr_sum e hwf (e.render ++ spaces k) []
    (spaces k) tok (by simp)
    (by cases k <;> simp [spaces, List.replicate_succ, isdigit])
    (by
      intro s1 h
      have := (hstop s1 (by simpa using h)).1
      simp [this])
  exact ⟨s, tree, s1, h1, h2, h3, hstop s1 (by simpa using h4)⟩

/-- The factor text of a bare literal. -/
theorem factor_lit_render (x : List Nat) : (factor_text.mk [] 0 x).render = x := by
  simp [factor_text.render, spaces]

/-- C3: `*` and `/` bind tighter than `+` and `-`.  For decimal literals `a`, `b`, `c`, an
operator `m` among `* /` and an operator `s` among `+ -`, `parse_expr` returns on the text
`a s b m c` the tree `(s a (m b c))` and on `a m b s c` the tree `(s (m a b) c)`; and
`2+3*4` prints as `(+ 2 (* 3 4))` and runs to `14`. -/
theorem parse_expr_precedence (a b c : List Nat) (m s : Nat) (tok : token_t)
    (ha : is_literal a) (hb : is_literal b) (hc : is_literal c)
    (hm : m = 42 ∨ m = 47) (hs : s = 43 ∨ s = 45) :
    (∃ l tree l1, init_stream (a ++ s :: b ++ m :: c) tok = .ok l ∧
      parse_expr (a ++ s :: b ++ m :: c) l = .ok (tree, l1) ∧
      tree.ast = .op s (.int (atoi a)) (.op m (.int (atoi b)) (.int (atoi c)))) ∧
    (∃ l tree l1, init_stream (a ++ m :: b ++ s :: c) tok = .ok l ∧
      parse_expr (a ++ m :: b ++ s :: c) l = .ok (tree, l1) ∧
      tree.ast = .op s (.op m (.int (atoi a)) (.int (atoi b))) (.int (atoi c))) ∧
    parse_and_print (cstr "2+3*4") token_zero = .ok "(+ 2 (* 3 4))" ∧
    (parse_expr_str (fresh_arena 64) token_zero (cstr "2+3*4")).map Prod.fst = .ok 14 := by
  refine ⟨?_, ?_, rfl, rfl⟩
  · obtain ⟨l, tree, l1, h1, h2, h3, _⟩ := parse_expr_text
      ⟨⟨⟨[], 0, a⟩, []⟩, [⟨0, s, ⟨⟨[], 0, b⟩, [⟨0, m, ⟨[], 0, c⟩⟩]⟩⟩]⟩
      (by
        simp only [sum_text.wf, term_text.wf, factor_text.wf]
        simp only [List.mem_singleton, forall_eq, List.not_mem_nil, false_imp_iff,
          implies_true, and_true]
        exact ⟨ha, hs, hb, hm, hc⟩) 0 tok
    have hr : (sum_text.mk ⟨⟨[], 0, a⟩, []⟩
        [⟨0, s, ⟨⟨[], 0, b⟩, [⟨0, m, ⟨[], 0, c⟩⟩]⟩⟩]).render ++ spaces 0 =
        a ++ s :: b ++ m :: c := by
      simp [sum_text.render, term_text.render, op_term.render, op_factor.render,
        factor_lit_render, spaces]
    rw [hr] at h1 h2
    exact ⟨l, tree, l1, h1, h2, by
      simpa [sum_text.tree, term_text.tree, factor_text.tree] using h3⟩
  · obtain ⟨l, tree, l1, h1, h2, h3, _⟩ := parse_expr_text
      ⟨⟨⟨[], 0, a⟩, [⟨0, m, ⟨[], 0, b⟩⟩]⟩, [⟨0, s, ⟨⟨[], 0, c⟩, []⟩⟩]⟩
      (by
        simp only [sum_text.wf, term_text.wf, factor_text.wf]
        simp only [List.mem_singleton, forall_eq, List.not_mem_nil, false_imp_iff,
          implies_true, and_true]
        exact ⟨⟨ha, hm, hb⟩, hs, hc⟩) 0 tok
    have hr : (sum_text.mk ⟨⟨[], 0, a⟩, [⟨0, m, ⟨[], 0, b⟩⟩]⟩
        [⟨0, s, ⟨⟨[], 0, c⟩, []⟩⟩]).render ++ spaces 0 =
        a ++ m :: b ++ s :: c := by
      simp [sum_text.render, term_text.render, op_term.render, op_factor.render,
        factor_lit_render, spaces]
    rw [hr] at h1 h2
    exact ⟨l, tree, l1, h1, h2, by
      simpa [sum_text.tree, term_text.tree, factor_text.tree] using h3⟩

theorem parse_expr_precedence_witness :
    is_literal [50] ∧ is_literal [51] ∧ is_literal [52] ∧
    ∃ l tree l1, init_stream ([50] ++ 43 :: [51] ++ 42 :: [52]) token_zero = .ok l ∧
      parse_expr ([50] ++ 43 :: [51] ++ 42 :: [52]) l = .ok (tree, l1) ∧
      tree.ast = .op 43 (.int (atoi [50])) (.op 42 (.int (atoi [51])) (.int (atoi [52]))) :=
  ⟨by decide, by decide, by decide,
    (parse_expr_precedence [50] [51] [52] 42 43 token_zero (by decide) (by decide) (by decide)
      (by decide) (by decide)).1⟩

/-- C4: binary operators of equal precedence associate to the left.  For a chain
`x0 o1 x1 .. on xn` of decimal literals whose operators are all among `+ -`, or all among
`* /`, `parse_expr` returns the fully left-nested tree `(on .. (o1 x0 x1) .. xn)`; and
`20-5-3` prints as `(- (- 20 5) 3)` and runs to `12`. -/
theorem parse_expr_left_assoc (x0 : List Nat) (items : List (Nat × List Nat)) (tok : token_t)
    (hx0 : is_literal x0) (hitems : ∀ x ∈ items, is_literal x.2)
    (hops : (∀ x ∈ items, x.1 = 43 ∨ x.1 = 45) ∨ (∀ x ∈ items, x.1 = 42 ∨ x.1 = 47)) :
    (∃ l tree l1, init_stream (chain_text x0 items) tok = .ok l ∧
      parse_expr (chain_text x0 items) l = .ok (tree, l1) ∧
      tree.ast = chain_tree x0 items) ∧
    parse_and_print (cstr "20-5-3") token_zero = .ok "(- (- 20 5) 3)" ∧
    (parse_expr_str (fresh_arena 64) token_zero (cstr "20-5-3")).map Prod.fst = .ok 12 := by
  refine ⟨?_, rfl, rfl⟩
  rcases hops with hops | hops
  · obtain ⟨l, tree, l1, h1, h2, h3, _⟩ := parse_expr_text
      ⟨⟨⟨[], 0, x0⟩, []⟩, items.map fun x => ⟨0, x.1, ⟨⟨[], 0, x.2⟩, []⟩⟩⟩
      (by
        refine ⟨⟨hx0, by simp⟩, ?_⟩
        intro y hy
        obtain ⟨x, hx, rfl⟩ := List.mem_map.mp hy
        exact ⟨hops x hx, hitems x hx, by simp⟩) 0 tok
    have hr : (sum_text.mk ⟨⟨[], 0, x0⟩, []⟩
        (items.map fun x => ⟨0, x.1, ⟨⟨[], 0, x.2⟩, []⟩⟩)).render ++ spaces 0 =
        chain_text x0 items := by
      simp [sum_text.render, term_text.render, op_term.render, factor_lit_render, spaces,
        chain_text, List.map_map, Function.comp_def]
    rw [hr] at h1 h2
    refine ⟨l, tree, l1, h1, h2, ?_⟩
    rw [h3]
    simp [sum_text.tree, term_text.tree, factor_text.tree, chain_tree, List.foldl_map]
  · obtain ⟨l, tree, l1, h1, h2, h3, _⟩ := parse_expr_text
      ⟨⟨⟨[], 0, x0⟩, items.map fun x => ⟨0, x.1, ⟨[], 0, x.2⟩⟩⟩, []⟩
      (by
        refine ⟨⟨hx0, ?_⟩, by simp⟩
        intro y hy
        obtain ⟨x, hx, rfl⟩ := List.mem_map.mp hy
        exact ⟨hops x hx, hitems x hx⟩) 0 tok
    have hr : (sum_text.mk ⟨⟨[], 0, x0⟩, items.map fun x => ⟨0, x.1, ⟨[], 0, x.2⟩⟩⟩
        []).render ++ spaces 0 = chain_text x0 items := by
      simp [sum_text.render, term_text.render, op_factor.render, factor_lit_render, spaces,
        chain_text, List.map_map, Function.comp_def]
    rw [hr] at h1 h2
    refine ⟨l, tree, l1, h1, h2, ?_⟩
    rw [h3]
    simp [sum_text.tree, term_text.tree, factor_text.tree, chain_tree, List.foldl_map]

theorem parse_expr_left_assoc_witness :
    is_literal [50, 48] ∧ (∀ x ∈ [(45, [53]), (45, [51])], is_literal x.2) ∧
    ∃ l tree l1, init_stream (chain_text [50, 48] [(45, [53]), (45, [51])]) token_zero = .ok l ∧
      parse_expr (chain_text [50, 48] [(45, [53]), (45, [51])]) l = .ok (tree, l1) ∧
      tree.ast = chain_tree [50, 48] [(45, [53]), (45, [51])] :=
  ⟨by decide, by decide,
    (parse_expr_left_assoc [50, 48] [(45, [53]), (45, [51])] token_zero (by decide) (by decide)
      (Or.inl (by decide))).1⟩

theorem tilde_factor_render (k : Nat) (n : List Nat) :
    (factor_text.mk (List.replicate k 0) 0 n).render = List.replicate k 126 ++ n := by
  induction k with
  | zero => simp [factor_text.render, spaces]
  | succ k ih =>
    simp only [factor_text.render, spaces, List.replicate_succ, List.map_cons,
      List.flatten_cons, List.replicate_zero, List.nil_append, List.singleton_append,
      List.cons_append] at ih ⊢
    rw [ih]

theorem tilde_factor_tree (k : Nat) (n : List Nat) :
    (factor_text.mk (List.replicate k 0) 0 n).tree = tilde_nest k (.int (atoi n)) := by
  induction k with
  | zero => simp [factor_text.tree, tilde_nest]
  | succ k ih =>
    simp only [factor_text.tree, List.replicate_succ, List.foldr_cons, tilde_nest] at ih ⊢
    rw [ih]

/-- C5: the prefix operator `~` nests to the right and binds tighter than every binary
operator.  On `k` characters `~` followed by a decimal literal `n`, `parse_expr` returns
`k` nested `~` nodes, each with a left child and no right child, around the leaf `n`; the
documented input `12*34 + 45/56 + ~25` prints as `(+ (+ (* 12 34) (/ 45 56)) (~ 25))`; and
when a binary operator `o` among `+ - * /` and a second operand of `j` characters `~` and a
literal `m` follow, the `~` nodes stay around their own literal, below the node of `o`:
the tree is `(o (~ .. n) (~ .. m))`, so `~2*3` prints as `(* (~ 2) 3)` and never as
`(~ (* 2 3))`. -/
theorem parse_expr_tilde (k : Nat) (n : List Nat) (tok : token_t) (hn : is_literal n) :
    (∃ l tree l1, init_stream (List.replicate k 126 ++ n) tok = .ok l ∧
      parse_expr (List.replicate k 126 ++ n) l = .ok (tree, l1) ∧
      tree.ast = tilde_nest k (.int (atoi n))) ∧
    parse_and_print (cstr "12*34 + 45/56 + ~25") token_zero =
      .ok "(+ (+ (* 12 34) (/ 45 56)) (~ 25))" ∧
    (∀ (j : Nat) (m : List Nat) (o : Nat), is_literal m →
      (o = 43 ∨ o = 45 ∨ o = 42 ∨ o = 47) →
      ∃ l tree l1,
        init_stream (List.replicate k 126 ++ n ++ o :: (List.replicate j 126 ++ m)) tok =
          .ok l ∧
        parse_expr (List.replicate k 126 ++ n ++ o :: (List.replicate j 126 ++ m)) l =
          .ok (tree, l1) ∧
        tree.ast = .op o (tilde_nest k (.int (atoi n))) (tilde_nest j (.int (atoi m)))) ∧
    parse_and_print (cstr "~2*3") token_zero = .ok "(* (~ 2) 3)" ∧
    parse_and_print (cstr "~2+3") token_zero = .ok "(+ (~ 2) 3)" ∧
    parse_and_print (cstr "2-~~3/~4") token_zero = .ok "(- 2 (/ (~ (~ 3)) (~ 4)))" := by
  refine ⟨?_, rfl, ?_, rfl, rfl, rfl⟩
  · obtain ⟨l, tree, l1, h1, h2, h3, _⟩ := parse_expr_text
      ⟨⟨⟨List.replicate k 0, 0, n⟩, []⟩, []⟩ (by exact ⟨⟨hn, by simp⟩, by simp⟩) 0 tok
    have hr : (sum_text.mk ⟨⟨List.replicate k 0, 0, n⟩, []⟩ []).render ++ spaces 0 =
        List.replicate k 126 ++ n := by
      simp [sum_text.render, term_text.render, tilde_factor_render, spaces]
    rw [hr] at h1 h2
    refine ⟨l, tree, l1, h1, h2, ?_⟩
    rw [h3]
    simp [sum_text.tree, term_text.tree, tilde_factor_tree]
  · intro j m o hm ho
    have hmul : ∀ o, o = 42 ∨ o = 47 → ∃ l tree l1,
        init_stream (List.replicate k 126 ++ n ++ o :: (List.replicate j 126 ++ m)) tok =
          .ok l ∧
        parse_expr (List.replicate k 126 ++ n ++ o :: (List.replicate j 126 ++ m)) l =
          .ok (tree, l1) ∧
        tree.ast = .op o (tilde_nest k (.int (atoi n))) (tilde_nest j (.int (atoi m))) := by
      intro o ho
      obtain ⟨l, tree, l1, h1, h2, h3, _⟩ := parse_expr_text
        ⟨⟨⟨List.replicate k 0, 0, n⟩, [⟨0, o, ⟨List.replicate j 0, 0, m⟩⟩]⟩, []⟩
        (by
          simp only [sum_text.wf, term_text.wf, factor_text.wf]
          simp only [List.mem_singleton, forall_eq, List.not_mem_nil, false_imp_iff,
            implies_true, and_true]
          exact ⟨hn, ho, hm⟩) 0 tok
      have hr : (sum_text.mk
          ⟨⟨List.replicate k 0, 0, n⟩, [⟨0, o, ⟨List.replicate j 0, 0, m⟩⟩]⟩ []).render ++
          spaces 0 = List.replicate k 126 ++ n ++ o :: (List.replicate j 126 ++ m) := by
        simp [sum_text.render, term_text.render, op_factor.render, tilde_factor_render, spaces]
      rw [hr] at h1 h2
      refine ⟨l, tree, l1, h1, h2, ?_⟩
      rw [h3]
      simp [sum_text.tree, term_text.tree, tilde_factor_tree]
    have hadd : ∀ o, o = 43 ∨ o = 45 → ∃ l tree l1,
        init_stream (List.replicate k 126 ++ n ++ o :: (List.replicate j 126 ++ m)) tok =
          .ok l ∧
        parse_expr (List.replicate k 126 ++ n ++ o :: (List.replicate j 126 ++ m)) l =
          .ok (tree, l1) ∧
        tree.ast = .op o (tilde_nest k (.int (atoi n))) (tilde_nest j (.int (atoi m))) := by
      intro o ho
      obtain ⟨l, tree, l1, h1, h2, h3, _⟩ := parse_expr_text
        ⟨⟨⟨List.replicate k 0, 0, n⟩, []⟩, [⟨0, o, ⟨⟨List.replicate j 0, 0, m⟩, []⟩⟩]⟩
        (by
          simp only [sum_text.wf, term_text.wf, factor_text.wf]
          simp only [List.mem_singleton, forall_eq, List.not_mem_nil, false_imp_iff,
            implies_true, and_true]
          exact ⟨hn, ho, hm⟩) 0 tok
      have hr : (sum_text.mk ⟨⟨List.replicate k 0, 0, n⟩, []⟩
          [⟨0, o, ⟨⟨List.replicate j 0, 0, m⟩, []⟩⟩]).render ++
          spaces 0 = List.replicate k 126 ++ n ++ o :: (List.replicate j 126 ++ m) := by
        simp [sum_text.render, term_text.render, op_term.render, tilde_factor_render, spaces]
      rw [hr] at h1 h2
      refine ⟨l, tree, l1, h1, h2, ?_⟩
      rw [h3]
      simp [sum_text.tree, term_text.tree, tilde_factor_tree]
    rcases ho with h | h | h | h
    · exact hadd o (Or.inl h)
    · exact hadd o (Or.inr h)
    · exact hmul o (Or.inl h)
    · exact hmul o (Or.inr h)

/-- C5 at `~~~5` and at `~~2*~3`. -/
theorem parse_expr_tilde_witness :
    is_literal [53] ∧
    (∃ l tree l1, init_stream (List.replicate 3 126 ++ [53]) token_zero = .ok l ∧
      parse_expr (List.replicate 3 126 ++ [53]) l = .ok (tree, l1) ∧
      tree.ast = tilde_nest 3 (.int (atoi [53]))) ∧
    is_literal [50] ∧
    ∃ l tree l1,
      init_stream (List.replicate 3 126 ++ [53] ++ 42 :: (List.replicate 1 126 ++ [50]))
        token_zero = .ok l ∧
      parse_expr (List.replicate 3 126 ++ [53] ++ 42 :: (List.replicate 1 126 ++ [50])) l =
        .ok (tree, l1) ∧
      tree.ast = .op 42 (tilde_nest 3 (.int (atoi [53]))) (tilde_nest 1 (.int (atoi [50]))) :=
  ⟨by decide, (parse_expr_tilde 3 [53] token_zero (by decide)).1, by decide,
    (parse_expr_tilde 3 [53] token_zero (by decide)).2.2.1 1 [50] 42 (by decide)
      (Or.inr (Or.inr (Or.inl rfl)))⟩

/-- C6 (what the code does at the end of the input): the terminator is read as a token of
kind `0`, which is `TOKEN_INT`, so `parse_expr3` does not call `fatal("expected integer")`:
it makes a leaf of the terminator and calls `next_token` again, which reads behind the
terminator.  This happens on the texts `""`, `"1+"` and `"2*"`; a character that is no
digit, as in `")"`, is rejected as the claim says. -/
theorem parse_expr_end_of_input (tok : token_t) :
    init_stream (cstr "") tok = .ok ⟨⟨TOKEN_INT, 0, 1, tok.val⟩, 1⟩ ∧
    parse_expr3 (cstr "") ⟨⟨TOKEN_INT, 0, 1, tok.val⟩, 1⟩ = .error .bad_read ∧
    (init_stream (cstr "") tok >>= parse_expr (cstr "")) = .error .bad_read ∧
    (init_stream (cstr "1+") tok >>= parse_expr (cstr "1+")) = .error .bad_read ∧
    (init_stream (cstr "2*") tok >>= parse_expr (cstr "2*")) = .error .bad_read ∧
    (init_stream (cstr ")") tok >>= parse_expr (cstr ")")) = .error .expected_integer := by
  refine ⟨rfl, rfl, rfl, rfl, rfl, rfl⟩

/-! ## Arena and encoding facts -/

theorem bytes_of_s32_eq (v : Int) : bytes_of_s32 v = le32 v := by
  simp only [bytes_of_s32, le32, List.cons.injEq, and_true]
  refine ⟨?_, ?_, ?_, ?_⟩ <;> omega

theorem le32_length (v : Int) : (le32 v).length = 4 := rfl

theorem getElem?_mid (pre mid post : List Nat) (i : Nat) (hi : i < mid.length) :
    (pre ++ mid ++ post)[pre.length + i]? = mid[i]? := by
  rw [List.append_assoc, List.getElem?_append_right (by omega)]
  simp only [Nat.add_sub_cancel_left]
  rw [List.getElem?_append_left hi]

/-- Reading back the four bytes of an `s32`. -/
theorem load32_le32 (v : Int) (hv : in_s32 v) (pre post : List Nat) :
    load32 (pre ++ le32 v ++ post) pre.length = .ok v := by
  have h0 := getElem?_mid pre (le32 v) post 0 (by simp [le32])
  have h1 := getElem?_mid pre (le32 v) post 1 (by simp [le32])
  have h2 := getElem?_mid pre (le32 v) post 2 (by simp [le32])
  have h3 := getElem?_mid pre (le32 v) post 3 (by simp [le32])
  simp only [Nat.add_zero] at h0
  simp only [load32, h0, h1, h2, h3]
  simp only [le32, List.getElem?_cons_zero, List.getElem?_cons_succ]
  unfold in_s32 at hv
  simp only [wrap32, Except.ok.injEq]
  omega

theorem blit_length (mem : List Nat) (p : Nat) (bs : List Nat) (h : p + bs.length ≤ mem.length) :
    (blit mem p bs).length = mem.length := by
  simp [blit]; omega

theorem blit_nil (mem : List Nat) (p : Nat) : blit mem p [] = mem := by
  simp [blit]

theorem blit_append (mem : List Nat) (p : Nat) (xs ys : List Nat) (h : p + xs.length ≤ mem.length) :
    blit (blit mem p xs) (p + xs.length) ys = blit mem p (xs ++ ys) := by
  have h1 : (mem.take p).length = p := by simp; omega
  simp only [blit]
  have e1 : (List.take p mem ++ xs ++ List.drop (p + xs.length) mem).take (p + xs.length) =
      List.take p mem ++ xs := by
    rw [List.take_append_eq_append_take]
    simp [h1]
  have e2 : (List.take p mem ++ xs ++ List.drop (p + xs.length) mem).drop
      (p + xs.length + ys.length) = List.drop (p + (xs ++ ys).length) mem := by
    rw [List.drop_append_eq_append_drop]
    simp [h1]
    have : p + xs.length + ys.length - (p + xs.length) = ys.length := by omega
    rw [List.drop_eq_nil_of_le (by simp [h1])]
    simp [this, Nat.add_assoc]
  rw [e1, e2]
  simp

theorem store8_blit (mem : List Nat) (p v : Nat) (h : p < mem.length) :
    store8 mem p v = .ok (blit mem p [v]) := by
  simp only [store8, h, if_true, blit, List.length_singleton, Except.ok.injEq]
  rw [List.set_eq_take_append_cons_drop]
  simp [h]

theorem set_blit (mem : List Nat) (p v : Nat) (h : p < mem.length) :
    mem.set p v = blit mem p [v] := by
  have := store8_blit mem p v h
  simp only [store8, h, if_true, Except.ok.injEq] at this
  exact this

theorem store32_blit (mem : List Nat) (p : Nat) (v : Int) (h : p + 4 ≤ mem.length) :
    store32 mem p v = .ok (blit mem p (le32 v)) := by
  have hb := bytes_of_s32_eq v
  simp only [le32] at hb
  simp only [store32, h, if_true, hb, le32, Except.ok.injEq]
  rw [set_blit mem p _ (by omega)]
  rw [set_blit _ (p + 1) _ (by rw [blit_length _ _ _ (by simp; omega)]; omega)]
  have e1 := blit_append mem p [(v % 256).toNat] [(v / 256 % 256).toNat] (by simp; omega)
  simp only [List.length_singleton, List.singleton_append] at e1
  rw [e1]
  rw [set_blit _ (p + 2) _ (by rw [blit_length _ _ _ (by simp; omega)]; omega)]
  have e2 := blit_append mem p [(v % 256).toNat, (v / 256 % 256).toNat]
    [(v / 65536 % 256).toNat] (by simp; omega)
  simp only [List.length_cons, List.length_nil, List.cons_append, List.nil_append] at e2
  rw [e2]
  rw [set_blit _ (p + 3) _ (by rw [blit_length _ _ _ (by simp; omega)]; omega)]
  have e3 := blit_append mem p [(v % 256).toNat, (v / 256 % 256).toNat, (v / 65536 % 256).toNat]
    [(v / 16777216 % 256).toNat] (by simp; omega)
  simp only [List.length_cons, List.length_nil, List.cons_append, List.nil_append] at e3
  rw [e3]

theorem emit_ok (a : memory_arena_t) (bs : List Nat) (ha : arena_ok a)
    (h : a.used + bs.length ≤ a.size) : arena_ok (emit a bs) := by
  obtain ⟨h1, h2, h3⟩ := ha
  refine ⟨h, ?_, h3⟩
  show a.size ≤ (blit a.base a.used bs).length
  rw [blit_length _ _ _ (by omega)]
  exact h2

theorem emit_nil (a : memory_arena_t) : emit a [] = a := by
  simp [emit, blit_nil]

theorem emit_emit (a : memory_arena_t) (xs ys : List Nat) (ha : arena_ok a)
    (h : a.used + xs.length ≤ a.size) : emit (emit a xs) ys = emit a (xs ++ ys) := by
  obtain ⟨h1, h2, h3⟩ := ha
  simp only [emit, List.length_append, Nat.add_assoc]
  rw [blit_append _ _ _ _ (by omega)]

theorem push_size_ok (a : memory_arena_t) (n : Nat) (ha : arena_ok a) (h : a.used + n ≤ a.size) :
    push_size a n = .ok (a.used, { a with used := a.used + n }) := by
  obtain ⟨h1, h2, h3⟩ := ha
  have hw : wrap_size (a.used + n) = a.used + n := by
    simp only [wrap_size]; omega
  simp [push_size, hw, h]

theorem push_op_emit (a : memory_arena_t) (op : Nat) (ha : arena_ok a)
    (h : a.used + 1 ≤ a.size) : push_op a op = .ok (emit a [op % 256]) := by
  have hs := push_size_ok a 1 ha h
  obtain ⟨h1, h2, h3⟩ := ha
  simp only [push_op, hs, bind_ok_eq, store8_blit a.base a.used (op % 256) (by omega),
    pure_eq_ok, emit, List.length_singleton]

theorem push_lit_emit (a : memory_arena_t) (v : Int) (ha : arena_ok a)
    (h : a.used + 5 ≤ a.size) : push_lit a v = .ok (emit a (2 :: le32 v)) := by
  have h1 := push_op_emit a LIT ha (by omega)
  have ha1 := emit_ok a [LIT % 256] ha (by simp; omega)
  have hs := push_size_ok (emit a [LIT % 256]) 4 ha1 (by simp [emit]; omega)
  have hst := store32_blit (emit a [LIT % 256]).base (emit a [LIT % 256]).used v
    (by have := ha1.2.1; simp only [emit, List.length_singleton] at this ⊢; omega)
  simp only [push_lit, h1, bind_ok_eq, hs, hst, pure_eq_ok]
  have := emit_emit a [LIT % 256] (le32 v) ha (by simp; omega)
  simp only [emit, le32_length] at this ⊢
  simpa [LIT] using this

/-- `compile` pushes exactly the reference encoding of the tree. -/
theorem compile_emit :
    ∀ (tree : node_t), tree.ast.is_arith → ∀ (a : memory_arena_t), arena_ok a →
      a.used + tree.ast.bytes.length ≤ a.size → compile a tree = .ok (emit a tree.ast.bytes) := by
  intro tree
  induction tree with
  | null => intro h; exact absurd h (by simp [node_t.ast, ast.is_arith])
  | node t l r ihl ihr =>
    intro h a ha hfit
    by_cases hk : t.kind = TOKEN_INT
    · have hleaf : l = .null ∧ r = .null := by
        by_contra hc
        have hc1 : ¬ (t.kind = TOKEN_INT ∧ l = .null ∧ r = .null) := fun x => hc x.2
        rw [node_t.ast, if_neg hc1] at h
        have := h.1
        simp only [hk, TOKEN_INT] at this
        omega
      have hc1 : t.kind = TOKEN_INT ∧ l = .null ∧ r = .null := ⟨hk, hleaf⟩
      simp only [node_t.ast, hc1, and_self, if_true, ast.bytes, List.length_cons,
        le32_length] at hfit ⊢
      simp only [compile, hk, if_true]
      exact push_lit_emit a t.val ha (by omega)
    · have hc1 : ¬ (t.kind = TOKEN_INT ∧ l = .null ∧ r = .null) := fun x => hk x.1
      simp only [node_t.ast, hc1, if_false, ast.bytes, ast.is_arith, List.length_append,
        List.length_singleton] at h hfit ⊢
      obtain ⟨hop, hl, hr⟩ := h
      have h1 := ihl hl a ha (by omega)
      have ha1 := emit_ok a l.ast.bytes ha (by omega)
      have h2 := ihr hr (emit a l.ast.bytes) ha1 (by simp only [emit]; omega)
      have ha2 := emit_ok _ r.ast.bytes ha1 (by simp only [emit]; omega)
      have h3 := push_op_emit (emit (emit a l.ast.bytes) r.ast.bytes) t.kind ha2
        (by simp only [emit]; omega)
      have hmod : t.kind % 256 = t.kind := by rcases hop with h | h | h | h <;> simp [h]
      simp only [compile, hk, if_false, h1, bind_ok_eq, h2, h3, hmod]
      rw [emit_emit a _ _ ha (by omega), emit_emit a _ _ ha (by simp; omega)]

/-! ## Virtual machine facts -/

theorem wrap32_of_in (x : Int) (h : in_s32 x) : wrap32 x = x := by
  unfold in_s32 at h
  simp only [wrap32]
  omega

theorem vm_step_lit (mem : List Nat) (code : Nat) (stack : List Int) (v : Int)
    (hop : mem[code]? = some LIT) (hv : load32 mem (code + 1) = .ok v)
    (hs : stack.length < MAX_STACK) :
    vm_step mem code stack = .ok (.next (code + 5) (v :: stack)) := by
  have h1 : stack.length + 1 ≤ MAX_STACK := hs
  simp [vm_step, hop, LIT, SUB, ADD, MUL, DIV, PUSHES, PUSH, h1, hs, hv]

theorem vm_step_op (mem : List Nat) (code k : Nat) (stack : List Int) (a b x : Int)
    (hop : mem[code]? = some k) (hx : arith k a b = some x) (hin : in_s32 x)
    (hs : stack.length + 2 ≤ MAX_STACK) :
    vm_step mem code (b :: a :: stack) = .ok (.next (code + 1) (x :: stack)) := by
  have h1 : stack.length + 1 ≤ MAX_STACK := by omega
  have h2 : stack.length < MAX_STACK := by omega
  have hw := wrap32_of_in x hin
  simp only [arith] at hx
  by_cases k1 : k = 43
  · subst k1
    simp only [if_true, Option.some.injEq] at hx
    subst hx
    simp [vm_step, hop, SUB, ADD, vm_binary, POPS, POP, PUSHES, PUSH, h1, h2, hw]
  by_cases k2 : k = 45
  · subst k2
    simp only [if_true, Option.some.injEq] at hx
    norm_num at hx
    subst hx
    simp [vm_step, hop, SUB, vm_binary, POPS, POP, PUSHES, PUSH, h1, h2, hw]
  by_cases k3 : k = 42
  · subst k3
    norm_num at hx
    subst hx
    simp [vm_step, hop, SUB, ADD, MUL, vm_binary, POPS, POP, PUSHES, PUSH, h1, h2, hw]
  by_cases k4 : k = 47
  · subst k4
    norm_num at hx
    obtain ⟨hb, hx⟩ := hx
    subst hx
    have hdiv : div_s32 a b = .ok (Int.tdiv a b) := by
      have : ¬ (a = -2147483648 ∧ b = -1) := by
        rintro ⟨rfl, rfl⟩
        exact absurd hin (by decide)
      simp [div_s32, hb, this]
    simp [vm_step, hop, SUB, ADD, MUL, DIV, vm_binary, POPS, POP, PUSHES, PUSH, h1, h2, hdiv]
  · simp [k1, k2, k3, k4] at hx

theorem checked_some (x v : Int) (h : checked x = some v) : x = v ∧ in_s32 v := by
  unfold checked at h
  split at h
  · cases h; exact ⟨rfl, by assumption⟩
  · cases h

theorem ast_need_pos (t : ast) (v : Int) (h : t.value = some v) : 1 ≤ t.need := by
  cases t with
  | null => simp [ast.value] at h
  | int _ => simp [ast.need]
  | op k l r => simp only [ast.need]; omega

/-- Running the code of a tree pushes its value. -/
theorem vm_loop_run :
    ∀ (t : ast) (v : Int), t.value = some v →
    ∀ (mem pre post : List Nat) (stack : List Int) (fuel : Nat),
      mem = pre ++ t.bytes ++ post → stack.length + t.need ≤ MAX_STACK →
      vm_loop mem (fuel + t.nodes) pre.length stack =
        vm_loop mem fuel (pre.length + t.bytes.length) (v :: stack) := by
  intro t
  induction t with
  | null => intro v h; simp [ast.value] at h
  | int x =>
    intro v h mem pre post stack fuel hmem hneed
    obtain ⟨rfl, hin⟩ := checked_some _ _ h
    simp only [ast.bytes, ast.need, ast.nodes, List.length_cons, le32_length] at *
    have hop : mem[pre.length]? = some LIT := by
      rw [hmem, List.append_assoc, List.getElem?_append_right (le_refl _)]
      simp [LIT]
    have hv : load32 mem (pre.length + 1) = .ok x := by
      have := load32_le32 x hin (pre ++ [2]) post
      simpa [hmem] using this
    rw [vm_loop, vm_step_lit mem pre.length stack x hop hv (by omega)]
    rfl
  | op k l r ihl ihr =>
    intro v h mem pre post stack fuel hmem hneed
    simp only [ast.value] at h
    cases hl : l.value with
    | none => simp [hl] at h
    | some a =>
      cases hr : r.value with
      | none => simp [hl, hr] at h
      | some b =>
        cases hx : arith k a b with
        | none => simp [hl, hr, hx] at h
        | some x =>
          simp only [hl, hr, hx, Option.bind_eq_bind, Option.some_bind] at h
          obtain ⟨rfl, hin⟩ := checked_some _ _ h
          have hrn := ast_need_pos r b hr
          simp only [ast.bytes, ast.need, ast.nodes, List.length_append,
            List.length_singleton] at *
          have e1 := ihl a hl mem pre (r.bytes ++ [k] ++ post) stack (fuel + 1 + r.nodes)
            (by simp [hmem]) (by omega)
          have e2 := ihr b hr mem (pre ++ l.bytes) ([k] ++ post) (a :: stack) (fuel + 1)
            (by simp [hmem]) (by simp only [List.length_cons]; omega)
          have hop : mem[pre.length + l.bytes.length + r.bytes.length]? = some k := by
            have := getElem?_mid (pre ++ l.bytes ++ r.bytes) [k] post 0 (by simp)
            simpa [hmem, Nat.add_assoc] using this
          have e3 := vm_step_op mem (pre.length + l.bytes.length + r.bytes.length) k stack a b x
            hop hx hin (by omega)
          have hf : fuel + (l.nodes + r.nodes + 1) = fuel + 1 + r.nodes + l.nodes := by omega
          rw [hf, e1]
          simp only [List.length_append] at e2
          rw [e2, vm_loop, e3]
          simp only [bind_ok_eq, Nat.add_assoc]

theorem nodes_le_bytes (t : ast) : t.nodes ≤ t.bytes.length := by
  induction t with
  | null => simp [ast.nodes]
  | int v => simp [ast.nodes, ast.bytes]
  | op k l r ihl ihr =>
    simp only [ast.nodes, ast.bytes, List.length_append, List.length_singleton]
    omega

/-- The code of a tree followed by `HALT` returns the value of the tree. -/
theorem vm_exec_program (t : ast) (v : Int) (ht : t.value = some v)
    (hn : t.need ≤ MAX_STACK) (post : List Nat) :
    vm_exec (t.bytes ++ [1] ++ post) = .ok v := by
  have hnodes := nodes_le_bytes t
  have hrun := vm_loop_run t v ht (t.bytes ++ [1] ++ post) [] ([1] ++ post) []
    ((t.bytes ++ [1] ++ post).length - t.nodes) (by simp) (by simpa using hn)
  have hf : (t.bytes ++ [1] ++ post).length + 1 =
      (t.bytes ++ [1] ++ post).length - t.nodes + 1 + t.nodes := by
    simp only [List.length_append]; omega
  have hhalt : (t.bytes ++ [1] ++ post)[t.bytes.length]? = some HALT := by
    have := getElem?_mid t.bytes [1] post 0 (by simp)
    simpa [HALT] using this
  have hstep := vm_step_halt (t.bytes ++ [1] ++ post) t.bytes.length [v] hhalt
  simp only at hstep
  unfold vm_exec
  rw [hf]
  have hrun1 := vm_loop_run t v ht (t.bytes ++ [1] ++ post) [] ([1] ++ post) []
    ((t.bytes ++ [1] ++ post).length - t.nodes + 1) (by simp) (by simpa using hn)
  simp only [List.length_nil, Nat.zero_add] at hrun1
  rw [hrun1, vm_loop, hstep]
  rfl

theorem blit_zero (mem bs : List Nat) : blit mem 0 bs = bs ++ mem.drop bs.length := by
  simp [blit]

/-- The bytecode of `test_vm_op` is the encoding of the tree `(op a b)`. -/
theorem vm_op_result_eq (arena : memory_arena_t) (a b : Int) (k : Nat)
    (hok : arena_ok arena) (hu : arena.used = 0) (hsz : 12 ≤ arena.size)
    (hk : k = 43 ∨ k = 45 ∨ k = 42 ∨ k = 47) :
    vm_op_result arena a b k =
      vm_exec ((ast.op k (.int a) (.int b)).bytes ++ [1] ++ arena.base.drop 12) := by
  have hmod : k % 256 = k := by rcases hk with h | h | h | h <;> simp [h]
  have h1 := push_lit_emit arena a hok (by omega)
  have ok1 := emit_ok arena (2 :: le32 a) hok (by simp [le32_length]; omega)
  have h2 := push_lit_emit _ b ok1 (by simp [emit, le32_length]; omega)
  have ok2 := emit_ok _ (2 :: le32 b) ok1 (by simp [emit, le32_length]; omega)
  have h3 := push_op_emit _ k ok2 (by simp [emit, le32_length]; omega)
  rw [hmod] at h3
  have ok3 := emit_ok _ [k] ok2 (by simp [emit, le32_length]; omega)
  have h4 := push_op_emit _ HALT ok3 (by simp [emit, le32_length]; omega)
  simp only [vm_op_result, h1, h2, h3, h4, bind_ok_eq]
  rw [emit_emit arena _ _ hok (by simp [le32_length]; omega),
    emit_emit arena _ _ hok (by simp [le32_length]; omega),
    emit_emit arena _ _ hok (by simp [le32_length]; omega)]
  simp only [emit, hu, blit_zero]
  simp [ast.bytes, le32, HALT]

/-- C2: with `a` and `b` in the range of `s32`, `vm_exec` on the bytecode `push_lit(a)`,
`push_lit(b)`, `op`, `HALT` returns `a op b`, the value pushed first being the left
operand, whenever the exact result is in the range of `s32`; `DIV` needs `b != 0` and
truncates toward zero. -/
theorem vm_exec_binary_ops (arena : memory_arena_t) (a b : Int)
    (hok : arena_ok arena) (hu : arena.used = 0) (hsz : 12 ≤ arena.size)
    (ha : in_s32 a) (hb : in_s32 b) :
    (in_s32 (a - b) → vm_op_result arena a b SUB = .ok (a - b)) ∧
    (in_s32 (a + b) → vm_op_result arena a b ADD = .ok (a + b)) ∧
    (in_s32 (a * b) → vm_op_result arena a b MUL = .ok (a * b)) ∧
    (b ≠ 0 → in_s32 (Int.tdiv a b) → vm_op_result arena a b DIV = .ok (Int.tdiv a b)) := by
  have key : ∀ k x, (k = 43 ∨ k = 45 ∨ k = 42 ∨ k = 47) → arith k a b = some x → in_s32 x →
      vm_op_result arena a b k = .ok x := by
    intro k x hk hx hin
    rw [vm_op_result_eq arena a b k hok hu hsz hk]
    apply vm_exec_program
    · simp [ast.value, checked, ha, hb, hx, hin]
    · simp [ast.need, MAX_STACK]
  refine ⟨fun h => key 45 _ (by simp) (by simp [arith]) h,
    fun h => key 43 _ (by simp) (by simp [arith]) h,
    fun h => key 42 _ (by simp) (by simp [arith]) h,
    fun h0 h => key 47 _ (by simp) (by simp [arith, h0]) h⟩

theorem vm_exec_binary_ops_witness :
    vm_op_result (fresh_arena 16) 20 5 SUB = .ok 15 ∧
    vm_op_result (fresh_arena 16) 20 5 ADD = .ok 25 ∧
    vm_op_result (fresh_arena 16) 20 5 MUL = .ok 100 ∧
    vm_op_result (fresh_arena 16) 20 5 DIV = .ok 4 ∧
    vm_op_result (fresh_arena 16) (-7) 2 DIV = .ok (-3) :=
  ⟨(vm_exec_binary_ops (fresh_arena 16) 20 5 (by decide) rfl (by decide) (by decide)
      (by decide)).1 (by decide),
   (vm_exec_binary_ops (fresh_arena 16) 20 5 (by decide) rfl (by decide) (by decide)
      (by decide)).2.1 (by decide),
   (vm_exec_binary_ops (fresh_arena 16) 20 5 (by decide) rfl (by decide) (by decide)
      (by decide)).2.2.1 (by decide),
   (vm_exec_binary_ops (fresh_arena 16) 20 5 (by decide) rfl (by decide) (by decide)
      (by decide)).2.2.2 (by decide) (by decide),
   (vm_exec_binary_ops (fresh_arena 16) (-7) 2 (by decide) rfl (by decide) (by decide)
      (by decide)).2.2.2 (by decide) (by decide)⟩

/-! ## The value of a parsed text -/

theorem isdigit_bounds (c : Nat) (h : isdigit c = true) : 48 ≤ c ∧ c ≤ 57 := by
  simpa [isdigit] using h

theorem decimal_from_mono (ds : List Nat) (hds : ∀ c ∈ ds, isdigit c = true) :
    ∀ v : Int, 0 ≤ v → v ≤ ds.foldl (fun (v : Int) (c : Nat) => 10 * v + ((c : Int) - 48)) v := by
  induction ds with
  | nil => intro v _; simp
  | cons c ds ih =>
    intro v hv
    have hc := isdigit_bounds c (hds c (by simp))
    have := ih (fun x hx => hds x (by simp [hx])) (10 * v + ((c : Int) - 48)) (by omega)
    rw [List.foldl_cons]
    omega

theorem atoi_from_eq (ds : List Nat) (hds : ∀ c ∈ ds, isdigit c = true) :
    ∀ v : Int, 0 ≤ v → ds.foldl (fun (v : Int) (c : Nat) => 10 * v + ((c : Int) - 48)) v ≤ 2147483647 →
      atoi_from v ds = ds.foldl (fun (v : Int) (c : Nat) => 10 * v + ((c : Int) - 48)) v := by
  induction ds with
  | nil => intro v _ _; simp [atoi_from]
  | cons c ds ih =>
    intro v hv hle
    have hc := isdigit_bounds c (hds c (by simp))
    have hds' : ∀ x ∈ ds, isdigit x = true := fun x hx => hds x (by simp [hx])
    rw [List.foldl_cons] at hle
    have hmono := decimal_from_mono ds hds' (10 * v + ((c : Int) - 48)) (by omega)
    have h1 : wrap32 (wrap32 (v * 10) + ((c : Int) - 48)) = 10 * v + ((c : Int) - 48) := by
      simp only [wrap32]; omega
    have := ih hds' (10 * v + ((c : Int) - 48)) (by omega) hle
    simp only [atoi_from, List.foldl_cons, h1] at this ⊢
    exact this

/-- The literal value `next_token` computes is the number the digits denote, when that
number is in the range of `s32`. -/
theorem atoi_eq_decimal (ds : List Nat) (hds : ∀ c ∈ ds, isdigit c = true)
    (h : in_s32 (decimal ds)) : atoi ds = decimal ds :=
  atoi_from_eq ds hds 0 (le_refl _) h.2

theorem arith_some_op (k : Nat) (a b x : Int) (h : arith k a b = some x) :
    k = 43 ∨ k = 45 ∨ k = 42 ∨ k = 47 := by
  unfold arith at h
  by_cases h1 : k = 43; · exact Or.inl h1
  by_cases h2 : k = 45; · exact Or.inr (Or.inl h2)
  by_cases h3 : k = 42; · exact Or.inr (Or.inr (Or.inl h3))
  by_cases h4 : k = 47; · exact Or.inr (Or.inr (Or.inr h4))
  simp [h1, h2, h3, h4] at h

theorem eval_step_some (acc : Option Int) (k : Nat) (operand : Option Int) (v : Int)
    (h : eval_step acc k operand = some v) :
    ∃ a b x, acc = some a ∧ operand = some b ∧ arith k a b = some x ∧ checked x = some v := by
  cases acc with
  | none => simp [eval_step] at h
  | some a =>
    cases operand with
    | none => simp [eval_step] at h
    | some b =>
      cases hx : arith k a b with
      | none => simp [eval_step, hx] at h
      | some x => exact ⟨a, b, x, rfl, rfl, hx, by simpa [eval_step, hx] using h⟩

theorem sound_factor (f : factor_text) (hf : f.wf) : sound 1 f.value f.tree := by
  intro v hv
  obtain ⟨tildes, sp, digits⟩ := f
  simp only [factor_text.value] at hv
  split at hv
  · rename_i ht
    have ht1 : tildes = [] := ht
    subst ht1
    obtain ⟨rfl, hin⟩ := checked_some _ _ hv
    have := atoi_eq_decimal digits hf.2 hin
    simp [factor_text.tree, ast.value, ast.is_arith, ast.need, this, checked, hin]
  · cases hv

theorem sound_fold {β : Type} (m : Nat) (op : β → Nat) (val : β → Option Int) (tr : β → ast)
    (items : List β) (hitems : ∀ x ∈ items, sound m (val x) (tr x)) :
    ∀ (o : Option Int) (t : ast), sound (m + 1) o t →
      sound (m + 1) (items.foldl (fun acc x => eval_step acc (op x) (val x)) o)
        (items.foldl (fun acc x => ast.op (op x) acc (tr x)) t) := by
  induction items with
  | nil => intro o t h; simpa using h
  | cons x xs ih =>
    intro o t h
    rw [List.foldl_cons, List.foldl_cons]
    apply ih (fun y hy => hitems y (by simp [hy]))
    intro v hv
    obtain ⟨a, b, r, ha, hb, hr, hc⟩ := eval_step_some _ _ _ _ hv
    obtain ⟨h1, h2, h3⟩ := h a ha
    obtain ⟨h4, h5, h6⟩ := hitems x (by simp) b hb
    refine ⟨?_, ⟨arith_some_op _ _ _ _ hr, h2, h5⟩, ?_⟩
    · simp [ast.value, h1, h4, hr, hc]
    · simp only [ast.need]; omega

theorem sound_mono (m n : Nat) (h : m ≤ n) (o : Option Int) (t : ast) (hs : sound m o t) :
    sound n o t := by
  intro v hv
  obtain ⟨h1, h2, h3⟩ := hs v hv
  exact ⟨h1, h2, by omega⟩

theorem sound_term (tm : term_text) (hwf : tm.wf) : sound 2 tm.value tm.tree := by
  obtain ⟨first, items⟩ := tm
  exact sound_fold 1 (fun x => x.op) (fun x => x.arg.value) (fun x => x.arg.tree) items
    (fun x hx => sound_factor x.arg (hwf.2 x hx).2) _ _
    (sound_mono 1 2 (by omega) _ _ (sound_factor first hwf.1))

theorem sound_sum (e : sum_text) (hwf : e.wf) : sound 3 e.value e.tree := by
  obtain ⟨first, items⟩ := e
  exact sound_fold 2 (fun x => x.op) (fun x => x.arg.value) (fun x => x.arg.tree) items
    (fun x hx => sound_term x.arg (hwf.2 x hx).2) _ _
    (sound_mono 2 3 (by omega) _ _ (sound_term first hwf.1))

/-! ## The pipeline -/

/-- `compile` and the `push_op(arena, HALT)` behind it, on an arena with `used = 0`. -/
theorem compile_halt (tree : node_t) (arena : memory_arena_t)
    (harith : tree.ast.is_arith) (hok : arena_ok arena) (hu : arena.used = 0)
    (hfit : tree.ast.bytes.length + 1 ≤ arena.size) :
    compile arena tree = .ok (emit arena tree.ast.bytes) ∧
    push_op (emit arena tree.ast.bytes) HALT = .ok (emit arena (tree.ast.bytes ++ [1])) ∧
    (emit arena (tree.ast.bytes ++ [1])).base =
      tree.ast.bytes ++ [1] ++ arena.base.drop (tree.ast.bytes.length + 1) := by
  have h1 := compile_emit tree harith arena hok (by omega)
  have ok1 := emit_ok arena tree.ast.bytes hok (by omega)
  have h2 := push_op_emit (emit arena tree.ast.bytes) HALT ok1 (by simp only [emit]; omega)
  rw [emit_emit arena _ _ hok (by omega)] at h2
  refine ⟨h1, h2, ?_⟩
  simp [emit, hu, blit_zero]

/-- C7: the emitted bytecode is the post-order reference encoding.  For a tree of integer
leaves and binary nodes `+ - * /` and an arena with `used = 0` that the code fits, `compile`
followed by `push_op(arena, HALT)` succeeds and leaves in the buffer, from offset `0` on,
the bytes `ast.bytes tree` (a leaf as `0x02` and the four little-endian bytes of its value,
a node as the code of its left child, of its right child, and the character of its
operator) followed by `0x01`; these are the bytes `parse_expr_str` hands to `vm_exec`. -/
theorem compile_bytes (tree : node_t) (arena : memory_arena_t)
    (harith : tree.ast.is_arith) (hok : arena_ok arena) (hu : arena.used = 0)
    (hfit : tree.ast.bytes.length + 1 ≤ arena.size) :
    ∃ a1 a2, compile arena tree = .ok a1 ∧ push_op a1 HALT = .ok a2 ∧
      a2.base = tree.ast.bytes ++ [1] ++ arena.base.drop (tree.ast.bytes.length + 1) ∧
      a2.used = tree.ast.bytes.length + 1 ∧
      ∀ (str : List Nat) (tok : token_t) (s s1 : lexer_t),
        init_stream str tok = .ok s → parse_expr str s = .ok (tree, s1) →
        parse_expr_str arena tok str =
          (vm_exec (tree.ast.bytes ++ [1] ++ arena.base.drop (tree.ast.bytes.length + 1))
            >>= fun r => .ok (r, reset_arena a2, s1)) := by
  obtain ⟨h1, h2, hbase⟩ := compile_halt tree arena harith hok hu hfit
  refine ⟨_, _, h1, h2, hbase, by simp [emit, hu], ?_⟩
  intro str tok s s1 hs hp
  simp only [parse_expr_str, hs, hp, bind_ok_eq, h1, h2, hbase, pure_eq_ok]

theorem compile_bytes_witness :
    ∃ a1 a2,
      compile (fresh_arena 16) (.node ⟨43, 1, 2, 2⟩ (.node ⟨0, 0, 1, 2⟩ .null .null)
        (.node ⟨0, 2, 3, -3⟩ .null .null)) = .ok a1 ∧
      push_op a1 HALT = .ok a2 ∧
      a2.base = [2, 2, 0, 0, 0, 2, 253, 255, 255, 255, 43, 1, 0, 0, 0, 0] ∧ a2.used = 12 := by
  obtain ⟨a1, a2, h1, h2, h3, h4, _⟩ := compile_bytes
    (.node ⟨43, 1, 2, 2⟩ (.node ⟨0, 0, 1, 2⟩ .null .null) (.node ⟨0, 2, 3, -3⟩ .null .null))
    (fresh_arena 16) (by decide) (by decide) rfl (by decide)
  exact ⟨a1, a2, h1, h2, h3, h4⟩

/-- C1: for the text of an expression of decimal literals and the operators `+ - * /`
(spaces may precede any token), whose value under standard arithmetic is defined (no `~`,
no zero divisor, every literal and intermediate result in the range of `s32`) and whose
bytecode fits an arena with `used = 0`, `parse_expr_str` returns that value: `*` and `/`
bind tighter than `+` and `-`, equal precedence goes left to right, division truncates.
In particular `12*34+45/56+25` returns `433`. -/
theorem parse_expr_str_value (e : sum_text) (v : Int) (arena : memory_arena_t) (tok : token_t)
    (hwf : e.wf) (hv : e.value = some v) (hok : arena_ok arena) (hu : arena.used = 0)
    (hfit : e.tree.bytes.length + 1 ≤ arena.size) :
    (∃ a s, parse_expr_str arena tok e.render = .ok (v, a, s) ∧ a.used = 0) ∧
    (parse_expr_str (fresh_arena 64) token_zero (cstr "12*34+45/56+25")).map Prod.fst =
      .ok 433 := by
  refine ⟨?_, rfl⟩
  obtain ⟨s, tree, s1, h1, h2, h3, _⟩ := parse_expr_text e hwf 0 tok
  simp only [spaces, List.replicate_zero, List.append_nil] at h1 h2
  obtain ⟨hval, harith, hneed⟩ := sound_sum e hwf v hv
  rw [← h3] at hval harith hneed hfit
  obtain ⟨hc1, hc2, hbase⟩ := compile_halt tree arena harith hok hu hfit
  have hvm := vm_exec_program tree.ast v hval (by simp only [MAX_STACK]; omega)
    (arena.base.drop (tree.ast.bytes.length + 1))
  refine ⟨reset_arena (emit arena (tree.ast.bytes ++ [1])), s1, ?_, rfl⟩
  simp only [parse_expr_str, h1, h2, bind_ok_eq, hc1, hc2, hbase, hvm, pure_eq_ok]

theorem parse_expr_str_value_witness :
    ∃ a s, parse_expr_str (fresh_arena 64) token_zero (cstr "12*34+45/56+25") =
      .ok (433, a, s) ∧ a.used = 0 :=
  (parse_expr_str_value
    ⟨⟨⟨[], 0, [49, 50]⟩, [⟨0, 42, ⟨[], 0, [51, 52]⟩⟩]⟩,
      [⟨0, 43, ⟨⟨[], 0, [52, 53]⟩, [⟨0, 47, ⟨[], 0, [53, 54]⟩⟩]⟩⟩,
       ⟨0, 43, ⟨⟨[], 0, [50, 53]⟩, []⟩⟩]⟩
    433 (fresh_arena 64) token_zero (by decide) (by decide) (by decide) rfl (by decide)).1

theorem compile_no_right (arena : memory_arena_t) (t : token_t) (l : node_t)
    (hk : t.kind ≠ TOKEN_INT) :
    ∃ e, compile arena (.node t l .null) = .error e := by
  simp only [compile, hk, if_false]
  cases compile arena l with
  | error e => exact ⟨e, rfl⟩
  | ok a => exact ⟨.null_deref, rfl⟩

/-- C8 (what the code does on a `~` node): `compile` has no one-operand path.  It walks the
absent right child of a `~` node and stops on the null pointer, so `parse_expr_str` returns
no value on `~5`, whatever the arena; and `vm_exec` has no opcode for `~`: the byte is an
illegal opcode. -/
theorem compile_tilde_fails (arena : memory_arena_t) (tok : token_t) :
    (∃ e, parse_expr_str arena tok (cstr "~5") = .error e) ∧
    parse_expr_str (fresh_arena 64) token_zero (cstr "~5") = .error .null_deref ∧
    (∃ e, compile arena (.node ⟨126, 0, 1, 0⟩ (.node ⟨TOKEN_INT, 1, 2, 5⟩ .null .null) .null) =
      .error e) ∧
    vm_exec [2, 5, 0, 0, 0, 126, 1] = .error .illegal_opcode := by
  refine ⟨?_, rfl, compile_no_right arena _ _ (by simp [TOKEN_INT]), rfl⟩
  have h1 : init_stream (cstr "~5") tok = .ok ⟨⟨126, 0, 1, tok.val⟩, 1⟩ := rfl
  obtain ⟨v, s, h2⟩ : ∃ v s, parse_expr (cstr "~5") ⟨⟨126, 0, 1, tok.val⟩, 1⟩ =
      .ok (.node ⟨126, 0, 1, tok.val⟩ (.node ⟨TOKEN_INT, 1, 2, v⟩ .null .null) .null, s) :=
    ⟨_, _, rfl⟩
  obtain ⟨e, he⟩ := compile_no_right arena ⟨126, 0, 1, tok.val⟩
    (.node ⟨TOKEN_INT, 1, 2, v⟩ .null .null) (by simp [TOKEN_INT])
  exact ⟨e, by simp only [parse_expr_str, h1, h2, bind_ok_eq, he, bind_error_eq]⟩

/-! ## The fuel of the loops never runs out -/

/-- A successful `next_token` consumed at least one character and stopped at the latest
right behind the terminator. -/
theorem next_token_ok (text : List Nat) (s s1 : lexer_t) (h : next_token text s = .ok s1) :
    s.stream < s1.stream ∧ s1.stream ≤ text.length + 1 := by
  by_cases hp : s.stream ≤ text.length
  · obtain ⟨s2, h2, ha, hb⟩ := next_token_total text s.token s.stream hp
    have : s2 = s1 := by
      have h3 : next_token text s = .ok s2 := h2
      rw [h] at h3
      cases h3; rfl
    subst this
    exact ⟨ha, hb⟩
  · exfalso
    have hd : deref text s.stream = .error .bad_read := by
      have : (text ++ [0])[s.stream]? = none := by
        rw [List.getElem?_eq_none_iff]; simp; omega
      simp only [deref, this]
    simp only [next_token] at h
    rw [show text.length + 2 = (text.length + 1) + 1 from rfl, next_token_go] at h
    simp [hd] at h

theorem next_token_fuel (text : List Nat) (s : lexer_t) :
    next_token text s ≠ .error .out_of_fuel := by
  by_cases hp : s.stream ≤ text.length
  · obtain ⟨s2, h2, _, _⟩ := next_token_total text s.token s.stream hp
    have h3 : next_token text s = .ok s2 := h2
    rw [h3]; simp
  · have hd : deref text s.stream = .error .bad_read := by
      have : (text ++ [0])[s.stream]? = none := by
        rw [List.getElem?_eq_none_iff]; simp; omega
      simp only [deref, this]
    simp only [next_token]
    rw [show text.length + 2 = (text.length + 1) + 1 from rfl, next_token_go]
    simp [hd]

theorem parse_expr3_fuel (text : List Nat) (s : lexer_t) :
    parse_expr3 text s ≠ .error .out_of_fuel ∧
    ∀ tree s1, parse_expr3 text s = .ok (tree, s1) →
      s.stream < s1.stream ∧ s1.stream ≤ text.length + 1 := by
  unfold parse_expr3
  split
  · cases h : next_token text s with
    | error e =>
      have := next_token_fuel text s
      simp only [h, bind_error_eq]
      refine ⟨fun hc => this (by rw [h]; cases hc; rfl), fun _ _ hc => by cases hc⟩
    | ok s2 =>
      simp only [bind_ok_eq, pure_eq_ok]
      refine ⟨by simp, fun tree s1 hc => ?_⟩
      cases hc
      exact next_token_ok text s _ h
  · exact ⟨by simp, fun _ _ hc => by cases hc⟩

theorem parse_expr2_go_fuel (text : List Nat) :
    ∀ (fuel : Nat) (s : lexer_t), 1 ≤ fuel → text.length + 2 ≤ fuel + s.stream →
      parse_expr2_go text fuel s ≠ .error .out_of_fuel ∧
      ∀ tree s1, parse_expr2_go text fuel s = .ok (tree, s1) →
        s.stream < s1.stream ∧ s1.stream ≤ text.length + 1 := by
  intro fuel
  induction fuel with
  | zero => intro s h; omega
  | succ fuel ih =>
    intro s _ hf
    rw [parse_expr2_go]
    split
    · cases h : next_token text s with
      | error e =>
        have := next_token_fuel text s
        simp only [h, bind_error_eq]
        exact ⟨fun hc => this (by rw [h]; cases hc; rfl), fun _ _ hc => by cases hc⟩
      | ok s2 =>
        obtain ⟨ha, hb⟩ := next_token_ok text s s2 h
        obtain ⟨i1, i2⟩ := ih s2 (by omega) (by omega)
        simp only [bind_ok_eq, create_node]
        cases h2 : parse_expr2_go text fuel s2 with
        | error e =>
          simp only [bind_error_eq]
          exact ⟨fun hc => i1 (by rw [h2]; cases hc; rfl), fun _ _ hc => by cases hc⟩
        | ok r =>
          obtain ⟨x, s3⟩ := r
          obtain ⟨hc, hd⟩ := i2 x s3 h2
          simp only [bind_ok_eq, node_t.set_left, pure_eq_ok]
          refine ⟨by simp, fun tree s1 he => ?_⟩
          cases he
          exact ⟨by omega, hd⟩
    · exact parse_expr3_fuel text s

theorem parse_expr2_fuel (text : List Nat) (s : lexer_t) :
    parse_expr2 text s ≠ .error .out_of_fuel ∧
    ∀ tree s1, parse_expr2 text s = .ok (tree, s1) →
      s.stream < s1.stream ∧ s1.stream ≤ text.length + 1 :=
  parse_expr2_go_fuel text (text.length + 2) s (by omega) (by omega)

theorem parse_expr1_loop_fuel (text : List Nat) :
    ∀ (fuel : Nat) (r : node_t) (s : lexer_t), 1 ≤ fuel → text.length + 2 ≤ fuel + s.stream →
      s.stream ≤ text.length + 1 →
      parse_expr1_loop text fuel r s ≠ .error .out_of_fuel ∧
      ∀ tree s1, parse_expr1_loop text fuel r s = .ok (tree, s1) →
        s.stream ≤ s1.stream ∧ s1.stream ≤ text.length + 1 := by
  intro fuel
  induction fuel with
  | zero => intro r s h; omega
  | succ fuel ih =>
    intro r s _ hf hs
    rw [parse_expr1_loop]
    split
    · cases h : next_token text s with
      | error e =>
        have := next_token_fuel text s
        simp only [h, bind_error_eq]
        exact ⟨fun hc => this (by rw [h]; cases hc; rfl), fun _ _ hc => by cases hc⟩
      | ok s2 =>
        obtain ⟨ha, hb⟩ := next_token_ok text s s2 h
        obtain ⟨j1, j2⟩ := parse_expr2_fuel text s2
        simp only [bind_ok_eq, create_node]
        cases h2 : parse_expr2 text s2 with
        | error e =>
          simp only [bind_error_eq]
          exact ⟨fun hc => j1 (by rw [h2]; cases hc; rfl), fun _ _ hc => by cases hc⟩
        | ok q =>
          obtain ⟨x, s3⟩ := q
          obtain ⟨hc, hd⟩ := j2 x s3 h2
          obtain ⟨i1, i2⟩ := ih (.node s.token r x) s3 (by omega) (by omega) hd
          simp only [bind_ok_eq, node_t.set_right]
          refine ⟨i1, fun tree s1 he => ?_⟩
          obtain ⟨hx, hy⟩ := i2 tree s1 he
          exact ⟨by omega, hy⟩
    · simp only [pure_eq_ok]
      refine ⟨by simp, fun tree s1 he => ?_⟩
      cases he
      exact ⟨le_refl _, hs⟩

theorem parse_expr1_fuel (text : List Nat) (s : lexer_t) :
    parse_expr1 text s ≠ .error .out_of_fuel ∧
    ∀ tree s1, parse_expr1 text s = .ok (tree, s1) →
      s.stream < s1.stream ∧ s1.stream ≤ text.length + 1 := by
  obtain ⟨j1, j2⟩ := parse_expr2_fuel text s
  unfold parse_expr1
  cases h2 : parse_expr2 text s with
  | error e =>
    simp only [bind_error_eq]
    exact ⟨fun hc => j1 (by rw [h2]; cases hc; rfl), fun _ _ hc => by cases hc⟩
  | ok q =>
    obtain ⟨x, s3⟩ := q
    obtain ⟨hc, hd⟩ := j2 x s3 h2
    obtain ⟨i1, i2⟩ := parse_expr1_loop_fuel text (text.length + 2) x s3 (by omega) (by omega) hd
    simp only [bind_ok_eq]
    refine ⟨i1, fun tree s1 he => ?_⟩
    obtain ⟨hx, hy⟩ := i2 tree s1 he
    exact ⟨by omega, hy⟩

theorem parse_expr0_loop_fuel (text : List Nat) :
    ∀ (fuel : Nat) (r : node_t) (s : lexer_t), 1 ≤ fuel → text.length + 2 ≤ fuel + s.stream →
      s.stream ≤ text.length + 1 →
      parse_expr0_loop text fuel r s ≠ .error .out_of_fuel := by
  intro fuel
  induction fuel with
  | zero => intro r s h; omega
  | succ fuel ih =>
    intro r s _ hf hs
    rw [parse_expr0_loop]
    split
    · cases h : next_token text s with
      | error e =>
        have := next_token_fuel text s
        simp only [h, bind_error_eq]
        exact fun hc => this (by rw [h]; cases hc; rfl)
      | ok s2 =>
        obtain ⟨ha, hb⟩ := next_token_ok text s s2 h
        obtain ⟨j1, j2⟩ := parse_expr1_fuel text s2
        simp only [bind_ok_eq, create_node]
        cases h2 : parse_expr1 text s2 with
        | error e =>
          simp only [bind_error_eq]
          exact fun hc => j1 (by rw [h2]; cases hc; rfl)
        | ok q =>
          obtain ⟨x, s3⟩ := q
          obtain ⟨hc, hd⟩ := j2 x s3 h2
          simp only [bind_ok_eq, node_t.set_right]
          exact ih (.node s.token r x) s3 (by omega) (by omega) hd
    · simp

/-- The parser never stops for lack of fuel: the bound given to its loops is never
reached, so a result of `parse_expr` is a result of the C function. -/
theorem parse_expr_fuel (text : List Nat) (s : lexer_t) :
    parse_expr text s ≠ .error .out_of_fuel := by
  obtain ⟨j1, j2⟩ := parse_expr1_fuel text s
  unfold parse_expr parse_expr0
  cases h2 : parse_expr1 text s with
  | error e =>
    simp only [bind_error_eq]
    exact fun hc => j1 (by rw [h2]; cases hc; rfl)
  | ok q =>
    obtain ⟨x, s3⟩ := q
    obtain ⟨hc, hd⟩ := j2 x s3 h2
    simp only [bind_ok_eq]
    exact parse_expr0_loop_fuel text (text.length + 2) x s3 (by omega) (by omega) hd

theorem vm_binary_fuel (code : Nat) (stack : List Int) (f : Int → Int → Except fault Int)
    (hf : ∀ l r, f l r ≠ .error .out_of_fuel) :
    vm_binary code stack f ≠ .error .out_of_fuel ∧
    ∀ c1 st1, vm_binary code stack f = .ok (.next c1 st1) → c1 = code := by
  match stack with
  | [] => simp [vm_binary, POPS]
  | [_] => simp [vm_binary, POPS]
  | right :: left :: rest =>
    simp only [vm_binary, POPS, POP, PUSHES, PUSH, List.length_cons]
    have h2 : 2 ≤ rest.length + 1 + 1 := by omega
    simp only [h2, if_true, bind_ok_eq]
    split
    · simp only [bind_ok_eq]
      cases hx : f left right with
      | error e =>
        simp only [bind_error_eq]
        exact ⟨fun hc => hf left right (by rw [hx]; cases hc; rfl), fun _ _ hc => by cases hc⟩
      | ok x =>
        simp only [bind_ok_eq]
        split
        · simp only [bind_ok_eq, pure_eq_ok]
          exact ⟨by simp, fun c1 st1 hc => by cases hc; rfl⟩
        · simp
    · simp

theorem vm_step_fuel (mem : List Nat) (code : Nat) (stack : List Int) :
    vm_step mem code stack ≠ .error .out_of_fuel ∧
    ∀ c1 st1, vm_step mem code stack = .ok (.next c1 st1) → code < mem.length ∧ code < c1 := by
  unfold vm_step
  cases hop : mem[code]? with
  | none => simp
  | some op =>
    have hlt : code < mem.length := by
      by_contra hc
      rw [List.getElem?_eq_none (by omega)] at hop
      cases hop
    have hw : ∀ g : Int → Int → Int, ∀ l r,
        (fun left right => (Except.ok (wrap32 (g left right)) : Except fault Int)) l r ≠
          .error .out_of_fuel := by
      intro g l r; simp
    have hdiv : ∀ l r, div_s32 l r ≠ .error .out_of_fuel := by
      intro l r
      unfold div_s32
      split <;> simp
    have key : ∀ f : Int → Int → Except fault Int, (∀ l r, f l r ≠ .error .out_of_fuel) →
        vm_binary (code + 1) stack f ≠ .error .out_of_fuel ∧
        ∀ c1 st1, vm_binary (code + 1) stack f = .ok (.next c1 st1) →
          code < mem.length ∧ code < c1 := by
      intro f hf
      obtain ⟨h1, h2⟩ := vm_binary_fuel (code + 1) stack f hf
      exact ⟨h1, fun c1 st1 hc => ⟨hlt, by have := h2 c1 st1 hc; omega⟩⟩
    simp only
    split
    · exact key _ (hw (fun l r => l - r))
    split
    · exact key _ (hw (fun l r => l + r))
    split
    · exact key _ (hw (fun l r => l * r))
    split
    · exact key _ hdiv
    split
    · simp only [PUSHES, PUSH]
      split
      · simp only [bind_ok_eq]
        cases hl : load32 mem (code + 1) with
        | error e =>
          have he : e = .bad_read := by
            unfold load32 at hl
            split at hl
            · cases hl
            · cases hl; rfl
          subst he
          simp
        | ok x =>
          simp only [bind_ok_eq]
          split
          · simp only [bind_ok_eq, pure_eq_ok]
            refine ⟨by simp, fun c1 st1 hc => ?_⟩
            cases hc
            exact ⟨hlt, by omega⟩
          · simp
      · simp
    split
    · simp only [POPS, POP]
      split
      · cases stack with
        | nil => simp
        | cons x rest => simp
      · simp
    · simp

theorem vm_loop_fuel (mem : List Nat) :
    ∀ (fuel code : Nat) (stack : List Int), 1 ≤ fuel → mem.length + 1 ≤ fuel + code →
      vm_loop mem fuel code stack ≠ .error .out_of_fuel := by
  intro fuel
  induction fuel with
  | zero => intro code stack h; omega
  | succ fuel ih =>
    intro code stack _ hf
    obtain ⟨h1, h2⟩ := vm_step_fuel mem code stack
    rw [vm_loop]
    cases hs : vm_step mem code stack with
    | error e =>
      simp only [bind_error_eq]
      exact fun hc => h1 (by rw [hs]; cases hc; rfl)
    | ok nx =>
      cases nx with
      | next c1 st1 =>
        obtain ⟨ha, hb⟩ := h2 c1 st1 hs
        simp only [bind_ok_eq]
        exact ih c1 st1 (by omega) (by omega)
      | ret v => simp

/-- The loop of `vm_exec` never stops for lack of fuel. -/
theorem vm_exec_fuel (mem : List Nat) : vm_exec mem ≠ .error .out_of_fuel :=
  vm_loop_fuel mem (mem.length + 1) 0 [] (by omega) (by omega)

theorem push_op_fuel (a : memory_arena_t) (op : Nat) : push_op a op ≠ .error .out_of_fuel := by
  unfold push_op push_size store8
  split
  · simp only [bind_ok_eq]
    split <;> simp
  · simp

theorem push_lit_fuel (a : memory_arena_t) (v : Int) : push_lit a v ≠ .error .out_of_fuel := by
  unfold push_lit
  cases h : push_op a LIT with
  | error e =>
    simp only [bind_error_eq]
    exact fun hc => push_op_fuel a LIT (by rw [h]; cases hc; rfl)
  | ok a1 =>
    simp only [bind_ok_eq]
    unfold push_size store32
    split
    · simp only [bind_ok_eq]
      split
      · split <;> simp
      · simp
    · simp

theorem compile_fuel (a : memory_arena_t) (tree : node_t) :
    compile a tree ≠ .error .out_of_fuel := by
  induction tree generalizing a with
  | null => simp [compile]
  | node t l r ihl ihr =>
    rw [compile]
    split
    · exact push_lit_fuel a t.val
    · cases h1 : compile a l with
      | error e =>
        simp only [bind_error_eq]
        exact fun hc => ihl a (by rw [h1]; cases hc; rfl)
      | ok a1 =>
        simp only [bind_ok_eq]
        cases h2 : compile a1 r with
        | error e =>
          simp only [bind_error_eq]
          exact fun hc => ihr a1 (by rw [h2]; cases hc; rfl)
        | ok a2 =>
          simp only [bind_ok_eq]
          exact push_op_fuel a2 t.kind

/-- No run of `parse_expr_str` stops for lack of fuel: every result of the embedding is a
result of the C function (a value, a fatal error or undefined behaviour). -/
theorem parse_expr_str_fuel (arena : memory_arena_t) (tok : token_t) (str : List Nat) :
    parse_expr_str arena tok str ≠ .error .out_of_fuel := by
  unfold parse_expr_str init_stream
  cases h1 : next_token str ⟨tok, 0⟩ with
  | error e =>
    simp only [bind_error_eq]
    exact fun hc => next_token_fuel str ⟨tok, 0⟩ (by rw [h1]; cases hc; rfl)
  | ok s =>
    simp only [bind_ok_eq]
    cases h2 : parse_expr str s with
    | error e =>
      simp only [bind_error_eq]
      exact fun hc => parse_expr_fuel str s (by rw [h2]; cases hc; rfl)
    | ok q =>
      obtain ⟨tree, s1⟩ := q
      simp only [bind_ok_eq]
      cases h3 : compile arena tree with
      | error e =>
        simp only [bind_error_eq]
        exact fun hc => compile_fuel arena tree (by rw [h3]; cases hc; rfl)
      | ok a1 =>
        simp only [bind_ok_eq]
        cases h4 : push_op a1 HALT with
        | error e =>
          simp only [bind_error_eq]
          exact fun hc => push_op_fuel a1 HALT (by rw [h4]; cases hc; rfl)
        | ok a2 =>
          simp only [bind_ok_eq]
          cases h5 : vm_exec a2.base with
          | error e =>
            simp only [bind_error_eq]
            exact fun hc => vm_exec_fuel a2.base (by rw [h5]; cases hc; rfl)
          | ok r => simp

/-! ## The arena: `push_size` -/

/-- C11 (what the code does): the sum `used + size` of `push_size` is a `size_t` sum.  With
`used = 1`, `size = 16` and a request of `2^64 - 1` bytes the true sum exceeds the
capacity, yet the machine sum is `0`, the assertion passes, the offset `1` is handed out
and `used` becomes `0`.  Whenever the true sum fits the machine word the claim holds:
`push_size` succeeds exactly when `used + n <= size`, returns the old `used` as offset,
advances `used` by `n` and leaves `size` and `base` alone; otherwise it stops on the
assertion. -/
theorem push_size_wraps :
    (∀ base : List Nat,
      push_size ⟨16, 0, base, 1⟩ 18446744073709551615 = .ok (1, ⟨16, 0, base, 0⟩) ∧
      ¬ (1 + 18446744073709551615 ≤ 16)) ∧
    (∀ (arena : memory_arena_t) (n : Nat), arena.used + n < 18446744073709551616 →
      ((∃ r, push_size arena n = .ok r) ↔ arena.used + n ≤ arena.size) ∧
      (arena.used + n ≤ arena.size →
        push_size arena n = .ok (arena.used, { arena with used := arena.used + n })) ∧
      (¬ arena.used + n ≤ arena.size → push_size arena n = .error .assert_failed)) := by
  have h0 : wrap_size (1 + 18446744073709551615) = 0 := by unfold wrap_size; norm_num
  refine ⟨fun base => ⟨by simp only [push_size, h0]; simp, by omega⟩, ?_⟩
  intro arena n hlt
  have hw : wrap_size (arena.used + n) = arena.used + n := by
    simp only [wrap_size]; omega
  by_cases h : arena.used + n ≤ arena.size
  · simp [push_size, hw, h]
  · simp [push_size, hw, h]

/-! ## The tokenizer: kinds, literals, spaces -/

theorem digit_run_spec (rest : List Nat) :
    rest = digit_run rest ++ rest.dropWhile isdigit ∧
    (∀ c ∈ digit_run rest, isdigit c = true) ∧
    isdigit ((rest.dropWhile isdigit).headD 0) = false ∧
    (isdigit (first_char rest) = true → digit_run rest ≠ []) := by
  refine ⟨(List.takeWhile_append_dropWhile isdigit rest).symm,
    fun c hc => List.mem_takeWhile_imp hc, ?_, ?_⟩
  · have := List.head?_dropWhile_not isdigit rest
    cases h : (rest.dropWhile isdigit) with
    | nil => simp [isdigit]
    | cons c l =>
      rw [h] at this
      simpa using this
  · intro h
    cases rest with
    | nil => simp [first_char, isdigit] at h
    | cons c l =>
      simp only [first_char, List.headD_cons] at h
      simp [digit_run, List.takeWhile_cons, h]

/-- The token `next_token` produces behind `n` spaces, whatever follows them. -/
theorem next_token_any (pre rest : List Nat) (n : Nat) (t : token_t)
    (hs : first_char rest ≠ 32) :
    next_token (pre ++ spaces n ++ rest) ⟨t, pre.length⟩ =
      .ok (if isdigit (first_char rest) = true then
          ⟨⟨TOKEN_INT, pre.length + n, pre.length + n + (digit_run rest).length,
            atoi (digit_run rest)⟩, pre.length + n + (digit_run rest).length⟩
        else ⟨⟨first_char rest, pre.length + n, pre.length + n + 1, t.val⟩,
          pre.length + n + 1⟩) := by
  obtain ⟨h1, h2, h3, h4⟩ := digit_run_spec rest
  by_cases hd : isdigit (first_char rest) = true
  · have := next_token_int pre (digit_run rest) (rest.dropWhile isdigit) n t (h4 hd) h2 h3
    rw [List.append_assoc (pre ++ spaces n), ← h1] at this
    simp only [hd, if_true]
    exact this
  · have hd' : isdigit (rest.headD 0) = false := by simpa [first_char] using hd
    have := next_token_char pre rest n t hd' hs
    simp only [hd, if_false]
    exact this

/-- C15 (what the code does): the kind of the terminator token is `'\0' = 0`, the value of
the enumerator `TOKEN_INT`, so at the end of the input `next_token` produces a token for
which `is_token(TOKEN_INT)` holds although no digit was read.  In general, behind any
spaces, the token has kind `TOKEN_INT` exactly when the first character is a digit or is
the character `0`; a character that is no digit gives a token of its own kind. -/
theorem next_token_terminator_kind :
    (∀ tok : token_t,
      next_token (cstr "") ⟨tok, 0⟩ = .ok ⟨⟨TOKEN_INT, 0, 1, tok.val⟩, 1⟩ ∧
      is_token ⟨⟨TOKEN_INT, 0, 1, tok.val⟩, 1⟩ TOKEN_INT = true ∧
      isdigit (first_char (cstr "")) = false) ∧
    (∀ (pre rest : List Nat) (n : Nat) (t : token_t), first_char rest ≠ 32 →
      ∃ s, next_token (pre ++ spaces n ++ rest) ⟨t, pre.length⟩ = .ok s ∧
        (is_token s TOKEN_INT = true ↔
          (isdigit (first_char rest) = true ∨ first_char rest = 0)) ∧
        (isdigit (first_char rest) = false → s.token.kind = first_char rest)) := by
  refine ⟨fun tok => ⟨rfl, rfl, rfl⟩, ?_⟩
  intro pre rest n t hs
  refine ⟨_, next_token_any pre rest n t hs, ?_, ?_⟩
  · by_cases hd : isdigit (first_char rest) = true
    · simp [hd, is_token]
    · simp [hd, is_token, TOKEN_INT]
  · intro hd
    simp [hd]

theorem decimal_nonneg (ds : List Nat) (hds : ∀ c ∈ ds, isdigit c = true) : 0 ≤ decimal ds :=
  decimal_from_mono ds hds 0 (le_refl _)

/-- C16: with the cursor at a decimal digit, `next_token` consumes the maximal run of
digits `ds` and nothing more: the token has kind `TOKEN_INT`, starts at the first digit
and ends at the first character that is no digit (the terminator at the end of the text),
where `stream` is left; and its value is the decimal value of the run when that is below
`2^31` (leading zeros included). -/
theorem next_token_literal (pre ds rest : List Nat) (t : token_t)
    (hds : is_literal ds) (hrest : isdigit (first_char rest) = false) :
    next_token (pre ++ ds ++ rest) ⟨t, pre.length⟩ =
      .ok ⟨⟨TOKEN_INT, pre.length, pre.length + ds.length, atoi ds⟩,
        pre.length + ds.length⟩ ∧
    (decimal ds < 2147483648 → atoi ds = decimal ds) := by
  have h := next_token_int pre ds rest 0 t hds.1 hds.2 hrest
  simp only [spaces, List.replicate_zero, List.append_nil, Nat.add_zero] at h
  refine ⟨h, fun hlt => atoi_eq_decimal ds hds.2 ⟨?_, ?_⟩⟩
  · have := decimal_nonneg ds hds.2
    omega
  · omega

theorem next_token_literal_witness :
    is_literal [48, 48, 52, 50] ∧ isdigit (first_char [43, 49]) = false ∧
    next_token ([49, 42] ++ [48, 48, 52, 50] ++ [43, 49]) ⟨token_zero, 2⟩ =
      .ok ⟨⟨TOKEN_INT, 2, 6, atoi [48, 48, 52, 50]⟩, 6⟩ ∧
    atoi [48, 48, 52, 50] = decimal [48, 48, 52, 50] :=
  ⟨by decide, by decide,
    (next_token_literal [49, 42] [48, 48, 52, 50] [43, 49] token_zero (by decide) (by decide)).1,
    (next_token_literal [49, 42] [48, 48, 52, 50] [43, 49] token_zero (by decide) (by decide)).2
      (by decide)⟩

/-- C17: leading spaces are skipped entirely.  With `k` spaces in front of a text `r` that
does not begin with a space, `next_token` yields the token it yields on `r` alone: same
kind, same value, `stream` at the same place in `r`, and a span shifted by the `k` spaces
that lies inside `r` and its terminator: it starts at or behind the first character of `r`
and ends at `stream`, at most one behind the last character of `r`. -/
theorem next_token_skips_spaces (pre r : List Nat) (k : Nat) (t : token_t)
    (hr : first_char r ≠ 32) :
    ∃ s s1, next_token (pre ++ spaces k ++ r) ⟨t, pre.length⟩ = .ok s ∧
      next_token (pre ++ r) ⟨t, pre.length⟩ = .ok s1 ∧
      s.token.kind = s1.token.kind ∧ s.token.val = s1.token.val ∧
      s.stream = s1.stream + k ∧
      s.token.start = s1.token.start + k ∧ s.token.end_ = s1.token.end_ + k ∧
      pre.length + k ≤ s.token.start ∧ s.token.start < s.token.end_ ∧
      s.token.end_ ≤ pre.length + k + r.length + 1 ∧
      s.token.end_ = s.stream := by
  have h1 := next_token_any pre r k t hr
  have h2 := next_token_any pre r 0 t hr
  simp only [spaces, List.replicate_zero, List.append_nil, Nat.add_zero] at h2
  simp only [spaces] at h1
  obtain ⟨s0, e0, _, hle⟩ := next_token_total (pre ++ spaces k ++ r) t pre.length (by simp)
  simp only [spaces] at e0 hle
  rw [h1] at e0
  simp only [List.length_append, List.length_replicate] at hle
  refine ⟨_, _, h1, h2, ?_⟩
  obtain ⟨_, _, _, h4⟩ := digit_run_spec r
  by_cases hd : isdigit (first_char r) = true
  · have hne := List.length_pos.mpr (h4 hd)
    rw [if_pos hd] at e0
    cases e0
    rw [if_pos hd, if_pos hd]
    refine ⟨rfl, rfl, ?_, ?_, ?_, ?_, ?_, ?_, rfl⟩ <;> simp only at hle ⊢ <;> omega
  · rw [if_neg hd] at e0
    cases e0
    rw [if_neg hd, if_neg hd]
    refine ⟨rfl, rfl, ?_, ?_, ?_, ?_, ?_, ?_, rfl⟩ <;> simp only at hle ⊢ <;> omega

/-- C17 at the text `1` followed by three spaces and `7+`, with `stream` behind the `1`. -/
theorem next_token_skips_spaces_witness :
    first_char [55, 43] ≠ 32 ∧
    ∃ s s1, next_token ([49] ++ spaces 3 ++ [55, 43]) ⟨token_zero, 1⟩ = .ok s ∧
      next_token ([49] ++ [55, 43]) ⟨token_zero, 1⟩ = .ok s1 ∧
      s.token.kind = s1.token.kind ∧ s.token.val = s1.token.val ∧
      s.stream = s1.stream + 3 ∧
      s.token.start = s1.token.start + 3 ∧ s.token.end_ = s1.token.end_ + 3 ∧
      [49].length + 3 ≤ s.token.start ∧ s.token.start < s.token.end_ ∧
      s.token.end_ ≤ [49].length + 3 + [55, 43].length + 1 ∧
      s.token.end_ = s.stream :=
  ⟨by decide, next_token_skips_spaces [49] [55, 43] 3 token_zero (by decide)⟩

/-! ## The shape of every parsed tree -/

theorem parse_expr3_shape (text : List Nat) (s s1 : lexer_t) (tree : node_t)
    (h : parse_expr3 text s = .ok (tree, s1)) : shape_ok tree := by
  unfold parse_expr3 at h
  split at h
  · rename_i hk
    cases hn : next_token text s with
    | error e => simp [hn] at h
    | ok s2 =>
      simp only [hn, bind_ok_eq, pure_eq_ok, create_node] at h
      cases h
      have : s.token.kind = TOKEN_INT := by simpa [is_token] using hk
      simp [shape_ok, this]
  · cases h

theorem parse_expr2_go_shape (text : List Nat) :
    ∀ (fuel : Nat) (s s1 : lexer_t) (tree : node_t),
      parse_expr2_go text fuel s = .ok (tree, s1) → shape_ok tree := by
  intro fuel
  induction fuel with
  | zero => intro s s1 tree h; cases h
  | succ fuel ih =>
    intro s s1 tree h
    rw [parse_expr2_go] at h
    split at h
    · rename_i hk
      cases hn : next_token text s with
      | error e => simp [hn] at h
      | ok s2 =>
        simp only [hn, bind_ok_eq, create_node] at h
        cases hp : parse_expr2_go text fuel s2 with
        | error e => simp [hp] at h
        | ok q =>
          obtain ⟨x, s3⟩ := q
          simp only [hp, bind_ok_eq, node_t.set_left, pure_eq_ok] at h
          have hk1 : s.token.kind = 126 := by simpa [is_token] using hk
          have := ih s2 s3 x hp
          cases h
          simp [shape_ok, hk1, TOKEN_INT, this]
    · exact parse_expr3_shape text s s1 tree h

theorem parse_expr2_shape (text : List Nat) (s s1 : lexer_t) (tree : node_t)
    (h : parse_expr2 text s = .ok (tree, s1)) : shape_ok tree :=
  parse_expr2_go_shape text _ s s1 tree h

theorem parse_expr1_loop_shape (text : List Nat) :
    ∀ (fuel : Nat) (r : node_t) (s s1 : lexer_t) (tree : node_t), shape_ok r →
      parse_expr1_loop text fuel r s = .ok (tree, s1) → shape_ok tree := by
  intro fuel
  induction fuel with
  | zero => intro r s s1 tree _ h; cases h
  | succ fuel ih =>
    intro r s s1 tree hr h
    rw [parse_expr1_loop] at h
    split at h
    · rename_i hk
      cases hn : next_token text s with
      | error e => simp [hn] at h
      | ok s2 =>
        simp only [hn, bind_ok_eq, create_node] at h
        cases hp : parse_expr2 text s2 with
        | error e => simp [hp] at h
        | ok q =>
          obtain ⟨x, s3⟩ := q
          simp only [hp, bind_ok_eq, node_t.set_right] at h
          have hx := parse_expr2_shape text s2 s3 x hp
          refine ih _ s3 s1 tree ?_ h
          have hk1 : s.token.kind = 42 ∨ s.token.kind = 47 := by simpa [is_token] using hk
          rcases hk1 with hk1 | hk1 <;> simp [shape_ok, hk1, TOKEN_INT, hr, hx]
    · simp only [pure_eq_ok] at h
      cases h
      exact hr

theorem parse_expr1_shape (text : List Nat) (s s1 : lexer_t) (tree : node_t)
    (h : parse_expr1 text s = .ok (tree, s1)) : shape_ok tree := by
  unfold parse_expr1 at h
  cases hp : parse_expr2 text s with
  | error e => simp [hp] at h
  | ok q =>
    obtain ⟨x, s3⟩ := q
    simp only [hp, bind_ok_eq] at h
    exact parse_expr1_loop_shape text _ x s3 s1 tree (parse_expr2_shape text s s3 x hp) h

theorem parse_expr0_loop_shape (text : List Nat) :
    ∀ (fuel : Nat) (r : node_t) (s s1 : lexer_t) (tree : node_t), shape_ok r →
      parse_expr0_loop text fuel r s = .ok (tree, s1) → shape_ok tree := by
  intro fuel
  induction fuel with
  | zero => intro r s s1 tree _ h; cases h
  | succ fuel ih =>
    intro r s s1 tree hr h
    rw [parse_expr0_loop] at h
    split at h
    · rename_i hk
      cases hn : next_token text s with
      | error e => simp [hn] at h
      | ok s2 =>
        simp only [hn, bind_ok_eq, create_node] at h
        cases hp : parse_expr1 text s2 with
        | error e => simp [hp] at h
        | ok q =>
          obtain ⟨x, s3⟩ := q
          simp only [hp, bind_ok_eq, node_t.set_right] at h
          have hx := parse_expr1_shape text s2 s3 x hp
          refine ih _ s3 s1 tree ?_ h
          have hk1 : s.token.kind = 43 ∨ s.token.kind = 45 := by simpa [is_token] using hk
          rcases hk1 with hk1 | hk1 <;> simp [shape_ok, hk1, TOKEN_INT, hr, hx]
    · simp only [pure_eq_ok] at h
      cases h
      exact hr

/-- C18: every tree that `parse_expr` returns, on any text and from any state of the
tokenizer, satisfies the shape invariant at every node: an integer node has no children,
a `~` node has a left child and no right child, a `+ - * /` node has both children, and
no other kind of node occurs. -/
theorem parse_expr_shape (text : List Nat) (s s1 : lexer_t) (tree : node_t)
    (h : parse_expr text s = .ok (tree, s1)) : shape_ok tree := by
  unfold parse_expr parse_expr0 at h
  cases hp : parse_expr1 text s with
  | error e => simp [hp] at h
  | ok q =>
    obtain ⟨x, s3⟩ := q
    simp only [hp, bind_ok_eq] at h
    exact parse_expr0_loop_shape text _ x s3 s1 tree (parse_expr1_shape text s s3 x hp) h

theorem parse_expr_shape_witness :
    parse_expr (cstr "~5*2") ⟨⟨126, 0, 1, 0⟩, 1⟩ =
      .ok (.node ⟨42, 2, 3, 5⟩
          (.node ⟨126, 0, 1, 0⟩ (.node ⟨0, 1, 2, 5⟩ .null .null) .null)
          (.node ⟨0, 3, 4, 2⟩ .null .null),
        ⟨⟨0, 4, 5, 2⟩, 5⟩) ∧
    shape_ok (.node ⟨42, 2, 3, 5⟩
      (.node ⟨126, 0, 1, 0⟩ (.node ⟨0, 1, 2, 5⟩ .null .null) .null)
      (.node ⟨0, 3, 4, 2⟩ .null .null)) :=
  ⟨rfl, parse_expr_shape (cstr "~5*2") ⟨⟨126, 0, 1, 0⟩, 1⟩ ⟨⟨0, 4, 5, 2⟩, 5⟩ _ rfl⟩

/-! ## Reads stay inside the text -/

/-- Called with `stream` behind the terminator, `next_token` reads outside the text. -/
theorem next_token_past (text : List Nat) (s : lexer_t) (h : text.length < s.stream) :
    next_token text s = .error .bad_read := by
  have hd : deref text s.stream = .error .bad_read := by
    have : (text ++ [0])[s.stream]? = none := by
      rw [List.getElem?_eq_none_iff]; simp; omega
    simp only [deref, this]
  simp only [next_token]
  rw [show text.length + 2 = (text.length + 1) + 1 from rfl, next_token_go]
  simp [hd]

/-- C19: on a well-formed expression text (decimal literals, `+ - * /`, prefix `~`, spaces
before any token and at the end), `init_stream` and `parse_expr` return a tree without a
read outside the text: every read behind the terminator is a fault of the embedding, and
none occurs.  The parse ends with the terminator token as the current token and `stream`
right behind the terminator, which was read once; `next_token` is not called in that
state, where it would read outside the text. -/
theorem parse_expr_reads_inside (e : sum_text) (hwf : e.wf) (k : Nat) (tok : token_t) :
    ∃ s tree s1, init_stream (e.render ++ spaces k) tok = .ok s ∧
      parse_expr (e.render ++ spaces k) s = .ok (tree, s1) ∧
      s1.token.kind = 0 ∧ s1.stream = (e.render ++ spaces k).length + 1 ∧
      next_token (e.render ++ spaces k) s1 = .error .bad_read ∧
      ∀ s2 : lexer_t, (e.render ++ spaces k).length < s2.stream →
        next_token (e.render ++ spaces k) s2 = .error .bad_read := by
  obtain ⟨s, tree, s1, h1, h2, _, h4, h5⟩ := parse_expr_text e hwf k tok
  exact ⟨s, tree, s1, h1, h2, h4, h5, next_token_past _ s1 (by omega),
    fun s2 h => next_token_past _ s2 h⟩

theorem parse_expr_reads_inside_witness :
    (sum_text.mk ⟨⟨[0], 0, [49]⟩, [⟨0, 42, ⟨[], 1, [50]⟩⟩]⟩ [⟨1, 43, ⟨⟨[], 1, [51]⟩, []⟩⟩]).wf ∧
    ∃ s tree s1, init_stream (cstr "~1* 2 + 3") token_zero = .ok s ∧
      parse_expr (cstr "~1* 2 + 3") s = .ok (tree, s1) ∧
      s1.token.kind = 0 ∧ s1.stream = (cstr "~1* 2 + 3").length + 1 ∧
      next_token (cstr "~1* 2 + 3") s1 = .error .bad_read ∧
      ∀ s2 : lexer_t, (cstr "~1* 2 + 3").length < s2.stream →
        next_token (cstr "~1* 2 + 3") s2 = .error .bad_read :=
  ⟨by decide, parse_expr_reads_inside
    ⟨⟨⟨[0], 0, [49]⟩, [⟨0, 42, ⟨[], 1, [50]⟩⟩]⟩, [⟨1, 43, ⟨⟨[], 1, [51]⟩, []⟩⟩]⟩ (by decide) 0
    token_zero⟩

/-! ## The run of compiled code in the arithmetic of the machine -/

/-- Reading back the four bytes of any integer gives its `s32` reduction. -/
theorem load32_le32_wrap (v : Int) (pre post : List Nat) :
    load32 (pre ++ le32 v ++ post) pre.length = .ok (wrap32 v) := by
  have h0 := getElem?_mid pre (le32 v) post 0 (by simp [le32])
  have h1 := getElem?_mid pre (le32 v) post 1 (by simp [le32])
  have h2 := getElem?_mid pre (le32 v) post 2 (by simp [le32])
  have h3 := getElem?_mid pre (le32 v) post 3 (by simp [le32])
  simp only [Nat.add_zero] at h0
  simp only [load32, h0, h1, h2, h3]
  simp only [le32, List.getElem?_cons_zero, List.getElem?_cons_succ]
  simp only [wrap32, Except.ok.injEq]
  omega

theorem vm_step_op_exec (mem : List Nat) (code k : Nat) (stack : List Int) (a b : Int)
    (hop : mem[code]? = some k) (hk : k = 43 ∨ k = 45 ∨ k = 42 ∨ k = 47)
    (hs : stack.length + 2 ≤ MAX_STACK) :
    vm_step mem code (b :: a :: stack) =
      (binop_s32 k a b >>= fun x => .ok (.next (code + 1) (x :: stack))) := by
  have h1 : stack.length + 1 ≤ MAX_STACK := by omega
  have h2 : stack.length < MAX_STACK := by omega
  rcases hk with rfl | rfl | rfl | rfl
  · simp [vm_step, hop, SUB, ADD, vm_binary, POPS, POP, PUSHES, PUSH, h1, h2, binop_s32]
  · simp [vm_step, hop, SUB, vm_binary, POPS, POP, PUSHES, PUSH, h1, h2, binop_s32]
  · simp [vm_step, hop, SUB, ADD, MUL, vm_binary, POPS, POP, PUSHES, PUSH, h1, h2, binop_s32]
  · cases hd : div_s32 a b with
    | error e =>
      simp [vm_step, hop, SUB, ADD, MUL, DIV, vm_binary, POPS, POP, PUSHES, PUSH, h1,
        binop_s32, hd]
    | ok x =>
      simp [vm_step, hop, SUB, ADD, MUL, DIV, vm_binary, POPS, POP, PUSHES, PUSH, h1, h2,
        binop_s32, hd]

theorem arith_need_pos (t : ast) (h : t.is_arith) : 1 ≤ t.need := by
  cases t with
  | null => exact absurd h (by simp [ast.is_arith])
  | int _ => simp [ast.need]
  | op k l r => simp only [ast.need]; omega

/-- Running the code of a tree of integer leaves and binary operators computes its value
in the arithmetic of the machine and pushes it, or stops at the fault of a division. -/
theorem vm_loop_exec :
    ∀ (t : ast), t.is_arith →
    ∀ (mem pre post : List Nat) (stack : List Int) (fuel : Nat),
      mem = pre ++ t.bytes ++ post → stack.length + t.need ≤ MAX_STACK →
      vm_loop mem (fuel + t.nodes) pre.length stack =
        (t.exec >>= fun v => vm_loop mem fuel (pre.length + t.bytes.length) (v :: stack)) := by
  intro t
  induction t with
  | null => intro h; exact absurd h (by simp [ast.is_arith])
  | int x =>
    intro _ mem pre post stack fuel hmem hneed
    simp only [ast.bytes, ast.need, ast.nodes, List.length_cons, le32_length] at *
    have hop : mem[pre.length]? = some LIT := by
      rw [hmem, List.append_assoc, List.getElem?_append_right (le_refl _)]
      simp [LIT]
    have hv : load32 mem (pre.length + 1) = .ok (wrap32 x) := by
      have := load32_le32_wrap x (pre ++ [2]) post
      simpa [hmem] using this
    rw [vm_loop, vm_step_lit mem pre.length stack (wrap32 x) hop hv (by omega)]
    rfl
  | op k l r ihl ihr =>
    intro h mem pre post stack fuel hmem hneed
    obtain ⟨hk, hl, hr⟩ := h
    have hrn := arith_need_pos r hr
    simp only [ast.bytes, ast.need, ast.nodes, List.length_append,
      List.length_singleton] at *
    have e1 := ihl hl mem pre (r.bytes ++ [k] ++ post) stack (fuel + 1 + r.nodes)
      (by simp [hmem]) (by omega)
    have hf : fuel + (l.nodes + r.nodes + 1) = fuel + 1 + r.nodes + l.nodes := by omega
    rw [hf, e1]
    simp only [ast.exec]
    cases hle : l.exec with
    | error e => rfl
    | ok a =>
      simp only [bind_ok_eq]
      have e2 := ihr hr mem (pre ++ l.bytes) ([k] ++ post) (a :: stack) (fuel + 1)
        (by simp [hmem]) (by simp only [List.length_cons]; omega)
      simp only [List.length_append] at e2
      rw [e2]
      cases hre : r.exec with
      | error e => rfl
      | ok b =>
        simp only [bind_ok_eq]
        have hop : mem[pre.length + l.bytes.length + r.bytes.length]? = some k := by
          have := getElem?_mid (pre ++ l.bytes ++ r.bytes) [k] post 0 (by simp)
          simpa [hmem, Nat.add_assoc] using this
        have e3 := vm_step_op_exec mem (pre.length + l.bytes.length + r.bytes.length) k
          stack a b hop hk (by omega)
        rw [vm_loop, e3]
        cases hb : binop_s32 k a b with
        | error e => rfl
        | ok x => simp only [bind_ok_eq, Nat.add_assoc]

theorem arith_exec_cases (t : ast) (h : t.is_arith) :
    (∃ v, t.exec = .ok v) ∨ t.exec = .error .bad_divide := by
  induction t with
  | null => exact absurd h (by simp [ast.is_arith])
  | int x => exact Or.inl ⟨_, rfl⟩
  | op k l r ihl ihr =>
    obtain ⟨hk, hl, hr⟩ := h
    simp only [ast.exec]
    rcases ihl hl with ⟨a, ha⟩ | ha
    · rcases ihr hr with ⟨b, hb⟩ | hb
      · simp only [ha, hb, bind_ok_eq]
        have hdiv : (∃ v, div_s32 a b = .ok v) ∨ div_s32 a b = .error .bad_divide := by
          unfold div_s32
          split
          · exact Or.inr rfl
          · exact Or.inl ⟨_, rfl⟩
        rcases hk with rfl | rfl | rfl | rfl
        · exact Or.inl ⟨wrap32 (a + b), by simp [binop_s32]⟩
        · exact Or.inl ⟨wrap32 (a - b), by simp [binop_s32]⟩
        · exact Or.inl ⟨wrap32 (a * b), by simp [binop_s32]⟩
        · simpa [binop_s32] using hdiv
      · simp [ha, hb]
    · simp [ha]

/-- The code of a tree followed by `HALT` returns the machine value of the tree. -/
theorem vm_exec_program_exec (t : ast) (ht : t.is_arith) (hn : t.need ≤ MAX_STACK)
    (post : List Nat) :
    vm_exec (t.bytes ++ [1] ++ post) = t.exec := by
  have hnodes := nodes_le_bytes t
  have hf : (t.bytes ++ [1] ++ post).length + 1 =
      (t.bytes ++ [1] ++ post).length - t.nodes + 1 + t.nodes := by
    simp only [List.length_append]; omega
  have hhalt : (t.bytes ++ [1] ++ post)[t.bytes.length]? = some HALT := by
    have := getElem?_mid t.bytes [1] post 0 (by simp)
    simpa [HALT] using this
  unfold vm_exec
  rw [hf]
  have hrun := vm_loop_exec t ht (t.bytes ++ [1] ++ post) [] ([1] ++ post) []
    ((t.bytes ++ [1] ++ post).length - t.nodes + 1) (by simp) (by simpa using hn)
  simp only [List.length_nil, Nat.zero_add] at hrun
  rw [hrun]
  cases he : t.exec with
  | error e => rfl
  | ok v =>
    have hstep := vm_step_halt (t.bytes ++ [1] ++ post) t.bytes.length [v] hhalt
    simp only at hstep
    simp only [bind_ok_eq]
    rw [vm_loop, hstep]
    rfl

theorem vm_step_lit_full (mem : List Nat) (code : Nat) (stack : List Int)
    (hop : mem[code]? = some LIT) (hs : ¬ stack.length < MAX_STACK) :
    vm_step mem code stack = .error .assert_failed := by
  have h1 : ¬ stack.length + 1 ≤ MAX_STACK := by omega
  simp [vm_step, hop, LIT, SUB, ADD, MUL, DIV, PUSHES, h1]

/-- Every pass through the loop head while the code of a tree runs satisfies `P`, if `P`
holds of the passes at an opcode other than `HALT` with at most `need` more values on
the stack, and of the passes behind the code of the tree. -/
theorem vm_trace_arith (P : Nat × Nat → Prop) :
    ∀ (t : ast), t.is_arith →
    ∀ (mem pre post : List Nat) (stack : List Int) (fuel : Nat),
      mem = pre ++ t.bytes ++ post → stack.length ≤ MAX_STACK →
      (∀ pc d, d ≤ stack.length + t.need → mem[pc]? ≠ some HALT → P (pc, d)) →
      (∀ v, t.exec = .ok v → stack.length < MAX_STACK →
        ∀ x ∈ vm_trace mem fuel (pre.length + t.bytes.length) (v :: stack), P x) →
      ∀ x ∈ vm_trace mem (fuel + t.nodes) pre.length stack, P x := by
  intro t
  induction t with
  | null => intro h; exact absurd h (by simp [ast.is_arith])
  | int v =>
    intro _ mem pre post stack fuel hmem hst hin hcont x hx
    simp only [ast.bytes, ast.need, ast.nodes, List.length_cons, le32_length] at *
    have hop : mem[pre.length]? = some LIT := by
      rw [hmem, List.append_assoc, List.getElem?_append_right (le_refl _)]
      simp [LIT]
    rw [vm_trace, List.mem_cons] at hx
    rcases hx with rfl | hx
    · exact hin _ _ (by omega) (by rw [hop]; simp [LIT, HALT])
    · by_cases hfull : stack.length < MAX_STACK
      · have hv : load32 mem (pre.length + 1) = .ok (wrap32 v) := by
          have := load32_le32_wrap v (pre ++ [2]) post
          simpa [hmem] using this
        rw [vm_step_lit mem pre.length stack (wrap32 v) hop hv hfull] at hx
        exact hcont (wrap32 v) rfl hfull x hx
      · rw [vm_step_lit_full mem pre.length stack hop hfull] at hx
        simp at hx
  | op k l r ihl ihr =>
    intro h mem pre post stack fuel hmem hst hin hcont
    obtain ⟨hk, hl, hr⟩ := h
    have hrn := arith_need_pos r hr
    simp only [ast.bytes, ast.need, ast.nodes, List.length_append,
      List.length_singleton] at *
    have hf : fuel + (l.nodes + r.nodes + 1) = fuel + 1 + r.nodes + l.nodes := by omega
    rw [hf]
    refine ihl hl mem pre (r.bytes ++ [k] ++ post) stack (fuel + 1 + r.nodes)
      (by simp [hmem]) hst (fun pc d hd hp => hin pc d (by omega) hp) ?_
    intro a ha hlt
    have := ihr hr mem (pre ++ l.bytes) ([k] ++ post) (a :: stack) (fuel + 1)
      (by simp [hmem]) (by simp only [List.length_cons]; omega)
      (fun pc d hd hp => hin pc d (by simp only [List.length_cons] at hd; omega) hp) ?_
    · simpa only [List.length_append] using this
    intro b hb hlt2 x hx
    simp only [List.length_cons] at hlt2
    have hop : mem[pre.length + l.bytes.length + r.bytes.length]? = some k := by
      have := getElem?_mid (pre ++ l.bytes ++ r.bytes) [k] post 0 (by simp)
      simpa [hmem, Nat.add_assoc] using this
    have e3 := vm_step_op_exec mem (pre.length + l.bytes.length + r.bytes.length) k
      stack a b hop hk (by omega)
    simp only [List.length_append] at hx
    rw [vm_trace, List.mem_cons] at hx
    rcases hx with rfl | hx
    · refine hin _ _ (by simp only [List.length_cons]; omega) ?_
      rw [hop]
      rcases hk with rfl | rfl | rfl | rfl <;> simp [HALT]
    · rw [e3] at hx
      cases hbin : binop_s32 k a b with
      | error e => simp [hbin] at hx
      | ok y =>
        simp only [hbin, bind_ok_eq] at hx
        refine hcont y (by simp [ast.exec, ha, hb, hbin]) (by omega) x ?_
        simpa only [Nat.add_assoc] using hx

/-- The passes through the loop head in the run of a compiled tree: never more than
`bound` values on the stack when the tree needs no more, and exactly one at `HALT`. -/
theorem vm_exec_trace_program (t : ast) (ht : t.is_arith) (post : List Nat) (bound : Nat)
    (hb : t.need ≤ bound) :
    ∀ x ∈ vm_exec_trace (t.bytes ++ [1] ++ post),
      x.2 ≤ bound ∧ ((t.bytes ++ [1] ++ post)[x.1]? = some HALT → x.2 = 1) := by
  have hnodes := nodes_le_bytes t
  have hpos := arith_need_pos t ht
  have hf : (t.bytes ++ [1] ++ post).length + 1 =
      (t.bytes ++ [1] ++ post).length - t.nodes + 1 + t.nodes := by
    simp only [List.length_append]; omega
  have hhalt : (t.bytes ++ [1] ++ post)[t.bytes.length]? = some HALT := by
    have := getElem?_mid t.bytes [1] post 0 (by simp)
    simpa [HALT] using this
  unfold vm_exec_trace
  rw [hf]
  have := vm_trace_arith
    (fun x => x.2 ≤ bound ∧ ((t.bytes ++ [1] ++ post)[x.1]? = some HALT → x.2 = 1))
    t ht (t.bytes ++ [1] ++ post) [] ([1] ++ post) []
    ((t.bytes ++ [1] ++ post).length - t.nodes + 1) (by simp) (by simp)
    (fun pc d hd hp => ⟨by simp only [List.length_nil] at hd; omega, fun hc => absurd hc hp⟩) ?_
  · simpa using this
  intro v _ _ x hx
  simp only [List.length_nil, Nat.zero_add] at hx
  rw [vm_trace, List.mem_cons] at hx
  rcases hx with rfl | hx
  · exact ⟨by simp only [List.length_singleton]; omega, fun _ => rfl⟩
  · have hstep := vm_step_halt (t.bytes ++ [1] ++ post) t.bytes.length [v] hhalt
    simp only at hstep
    rw [hstep] at hx
    simp at hx

theorem need_le_depth (t : ast) : t.need ≤ t.depth := by
  induction t with
  | null => simp [ast.need, ast.depth]
  | int v => simp [ast.need, ast.depth]
  | op k l r ihl ihr =>
    simp only [ast.need, ast.depth]
    omega

/-- C14: for a tree of integer leaves and binary operators of nesting depth `D`, the run
of the compiled bytecode never holds more than `D` values on the stack: at every pass
through the loop head of `vm_exec` the stack holds at most `D` values.  Hence with
`D <= MAX_STACK` no assertion on the stack fails: the run returns the machine value of the
tree, or stops at a division fault. -/
theorem vm_stack_depth (tree : node_t) (arena : memory_arena_t)
    (harith : tree.ast.is_arith) (hok : arena_ok arena) (hu : arena.used = 0)
    (hfit : tree.ast.bytes.length + 1 ≤ arena.size) :
    ∃ a1 a2, compile arena tree = .ok a1 ∧ push_op a1 HALT = .ok a2 ∧
      (∀ x ∈ vm_exec_trace a2.base, x.2 ≤ tree.ast.depth) ∧
      (tree.ast.depth ≤ MAX_STACK →
        vm_exec a2.base = tree.ast.exec ∧
        vm_exec a2.base ≠ .error .assert_failed ∧ vm_exec a2.base ≠ .error .bad_slot) := by
  obtain ⟨h1, h2, hbase⟩ := compile_halt tree arena harith hok hu hfit
  refine ⟨_, _, h1, h2, ?_, ?_⟩
  · rw [hbase]
    intro x hx
    exact (vm_exec_trace_program tree.ast harith _ tree.ast.depth (need_le_depth _) x hx).1
  · intro hd
    have hn := need_le_depth tree.ast
    have he := vm_exec_program_exec tree.ast harith (by omega)
      (arena.base.drop (tree.ast.bytes.length + 1))
    rw [hbase, he]
    refine ⟨rfl, ?_, ?_⟩ <;>
      rcases arith_exec_cases tree.ast harith with ⟨v, hv⟩ | hv <;> simp [hv]

theorem vm_stack_depth_witness :
    ∃ a1 a2,
      compile (fresh_arena 32) (.node ⟨43, 1, 2, 1⟩ (.node ⟨0, 0, 1, 1⟩ .null .null)
        (.node ⟨42, 3, 4, 2⟩ (.node ⟨0, 2, 3, 2⟩ .null .null)
          (.node ⟨0, 4, 5, 3⟩ .null .null))) = .ok a1 ∧
      push_op a1 HALT = .ok a2 ∧
      (∀ x ∈ vm_exec_trace a2.base, x.2 ≤ 3) ∧
      (3 ≤ MAX_STACK →
        vm_exec a2.base = .ok 7 ∧
        vm_exec a2.base ≠ .error .assert_failed ∧ vm_exec a2.base ≠ .error .bad_slot) :=
  vm_stack_depth (.node ⟨43, 1, 2, 1⟩ (.node ⟨0, 0, 1, 1⟩ .null .null)
      (.node ⟨42, 3, 4, 2⟩ (.node ⟨0, 2, 3, 2⟩ .null .null) (.node ⟨0, 4, 5, 3⟩ .null .null)))
    (fresh_arena 32) (by decide) (by decide) rfl (by decide)

/-! ## Trees of texts without `~` -/

theorem deref_mem (text : List Nat) (p c : Nat) (h : deref text p = .ok c) :
    c = 0 ∨ c ∈ text := by
  unfold deref at h
  cases hg : (text ++ [0])[p]? with
  | none => simp [hg] at h
  | some x =>
    simp only [hg, Except.ok.injEq] at h
    subst h
    have := List.getElem?_mem hg
    simp only [List.mem_append, List.mem_singleton] at this
    rcases this with h | h
    · exact Or.inr h
    · exact Or.inl h

theorem next_token_go_kind (text : List Nat) :
    ∀ (fuel : Nat) (s s1 : lexer_t), next_token_go text fuel s = .ok s1 →
      s1.token.kind = 0 ∨ s1.token.kind ∈ text := by
  intro fuel
  induction fuel with
  | zero => intro s s1 h; cases h
  | succ fuel ih =>
    intro s s1 h
    simp only [next_token_go] at h
    cases hd : deref text s.stream with
    | error e => simp [hd] at h
    | ok c =>
      simp only [hd, bind_ok_eq] at h
      split at h
      · cases hs : scan_int text (text.length + 2) s.stream 0 with
        | error e => simp [hs] at h
        | ok r =>
          simp only [hs, bind_ok_eq, pure_eq_ok] at h
          cases h
          exact Or.inl rfl
      · split at h
        · cases hr : next_token_go text fuel
            { token := { kind := c, start := s.stream, end_ := s.token.end_, val := s.token.val },
              stream := s.stream + 1 } with
          | error e => simp [hr] at h
          | ok r =>
            simp only [hr, bind_ok_eq, pure_eq_ok] at h
            have := ih _ _ hr
            cases h
            exact this
        · simp only [pure_eq_ok] at h
          cases h
          exact deref_mem text s.stream c hd

theorem next_token_no_tilde (text : List Nat) (s s1 : lexer_t) (h126 : 126 ∉ text)
    (h : next_token text s = .ok s1) : s1.token.kind ≠ 126 := by
  rcases next_token_go_kind text _ s s1 h with hk | hk
  · omega
  · intro hc
    rw [hc] at hk
    exact h126 hk

/-- On a text without `~` the atom layer returns a leaf. -/
theorem parse_expr3_plain (text : List Nat) (s s1 : lexer_t) (tree : node_t) (h126 : 126 ∉ text)
    (h : parse_expr3 text s = .ok (tree, s1)) :
    (tree.ast.is_arith ∧ tree.ast.need ≤ 1) ∧ s1.token.kind ≠ 126 := by
  unfold parse_expr3 at h
  split at h
  · rename_i hk
    cases hn : next_token text s with
    | error e => simp [hn] at h
    | ok s2 =>
      simp only [hn, bind_ok_eq, pure_eq_ok, create_node] at h
      have hk2 := next_token_no_tilde text s s2 h126 hn
      cases h
      have : s.token.kind = TOKEN_INT := by simpa [is_token] using hk
      exact ⟨by simp [node_t.ast, this, ast.is_arith, ast.need], hk2⟩
  · cases h

theorem parse_expr2_plain (text : List Nat) (s s1 : lexer_t) (tree : node_t) (h126 : 126 ∉ text)
    (hs : s.token.kind ≠ 126) (h : parse_expr2 text s = .ok (tree, s1)) :
    (tree.ast.is_arith ∧ tree.ast.need ≤ 1) ∧ s1.token.kind ≠ 126 := by
  unfold parse_expr2 at h
  rw [show text.length + 2 = (text.length + 1) + 1 from rfl, parse_expr2_go] at h
  have hk : is_token s 126 = false := by simpa [is_token] using hs
  simp only [hk] at h
  exact parse_expr3_plain text s s1 tree h126 h

theorem node_binary_ast (t : token_t) (l r : node_t)
    (hk : t.kind = 43 ∨ t.kind = 45 ∨ t.kind = 42 ∨ t.kind = 47) :
    (node_t.node t l r).ast = .op t.kind l.ast r.ast := by
  have : ¬ (t.kind = TOKEN_INT ∧ l = .null ∧ r = .null) := by
    intro h
    have := h.1
    simp only [TOKEN_INT] at this
    omega
  simp only [node_t.ast, this, if_false]

theorem parse_expr1_loop_plain (text : List Nat) (h126 : 126 ∉ text) :
    ∀ (fuel : Nat) (r : node_t) (s s1 : lexer_t) (tree : node_t), s.token.kind ≠ 126 →
      r.ast.is_arith ∧ r.ast.need ≤ 2 →
      parse_expr1_loop text fuel r s = .ok (tree, s1) →
      (tree.ast.is_arith ∧ tree.ast.need ≤ 2) ∧ s1.token.kind ≠ 126 := by
  intro fuel
  induction fuel with
  | zero => intro r s s1 tree _ _ h; cases h
  | succ fuel ih =>
    intro r s s1 tree hs hr h
    rw [parse_expr1_loop] at h
    split at h
    · rename_i hk
      cases hn : next_token text s with
      | error e => simp [hn] at h
      | ok s2 =>
        simp only [hn, bind_ok_eq, create_node] at h
        have hs2 := next_token_no_tilde text s s2 h126 hn
        cases hp : parse_expr2 text s2 with
        | error e => simp [hp] at h
        | ok q =>
          obtain ⟨x, s3⟩ := q
          simp only [hp, bind_ok_eq, node_t.set_right] at h
          obtain ⟨hx, hs3⟩ := parse_expr2_plain text s2 s3 x h126 hs2 hp
          refine ih _ s3 s1 tree hs3 ?_ h
          have hk1 : s.token.kind = 42 ∨ s.token.kind = 47 := by simpa [is_token] using hk
          rw [node_binary_ast _ _ _ (by omega)]
          refine ⟨⟨by omega, hr.1, hx.1⟩, ?_⟩
          simp only [ast.need]
          omega
    · simp only [pure_eq_ok] at h
      cases h
      exact ⟨hr, hs⟩

theorem parse_expr1_plain (text : List Nat) (s s1 : lexer_t) (tree : node_t) (h126 : 126 ∉ text)
    (hs : s.token.kind ≠ 126) (h : parse_expr1 text s = .ok (tree, s1)) :
    (tree.ast.is_arith ∧ tree.ast.need ≤ 2) ∧ s1.token.kind ≠ 126 := by
  unfold parse_expr1 at h
  cases hp : parse_expr2 text s with
  | error e => simp [hp] at h
  | ok q =>
    obtain ⟨x, s3⟩ := q
    simp only [hp, bind_ok_eq] at h
    obtain ⟨hx, hs3⟩ := parse_expr2_plain text s s3 x h126 hs hp
    exact parse_expr1_loop_plain text h126 _ x s3 s1 tree hs3 ⟨hx.1, by omega⟩ h

theorem parse_expr0_loop_plain (text : List Nat) (h126 : 126 ∉ text) :
    ∀ (fuel : Nat) (r : node_t) (s s1 : lexer_t) (tree : node_t), s.token.kind ≠ 126 →
      r.ast.is_arith ∧ r.ast.need ≤ 3 →
      parse_expr0_loop text fuel r s = .ok (tree, s1) →
      tree.ast.is_arith ∧ tree.ast.need ≤ 3 := by
  intro fuel
  induction fuel with
  | zero => intro r s s1 tree _ _ h; cases h
  | succ fuel ih =>
    intro r s s1 tree hs hr h
    rw [parse_expr0_loop] at h
    split at h
    · rename_i hk
      cases hn : next_token text s with
      | error e => simp [hn] at h
      | ok s2 =>
        simp only [hn, bind_ok_eq, create_node] at h
        have hs2 := next_token_no_tilde text s s2 h126 hn
        cases hp : parse_expr1 text s2 with
        | error e => simp [hp] at h
        | ok q =>
          obtain ⟨x, s3⟩ := q
          simp only [hp, bind_ok_eq, node_t.set_right] at h
          obtain ⟨hx, hs3⟩ := parse_expr1_plain text s2 s3 x h126 hs2 hp
          refine ih _ s3 s1 tree hs3 ?_ h
          have hk1 : s.token.kind = 43 ∨ s.token.kind = 45 := by simpa [is_token] using hk
          rw [node_binary_ast _ _ _ (by omega)]
          refine ⟨⟨by omega, hr.1, hx.1⟩, ?_⟩
          simp only [ast.need]
          omega
    · simp only [pure_eq_ok] at h
      cases h
      exact hr

/-- Every tree parsed from a text without `~` is made of integer leaves and binary
operators and needs at most 3 stack slots. -/
theorem parse_expr_plain (text : List Nat) (tok : token_t) (s s1 : lexer_t) (tree : node_t)
    (h126 : 126 ∉ text) (hi : init_stream text tok = .ok s)
    (h : parse_expr text s = .ok (tree, s1)) :
    tree.ast.is_arith ∧ tree.ast.need ≤ 3 := by
  have hs := next_token_no_tilde text _ s h126 hi
  unfold parse_expr parse_expr0 at h
  cases hp : parse_expr1 text s with
  | error e => simp [hp] at h
  | ok q =>
    obtain ⟨x, s3⟩ := q
    simp only [hp, bind_ok_eq] at h
    obtain ⟨hx, hs3⟩ := parse_expr1_plain text s s3 x h126 hs hp
    exact parse_expr0_loop_plain text h126 _ x s3 s1 tree hs3 ⟨hx.1, by omega⟩ h

/-- C20: for every text without `~` that `parse_expr` accepts, however long, the run of
the compiled bytecode holds at most 3 values on the stack at every pass through the loop
head of `vm_exec` and exactly one when `HALT` is reached; it returns the machine value of
the tree or stops at a division fault, so no assertion on the stack fails (no underflow, no
overflow: the limit of `MAX_STACK` slots is out of reach) and no opcode is illegal. -/
theorem parsed_code_stack (text : List Nat) (tok : token_t) (s s1 : lexer_t) (tree : node_t)
    (arena : memory_arena_t) (h126 : 126 ∉ text) (hi : init_stream text tok = .ok s)
    (hp : parse_expr text s = .ok (tree, s1)) (hok : arena_ok arena) (hu : arena.used = 0)
    (hfit : tree.ast.bytes.length + 1 ≤ arena.size) :
    ∃ a1 a2, compile arena tree = .ok a1 ∧ push_op a1 HALT = .ok a2 ∧
      (∀ x ∈ vm_exec_trace a2.base, x.2 ≤ 3 ∧ (a2.base[x.1]? = some HALT → x.2 = 1)) ∧
      vm_exec a2.base = tree.ast.exec ∧
      ((∃ v, vm_exec a2.base = .ok v) ∨ vm_exec a2.base = .error .bad_divide) := by
  obtain ⟨harith, hneed⟩ := parse_expr_plain text tok s s1 tree h126 hi hp
  obtain ⟨h1, h2, hbase⟩ := compile_halt tree arena harith hok hu hfit
  have he := vm_exec_program_exec tree.ast harith (by simp only [MAX_STACK]; omega)
    (arena.base.drop (tree.ast.bytes.length + 1))
  refine ⟨_, _, h1, h2, ?_, ?_, ?_⟩
  · rw [hbase]
    exact vm_exec_trace_program tree.ast harith _ 3 hneed
  · rw [hbase, he]
  · rw [hbase, he]
    exact arith_exec_cases tree.ast harith

theorem parsed_code_stack_witness :
    126 ∉ cstr "9-8/2" ∧
    init_stream (cstr "9-8/2") token_zero = .ok ⟨⟨0, 0, 1, 9⟩, 1⟩ ∧
    ∃ a1 a2,
      compile (fresh_arena 32) (.node ⟨45, 1, 2, 9⟩ (.node ⟨0, 0, 1, 9⟩ .null .null)
        (.node ⟨47, 3, 4, 8⟩ (.node ⟨0, 2, 3, 8⟩ .null .null)
          (.node ⟨0, 4, 5, 2⟩ .null .null))) = .ok a1 ∧
      push_op a1 HALT = .ok a2 ∧
      (∀ x ∈ vm_exec_trace a2.base, x.2 ≤ 3 ∧ (a2.base[x.1]? = some HALT → x.2 = 1)) ∧
      vm_exec a2.base = .ok 5 ∧
      ((∃ v, vm_exec a2.base = .ok v) ∨ vm_exec a2.base = .error .bad_divide) :=
  ⟨by decide, rfl,
    parsed_code_stack (cstr "9-8/2") token_zero ⟨⟨0, 0, 1, 9⟩, 1⟩ ⟨⟨0, 5, 6, 2⟩, 6⟩
      (.node ⟨45, 1, 2, 9⟩ (.node ⟨0, 0, 1, 9⟩ .null .null)
        (.node ⟨47, 3, 4, 8⟩ (.node ⟨0, 2, 3, 8⟩ .null .null) (.node ⟨0, 4, 5, 2⟩ .null .null)))
      (fresh_arena 32) (by decide) rfl rfl (by decide) rfl (by decide)⟩

/-! ## Runs on the same arena -/

theorem push_op_same (a a1 : memory_arena_t) (op : Nat) (h : push_op a op = .ok a1) :
    a1.size = a.size ∧ a1.base.length = a.base.length := by
  unfold push_op push_size store8 at h
  split at h
  · simp only [bind_ok_eq] at h
    split at h
    · simp only [bind_ok_eq, pure_eq_ok, Except.ok.injEq] at h
      subst h
      simp
    · simp at h
  · simp at h

theorem push_lit_same (a a1 : memory_arena_t) (v : Int) (h : push_lit a v = .ok a1) :
    a1.size = a.size ∧ a1.base.length = a.base.length := by
  unfold push_lit at h
  cases h0 : push_op a LIT with
  | error e => simp [h0] at h
  | ok a0 =>
    obtain ⟨e1, e2⟩ := push_op_same a a0 LIT h0
    simp only [h0, bind_ok_eq] at h
    unfold push_size store32 at h
    split at h
    · simp only [bind_ok_eq] at h
      split at h
      · split at h
        · simp only [bind_ok_eq, pure_eq_ok, Except.ok.injEq] at h
          subst h
          simp [e1, e2]
        · simp at h
      · simp at h
    · simp at h

theorem compile_same :
    ∀ (tree : node_t) (a a1 : memory_arena_t), compile a tree = .ok a1 →
      a1.size = a.size ∧ a1.base.length = a.base.length := by
  intro tree
  induction tree with
  | null => intro a a1 h; simp [compile] at h
  | node t l r ihl ihr =>
    intro a a1 h
    rw [compile] at h
    split at h
    · exact push_lit_same a a1 t.val h
    · cases h1 : compile a l with
      | error e => simp [h1] at h
      | ok b1 =>
        simp only [h1, bind_ok_eq] at h
        cases h2 : compile b1 r with
        | error e => simp [h2] at h
        | ok b2 =>
          simp only [h2, bind_ok_eq] at h
          obtain ⟨x1, x2⟩ := ihl a b1 h1
          obtain ⟨y1, y2⟩ := ihr b1 b2 h2
          obtain ⟨z1, z2⟩ := push_op_same b2 a1 t.kind h
          exact ⟨by omega, by omega⟩

/-- A run of `parse_expr_str` that returns leaves the arena reset, with the size and the
buffer length it had. -/
theorem parse_expr_str_leaves (arena a : memory_arena_t) (tok : token_t) (str : List Nat)
    (r : Int) (s : lexer_t) (h : parse_expr_str arena tok str = .ok (r, a, s)) :
    a.used = 0 ∧ a.size = arena.size ∧ a.base.length = arena.base.length := by
  unfold parse_expr_str at h
  cases h1 : init_stream str tok with
  | error e => simp [h1] at h
  | ok s0 =>
    simp only [h1, bind_ok_eq] at h
    cases h2 : parse_expr str s0 with
    | error e => simp [h2] at h
    | ok q =>
      obtain ⟨tree, s1⟩ := q
      simp only [h2, bind_ok_eq] at h
      cases h3 : compile arena tree with
      | error e => simp [h3] at h
      | ok a1 =>
        simp only [h3, bind_ok_eq] at h
        cases h4 : push_op a1 HALT with
        | error e => simp [h4] at h
        | ok a2 =>
          simp only [h4, bind_ok_eq] at h
          cases h5 : vm_exec a2.base with
          | error e => simp [h5] at h
          | ok v =>
            simp only [h5, bind_ok_eq, pure_eq_ok, Except.ok.injEq, Prod.mk.injEq] at h
            obtain ⟨_, ha, _⟩ := h
            subst ha
            obtain ⟨x1, x2⟩ := compile_same tree arena a1 h3
            obtain ⟨y1, y2⟩ := push_op_same a1 a2 HALT h4
            exact ⟨rfl, by simp only [reset_arena]; omega, by simp only [reset_arena]; omega⟩

/-- On a well-formed text without `~` whose code fits, `parse_expr_str` returns the machine
value of the expression, whatever the buffer holds and whatever token the last run left. -/
theorem parse_expr_str_exec (e : sum_text) (arena : memory_arena_t) (tok : token_t)
    (hwf : e.wf) (h126 : 126 ∉ e.render) (hok : arena_ok arena) (hu : arena.used = 0)
    (hfit : e.tree.bytes.length + 1 ≤ arena.size) :
    (parse_expr_str arena tok e.render).map Prod.fst = e.tree.exec := by
  obtain ⟨s, tree, s1, h1, h2, h3, _⟩ := parse_expr_text e hwf 0 tok
  simp only [spaces, List.replicate_zero, List.append_nil] at h1 h2
  obtain ⟨harith, hneed⟩ := parse_expr_plain e.render tok s s1 tree h126 h1 h2
  rw [← h3] at hfit ⊢
  obtain ⟨hc1, hc2, hbase⟩ := compile_halt tree arena harith hok hu hfit
  have he := vm_exec_program_exec tree.ast harith (by simp only [MAX_STACK]; omega)
    (arena.base.drop (tree.ast.bytes.length + 1))
  simp only [parse_expr_str, h1, h2, bind_ok_eq, hc1, hc2, hbase, he]
  cases tree.ast.exec with
  | error e => rfl
  | ok v => rfl

/-- C12: no run contaminates the next.  After any run of `parse_expr_str` that returned,
on an arena with any content, the arena is reset (`used = 0`), and a second run on it, with
the globals as the first run left them, gives for a well-formed text without `~` whose
code fits the same result as a run on a freshly initialised arena of the same size over
any buffer, from any state of the globals: the machine value of the expression.  A second
run that returns leaves `used = 0` again. -/
theorem no_cross_run_contamination (str1 : List Nat) (e2 : sum_text)
    (arena a1 : memory_arena_t) (tok tok0 : token_t) (base0 : List Nat) (r1 : Int)
    (s1 : lexer_t) (hwf : e2.wf) (h126 : 126 ∉ e2.render) (hok : arena_ok arena)
    (hfit : e2.tree.bytes.length + 1 ≤ arena.size) (hb0 : arena.size ≤ base0.length)
    (h1 : parse_expr_str arena tok str1 = .ok (r1, a1, s1)) :
    a1.used = 0 ∧
    (parse_expr_str a1 s1.token e2.render).map Prod.fst =
      (parse_expr_str (init_arena arena arena.size base0) tok0 e2.render).map Prod.fst ∧
    (parse_expr_str a1 s1.token e2.render).map Prod.fst = e2.tree.exec ∧
    ∀ r2 a2 s2, parse_expr_str a1 s1.token e2.render = .ok (r2, a2, s2) → a2.used = 0 := by
  obtain ⟨hu1, hs1, hl1⟩ := parse_expr_str_leaves arena a1 tok str1 r1 s1 h1
  have hok1 : arena_ok a1 := ⟨by omega, by have := hok.2.1; omega, by have := hok.2.2; omega⟩
  have hok0 : arena_ok (init_arena arena arena.size base0) :=
    ⟨by simp [init_arena], by simpa [init_arena] using hb0, by simpa [init_arena] using hok.2.2⟩
  have e1 := parse_expr_str_exec e2 a1 s1.token hwf h126 hok1 hu1 (by omega)
  have e0 := parse_expr_str_exec e2 (init_arena arena arena.size base0) tok0 hwf h126 hok0 rfl
    (by simpa [init_arena] using hfit)
  refine ⟨hu1, by rw [e1, e0], e1, ?_⟩
  intro r2 a2 s2 h2
  exact (parse_expr_str_leaves a1 a2 s1.token e2.render r2 s2 h2).1

/-- C12 at the texts `2+3*4` and `20-5-3`, on a buffer of 24 bytes. -/
theorem no_cross_run_contamination_witness :
    parse_expr_str (init_arena ⟨0, 0, [], 0⟩ 24 (List.replicate 24 7)) token_zero
        (cstr "2+3*4") =
      .ok (14, ⟨24, 0, [2, 2, 0, 0, 0, 2, 3, 0, 0, 0, 2, 4, 0, 0, 0, 42, 43, 1, 7, 7, 7, 7, 7, 7],
        0⟩, ⟨⟨0, 5, 6, 4⟩, 6⟩) ∧
    (parse_expr_str
        ⟨24, 0, [2, 2, 0, 0, 0, 2, 3, 0, 0, 0, 2, 4, 0, 0, 0, 42, 43, 1, 7, 7, 7, 7, 7, 7], 0⟩
        ⟨0, 5, 6, 4⟩ (cstr "20-5-3")).map Prod.fst =
      (parse_expr_str (init_arena (init_arena ⟨0, 0, [], 0⟩ 24 (List.replicate 24 7)) 24
        (List.replicate 24 0)) token_zero (cstr "20-5-3")).map Prod.fst ∧
    (parse_expr_str
        ⟨24, 0, [2, 2, 0, 0, 0, 2, 3, 0, 0, 0, 2, 4, 0, 0, 0, 42, 43, 1, 7, 7, 7, 7, 7, 7], 0⟩
        ⟨0, 5, 6, 4⟩ (cstr "20-5-3")).map Prod.fst = .ok 12 :=
  ⟨rfl,
    (no_cross_run_contamination (cstr "2+3*4")
      ⟨⟨⟨[], 0, [50, 48]⟩, []⟩, [⟨0, 45, ⟨⟨[], 0, [53]⟩, []⟩⟩, ⟨0, 45, ⟨⟨[], 0, [51]⟩, []⟩⟩]⟩
      (init_arena ⟨0, 0, [], 0⟩ 24 (List.replicate 24 7)) _ token_zero token_zero
      (List.replicate 24 0) 14 ⟨⟨0, 5, 6, 4⟩, 6⟩ (by decide) (by decide) (by decide)
      (by decide) (by decide) rfl).2.1,
    (no_cross_run_contamination (cstr "2+3*4")
      ⟨⟨⟨[], 0, [50, 48]⟩, []⟩, [⟨0, 45, ⟨⟨[], 0, [53]⟩, []⟩⟩, ⟨0, 45, ⟨⟨[], 0, [51]⟩, []⟩⟩]⟩
      (init_arena ⟨0, 0, [], 0⟩ 24 (List.replicate 24 7)) _ token_zero token_zero
      (List.replicate 24 0) 14 ⟨⟨0, 5, 6, 4⟩, 6⟩ (by decide) (by decide) (by decide)
      (by decide) (by decide) rfl).2.2.1⟩

/-! ## The exact tree of an expression text, whatever follows it -/

theorem lookahead_of_val (text : List Nat) (p : Nat) (val : Int) (s : lexer_t)
    (h : lookahead_val text p val s) : lookahead text p s := by
  obtain ⟨t, _, ht⟩ := h
  exact ⟨t, ht⟩

/-- The state when `next_token` was called in front of an operator character. -/
theorem lookahead_val_char (text pre rest : List Nat) (n c : Nat) (val : Int) (s : lexer_t)
    (htext : text = pre ++ spaces n ++ c :: rest) (hd : isdigit c = false) (hs : c ≠ 32)
    (h : lookahead_val text pre.length val s) :
    s = ⟨⟨c, pre.length + n, pre.length + n + 1, val⟩, pre.length + n + 1⟩ := by
  obtain ⟨t, hv, ht⟩ := h
  have := next_token_char pre (c :: rest) n t (by simpa using hd) (by simpa using hs)
  rw [← htext, ht] at this
  cases this
  simp [hv]

/-- `parse_expr2` on the text of a factor returns exactly the nodes of the factor. -/
theorem parse_expr2_go_node (sp : Nat) (digits rest : List Nat)
    (hne : digits ≠ []) (hds : ∀ c ∈ digits, isdigit c = true)
    (hrest : isdigit (rest.headD 0) = false) :
    ∀ (tildes : List Nat) (text pre : List Nat) (fuel : Nat) (t : token_t),
      text = pre ++ (factor_text.mk tildes sp digits).render ++ rest → tildes.length < fuel →
      ∃ s s1, next_token text ⟨t, pre.length⟩ = .ok s ∧
        parse_expr2_go text fuel s =
          .ok (factor_text.node_go sp digits t.val tildes pre.length, s1) ∧
        lookahead_val text (pre.length + (factor_text.mk tildes sp digits).render.length)
          (atoi digits) s1 := by
  intro tildes
  induction tildes with
  | nil =>
    intro text pre fuel t htext hfuel
    obtain ⟨fuel, rfl⟩ : ∃ k, fuel = k + 1 := ⟨fuel - 1, by simp at hfuel; omega⟩
    have htext1 : text = pre ++ spaces sp ++ digits ++ rest := by
      simp [htext, factor_text.render]
    have hs := next_token_int pre digits rest sp t hne hds hrest
    rw [← htext1] at hs
    obtain ⟨s1, h1, _, _⟩ := next_token_total text
      ⟨TOKEN_INT, pre.length + sp, pre.length + sp + digits.length, atoi digits⟩
      (pre.length + sp + digits.length) (by simp [htext1, spaces]; omega)
    refine ⟨_, s1, hs, ?_, ?_⟩
    · simp only [TOKEN_INT] at h1 ⊢
      simp [parse_expr2_go, parse_expr3, is_token, TOKEN_INT, create_node, h1,
        factor_text.node_go]
    · refine ⟨⟨TOKEN_INT, pre.length + sp, pre.length + sp + digits.length, atoi digits⟩,
        rfl, ?_⟩
      simpa [factor_text.render, spaces, Nat.add_assoc] using h1
  | cons n ts ih =>
    intro text pre fuel t htext hfuel
    obtain ⟨fuel, rfl⟩ : ∃ k, fuel = k + 1 := ⟨fuel - 1, by simp at hfuel; omega⟩
    have htext1 : text = pre ++ spaces n ++
        (126 :: ((factor_text.mk ts sp digits).render ++ rest)) := by
      simp [htext, factor_text.render]
    have hs := next_token_char pre (126 :: ((factor_text.mk ts sp digits).render ++ rest)) n t
      (by simp [isdigit]) (by simp)
    rw [← htext1] at hs
    simp only [List.headD_cons] at hs
    obtain ⟨s2, s3, h2, h3, h5⟩ := ih text (pre ++ spaces n ++ [126]) fuel
      ⟨126, pre.length + n, pre.length + n + 1, t.val⟩ (by simp [htext1])
      (by simp at hfuel; omega)
    simp only [List.length_append, List.length_singleton, spaces, List.length_replicate]
      at h2 h3 h5
    refine ⟨_, s3, hs, ?_, ?_⟩
    · simp only [parse_expr2_go, is_token, create_node]
      simp [h2, h3, node_t.set_left, factor_text.node_go]
    · have : pre.length + (factor_text.mk (n :: ts) sp digits).render.length =
          pre.length + n + 1 + (factor_text.mk ts sp digits).render.length := by
        simp [factor_text.render, spaces]; omega
      rw [this]; exact h5

/-- `parse_expr2` on the text of a factor returns exactly the nodes of the factor. -/
theorem parse_expr2_node (f : factor_text) (hf : f.wf) (text pre rest : List Nat)
    (t : token_t) (htext : text = pre ++ f.render ++ rest)
    (hrest : isdigit (rest.headD 0) = false) :
    ∃ s s1, next_token text ⟨t, pre.length⟩ = .ok s ∧
      parse_expr2 text s = .ok (f.node pre.length t.val, s1) ∧
      lookahead_val text (pre.length + f.render.length) (atoi f.digits) s1 := by
  obtain ⟨tildes, sp, digits⟩ := f
  have hlen := factor_tildes_le tildes sp digits
  exact parse_expr2_go_node sp digits rest hf.1 hf.2 hrest tildes text pre (text.length + 2) t
    htext (by simp [htext]; omega)

/-- The loop of `parse_expr1` on a sequence of operators `* /` and factors returns exactly
their nodes, folded to the left. -/
theorem parse_expr1_loop_node :
    ∀ (items : List op_factor), (∀ x ∈ items, (x.op = 42 ∨ x.op = 47) ∧ x.arg.wf) →
    ∀ (text pre rest : List Nat) (fuel : Nat) (r : node_t) (s : lexer_t) (val : Int),
      text = pre ++ (items.map op_factor.render).flatten ++ rest →
      items.length < fuel →
      isdigit (rest.headD 0) = false →
      (∀ s1, lookahead text (pre.length + (items.map op_factor.render).flatten.length) s1 →
        s1.token.kind ≠ 42 ∧ s1.token.kind ≠ 47) →
      lookahead_val text pre.length val s →
      ∃ s1, parse_expr1_loop text fuel r s = .ok (op_factors_node items pre.length val r, s1) ∧
        lookahead_val text (pre.length + (items.map op_factor.render).flatten.length)
          (op_factors_val items val) s1 := by
  intro items
  induction items with
  | nil =>
    intro _ text pre rest fuel r s val htext hfuel hrest hstop hs
    obtain ⟨fuel, rfl⟩ : ∃ k, fuel = k + 1 := ⟨fuel - 1, by simp at hfuel; omega⟩
    have hk := hstop s (by simpa using lookahead_of_val _ _ _ _ hs)
    refine ⟨s, ?_, by simpa [op_factors_val] using hs⟩
    simp [parse_expr1_loop, is_token, hk.1, hk.2, op_factors_node]
  | cons x xs ih =>
    intro hops text pre rest fuel r s val htext hfuel hrest hstop hs
    obtain ⟨fuel, rfl⟩ : ∃ k, fuel = k + 1 := ⟨fuel - 1, by simp at hfuel; omega⟩
    have hx := hops x (by simp)
    have hxs : ∀ y ∈ xs, (y.op = 42 ∨ y.op = 47) ∧ y.arg.wf :=
      fun y hy => hops y (by simp [hy])
    have hopd : isdigit x.op = false := by rcases hx.1 with h | h <;> simp [h, isdigit]
    have hop32 : x.op ≠ 32 := by rcases hx.1 with h | h <;> simp [h]
    have htext1 : text = pre ++ spaces x.sp ++
        x.op :: (x.arg.render ++ ((xs.map op_factor.render).flatten ++ rest)) := by
      simp [htext, op_factor.render]
    have hseq := lookahead_val_char text pre _ x.sp x.op val s htext1 hopd hop32 hs
    obtain ⟨s2, s3, h2, h3, h5⟩ := parse_expr2_node x.arg hx.2 text
      (pre ++ spaces x.sp ++ [x.op]) ((xs.map op_factor.render).flatten ++ rest) s.token
      (by simp [htext1]) (op_factors_head xs rest hxs hrest)
    have hlen1 : (pre ++ spaces x.sp ++ [x.op]).length = pre.length + x.sp + 1 := by
      simp [spaces]; omega
    rw [hlen1] at h2 h3 h5
    have hs2 : next_token text s = .ok s2 := by rw [← h2, hseq]
    have hlen2 : pre.length + ((x :: xs).map op_factor.render).flatten.length =
        (pre ++ op_factor.render x).length + (xs.map op_factor.render).flatten.length := by
      simp; omega
    have hlen3 : pre.length + x.sp + 1 + x.arg.render.length =
        (pre ++ op_factor.render x).length := by
      simp [op_factor.render, spaces]; omega
    rw [hlen3] at h5
    obtain ⟨s4, h6, h8⟩ := ih hxs text (pre ++ op_factor.render x) rest fuel
      (.node s.token r (x.arg.node (pre.length + x.sp + 1) s.token.val)) s3
      (atoi x.arg.digits) (by simp [htext]) (by simp at hfuel; omega) hrest
      (by rw [← hlen2]; exact hstop) h5
    refine ⟨s4, ?_, by rw [hlen2]; exact h8⟩
    have hor : (is_token s 42 || is_token s 47) = true := by
      rcases hx.1 with h | h <;> simp [is_token, hseq, h]
    rw [parse_expr1_loop]
    simp only [hor, if_true, create_node, hs2, bind_ok_eq, h3, node_t.set_right]
    rw [h6]
    simp [op_factors_node, hseq]

/-- `parse_expr1` on the text of a term returns exactly the nodes of the term. -/
theorem parse_expr1_node (tm : term_text) (hwf : tm.wf) (text pre rest : List Nat)
    (t : token_t) (htext : text = pre ++ tm.render ++ rest)
    (hrest : isdigit (rest.headD 0) = false)
    (hstop : ∀ s1, lookahead text (pre.length + tm.render.length) s1 →
      s1.token.kind ≠ 42 ∧ s1.token.kind ≠ 47) :
    ∃ s s1, next_token text ⟨t, pre.length⟩ = .ok s ∧
      parse_expr1 text s = .ok (tm.node pre.length t.val, s1) ∧
      lookahead_val text (pre.length + tm.render.length) tm.last s1 := by
  obtain ⟨first, items⟩ := tm
  obtain ⟨hf, hitems⟩ := hwf
  simp only [term_text.render] at htext hstop ⊢
  obtain ⟨s, s1, h1, h2, h4⟩ := parse_expr2_node first hf text pre
    ((items.map op_factor.render).flatten ++ rest) t (by simp [htext])
    (op_factors_head items rest hitems hrest)
  have hlen : pre.length + (first.render ++ (items.map op_factor.render).flatten).length =
      (pre ++ first.render).length + (items.map op_factor.render).flatten.length := by
    simp; omega
  have hl := op_factors_length items
  obtain ⟨s2, h5, h7⟩ := parse_expr1_loop_node items hitems text (pre ++ first.render)
    rest (text.length + 2) (first.node pre.length t.val) s1 (atoi first.digits)
    (by simp [htext])
    (by rw [htext]; simp only [List.length_append]; omega) hrest
    (by rw [← hlen]; exact hstop) (by simpa using h4)
  refine ⟨s, s2, h1, ?_, by rw [hlen]; exact h7⟩
  simp only [parse_expr1, h2, bind_ok_eq, h5]
  simp [term_text.node]

/-- The loop of `parse_expr0` on a sequence of operators `+ -` and terms returns exactly
their nodes, folded to the left. -/
theorem parse_expr0_loop_node :
    ∀ (items : List op_term), (∀ x ∈ items, (x.op = 43 ∨ x.op = 45) ∧ x.arg.wf) →
    ∀ (text pre rest : List Nat) (fuel : Nat) (r : node_t) (s : lexer_t) (val : Int),
      text = pre ++ (items.map op_term.render).flatten ++ rest →
      items.length < fuel →
      isdigit (rest.headD 0) = false →
      (∀ s1, lookahead text (pre.length + (items.map op_term.render).flatten.length) s1 →
        (s1.token.kind ≠ 42 ∧ s1.token.kind ≠ 47) ∧ s1.token.kind ≠ 43 ∧ s1.token.kind ≠ 45) →
      lookahead_val text pre.length val s →
      ∃ s1, parse_expr0_loop text fuel r s = .ok (op_terms_node items pre.length val r, s1) ∧
        lookahead_val text (pre.length + (items.map op_term.render).flatten.length)
          (op_terms_val items val) s1 := by
  intro items
  induction items with
  | nil =>
    intro _ text pre rest fuel r s val htext hfuel hrest hstop hs
    obtain ⟨fuel, rfl⟩ : ∃ k, fuel = k + 1 := ⟨fuel - 1, by simp at hfuel; omega⟩
    have hk := hstop s (by simpa using lookahead_of_val _ _ _ _ hs)
    refine ⟨s, ?_, by simpa [op_terms_val] using hs⟩
    simp [parse_expr0_loop, is_token, hk.2.1, hk.2.2, op_terms_node]
  | cons x xs ih =>
    intro hops text pre rest fuel r s val htext hfuel hrest hstop hs
    obtain ⟨fuel, rfl⟩ : ∃ k, fuel = k + 1 := ⟨fuel - 1, by simp at hfuel; omega⟩
    have hx := hops x (by simp)
    have hxs : ∀ y ∈ xs, (y.op = 43 ∨ y.op = 45) ∧ y.arg.wf :=
      fun y hy => hops y (by simp [hy])
    have hopd : isdigit x.op = false := by rcases hx.1 with h | h <;> simp [h, isdigit]
    have hop32 : x.op ≠ 32 := by rcases hx.1 with h | h <;> simp [h]
    have htext1 : text = pre ++ spaces x.sp ++
        x.op :: (x.arg.render ++ ((xs.map op_term.render).flatten ++ rest)) := by
      simp [htext, op_term.render]
    have hseq := lookahead_val_char text pre _ x.sp x.op val s htext1 hopd hop32 hs
    have hlen1 : (pre ++ spaces x.sp ++ [x.op]).length = pre.length + x.sp + 1 := by
      simp [spaces]; omega
    have hlen2 : pre.length + ((x :: xs).map op_term.render).flatten.length =
        (pre ++ op_term.render x).length + (xs.map op_term.render).flatten.length := by
      simp; omega
    have hlen3 : pre.length + x.sp + 1 + x.arg.render.length =
        (pre ++ op_term.render x).length := by
      simp [op_term.render, spaces]; omega
    have hstop1 : ∀ s1, lookahead text
        ((pre ++ op_term.render x).length + (xs.map op_term.render).flatten.length) s1 →
        (s1.token.kind ≠ 42 ∧ s1.token.kind ≠ 47) ∧ s1.token.kind ≠ 43 ∧ s1.token.kind ≠ 45 := by
      rw [← hlen2]; exact hstop
    obtain ⟨s2, s3, h2, h3, h5⟩ := parse_expr1_node x.arg hx.2 text
      (pre ++ spaces x.sp ++ [x.op]) ((xs.map op_term.render).flatten ++ rest) s.token
      (by simp [htext1]) (op_terms_head xs rest hxs hrest)
      (by
        rw [hlen1, hlen3]
        exact op_terms_stop xs text (pre ++ op_term.render x) rest hxs (by simp [htext])
          (fun s1 h => (hstop1 s1 h).1))
    rw [hlen1] at h2 h3 h5
    have hs2 : next_token text s = .ok s2 := by rw [← h2, hseq]
    rw [hlen3] at h5
    obtain ⟨s4, h6, h8⟩ := ih hxs text (pre ++ op_term.render x) rest fuel
      (.node s.token r (x.arg.node (pre.length + x.sp + 1) s.token.val)) s3
      x.arg.last (by simp [htext]) (by simp at hfuel; omega) hrest hstop1 h5
    refine ⟨s4, ?_, by rw [hlen2]; exact h8⟩
    have hor : (is_token s 43 || is_token s 45) = true := by
      rcases hx.1 with h | h <;> simp [is_token, hseq, h]
    rw [parse_expr0_loop]
    simp only [hor, if_true, create_node, hs2, bind_ok_eq, h3, node_t.set_right]
    rw [h6]
    simp [op_terms_node, hseq]

/-- `parse_expr` on the text of an expression, whatever follows it, returns exactly the
nodes of the expression, as long as the token behind it is not a binary operator. -/
theorem parse_expr_node (e : sum_text) (hwf : e.wf) (text pre rest : List Nat)
    (t : token_t) (htext : text = pre ++ e.render ++ rest)
    (hrest : isdigit (rest.headD 0) = false)
    (hstop : ∀ s1, lookahead text (pre.length + e.render.length) s1 →
      (s1.token.kind ≠ 42 ∧ s1.token.kind ≠ 47) ∧ s1.token.kind ≠ 43 ∧ s1.token.kind ≠ 45) :
    ∃ s s1, next_token text ⟨t, pre.length⟩ = .ok s ∧
      parse_expr text s = .ok (e.node pre.length t.val, s1) ∧
      lookahead text (pre.length + e.render.length) s1 := by
  obtain ⟨first, items⟩ := e
  obtain ⟨hf, hitems⟩ := hwf
  simp only [sum_text.render] at htext hstop ⊢
  have hlen : pre.length + (first.render ++ (items.map op_term.render).flatten).length =
      (pre ++ first.render).length + (items.map op_term.render).flatten.length := by
    simp; omega
  have hstop1 : ∀ s1, lookahead text
      ((pre ++ first.render).length + (items.map op_term.render).flatten.length) s1 →
      (s1.token.kind ≠ 42 ∧ s1.token.kind ≠ 47) ∧ s1.token.kind ≠ 43 ∧ s1.token.kind ≠ 45 := by
    rw [← hlen]; exact hstop
  obtain ⟨s, s1, h1, h2, h4⟩ := parse_expr1_node first hf text pre
    ((items.map op_term.render).flatten ++ rest) t (by simp [htext])
    (op_terms_head items rest hitems hrest)
    (by
      have := op_terms_stop items text (pre ++ first.render) rest hitems (by simp [htext])
        (fun s1 h => (hstop1 s1 h).1)
      simpa using this)
  have hl := op_terms_length items
  obtain ⟨s2, h5, h7⟩ := parse_expr0_loop_node items hitems text (pre ++ first.render)
    rest (text.length + 2) (first.node pre.length t.val) s1 first.last (by simp [htext])
    (by rw [htext]; simp only [List.length_append]; omega) hrest
    hstop1 (by simpa using h4)
  refine ⟨s, s2, h1, ?_, by rw [hlen]; exact lookahead_of_val _ _ _ _ h7⟩
  simp only [parse_expr, parse_expr0, h2, bind_ok_eq, h5]
  simp [sum_text.node]

/-- A text is a run of spaces followed by a text that does not begin with a space. -/
theorem first_nonspace_split (rest : List Nat) :
    rest = spaces (rest.takeWhile (· = 32)).length ++ rest.dropWhile (· = 32) ∧
    first_char (rest.dropWhile (· = 32)) ≠ 32 := by
  constructor
  · have h1 : spaces (rest.takeWhile (· = 32)).length = rest.takeWhile (· = 32) := by
      symm
      apply List.eq_replicate_iff.mpr
      refine ⟨rfl, fun c hc => ?_⟩
      simpa using List.mem_takeWhile_imp hc
    rw [h1, List.takeWhile_append_dropWhile]
  · have := List.head?_dropWhile_not (· = 32) rest
    cases h : rest.dropWhile (· = 32) with
    | nil => simp [first_char]
    | cons c l =>
      rw [h] at this
      simpa [first_char] using this

/-- `init_stream` and `parse_expr` on the text of an expression followed by a suffix that
does not continue it: the parse returns the nodes of the expression. -/
theorem parse_expr_suffix (e : sum_text) (hwf : e.wf) (sfx : List Nat) (tok : token_t)
    (hd : isdigit (first_char sfx) = false)
    (hop : first_nonspace sfx ≠ 43 ∧ first_nonspace sfx ≠ 45 ∧
      first_nonspace sfx ≠ 42 ∧ first_nonspace sfx ≠ 47) :
    ∃ s s1, init_stream (e.render ++ sfx) tok = .ok s ∧
      parse_expr (e.render ++ sfx) s = .ok (e.node 0 tok.val, s1) := by
  obtain ⟨hsplit, h32⟩ := first_nonspace_split sfx
  have hstop : ∀ s1, lookahead (e.render ++ sfx) e.render.length s1 →
      (s1.token.kind ≠ 42 ∧ s1.token.kind ≠ 47) ∧ s1.token.kind ≠ 43 ∧ s1.token.kind ≠ 45 := by
    intro s1 ⟨t, ht⟩
    have := next_token_any e.render (sfx.dropWhile (· = 32)) (sfx.takeWhile (· = 32)).length t h32
    rw [List.append_assoc, ← hsplit, ht] at this
    simp only [first_nonspace] at hop
    by_cases hdig : isdigit (first_char (sfx.dropWhile (· = 32))) = true
    · simp only [hdig, if_true] at this
      cases this
      simp [TOKEN_INT]
    · simp only [hdig] at this
      cases this
      simp [hop.1, hop.2.1, hop.2.2.1, hop.2.2.2]
  obtain ⟨s, s1, h1, h2, _⟩ := parse_expr_node e hwf (e.render ++ sfx) [] sfx tok (by simp)
    (by simpa [first_char] using hd) (by simpa using hstop)
  exact ⟨s, s1, h1, by simpa using h2⟩

/-- C13: trailing input is silently ignored.  For every well-formed expression text `e`
and every suffix `sfx` that does not begin with a digit and whose first non-space
character is none of `+ - * /`, `init_stream` and `parse_expr` on `e` followed by `sfx`
succeed and return exactly the tree, spans and stored values included, that they return
on `e` alone. -/
theorem parse_expr_ignores_suffix (e : sum_text) (hwf : e.wf) (sfx : List Nat) (tok : token_t)
    (hd : isdigit (first_char sfx) = false)
    (hop : first_nonspace sfx ≠ 43 ∧ first_nonspace sfx ≠ 45 ∧
      first_nonspace sfx ≠ 42 ∧ first_nonspace sfx ≠ 47) :
    ∃ tree l l1 m m1, init_stream e.render tok = .ok l ∧
      parse_expr e.render l = .ok (tree, l1) ∧
      init_stream (e.render ++ sfx) tok = .ok m ∧
      parse_expr (e.render ++ sfx) m = .ok (tree, m1) := by
  obtain ⟨m, m1, h1, h2⟩ := parse_expr_suffix e hwf sfx tok hd hop
  obtain ⟨l, l1, h3, h4⟩ := parse_expr_suffix e hwf [] tok (by decide)
    (by decide)
  simp only [List.append_nil] at h3 h4
  exact ⟨_, l, l1, m, m1, h3, h4, h1, h2⟩

/-- C13 at the text `1+2*3` followed by ` )x`. -/
theorem parse_expr_ignores_suffix_witness :
    (sum_text.mk ⟨⟨[], 0, [49]⟩, []⟩ [⟨0, 43, ⟨⟨[], 0, [50]⟩, [⟨0, 42, ⟨[], 0, [51]⟩⟩]⟩⟩]).wf ∧
    (sum_text.mk ⟨⟨[], 0, [49]⟩, []⟩
      [⟨0, 43, ⟨⟨[], 0, [50]⟩, [⟨0, 42, ⟨[], 0, [51]⟩⟩]⟩⟩]).render = [49, 43, 50, 42, 51] ∧
    isdigit (first_char [32, 41, 120]) = false ∧
    first_nonspace [32, 41, 120] = 41 ∧
    ∃ tree l l1 m m1,
      init_stream (sum_text.mk ⟨⟨[], 0, [49]⟩, []⟩
        [⟨0, 43, ⟨⟨[], 0, [50]⟩, [⟨0, 42, ⟨[], 0, [51]⟩⟩]⟩⟩]).render token_zero = .ok l ∧
      parse_expr (sum_text.mk ⟨⟨[], 0, [49]⟩, []⟩
        [⟨0, 43, ⟨⟨[], 0, [50]⟩, [⟨0, 42, ⟨[], 0, [51]⟩⟩]⟩⟩]).render l = .ok (tree, l1) ∧
      init_stream ((sum_text.mk ⟨⟨[], 0, [49]⟩, []⟩
        [⟨0, 43, ⟨⟨[], 0, [50]⟩, [⟨0, 42, ⟨[], 0, [51]⟩⟩]⟩⟩]).render ++ [32, 41, 120])
        token_zero = .ok m ∧
      parse_expr ((sum_text.mk ⟨⟨[], 0, [49]⟩, []⟩
        [⟨0, 43, ⟨⟨[], 0, [50]⟩, [⟨0, 42, ⟨[], 0, [51]⟩⟩]⟩⟩]).render ++ [32, 41, 120]) m =
        .ok (tree, m1) :=
  ⟨by decide, by decide, by decide, by decide,
    parse_expr_ignores_suffix
      (sum_text.mk ⟨⟨[], 0, [49]⟩, []⟩ [⟨0, 43, ⟨⟨[], 0, [50]⟩, [⟨0, 42, ⟨[], 0, [51]⟩⟩]⟩⟩])
      (by decide) [32, 41, 120] token_zero (by decide) (by decide)⟩

end Day3
